import Mathlib

/-!
Verification development for the LOLCODE-markdown compiler
(`src/compiler/src/{token,lexer,parser,semantic}.rs`).

The pipeline is embedded shallowly:
  * the lexer (`lexer.rs`) as a fuel-indexed character-consuming function over
    an explicit state `LexSt` (remaining input, 1-indexed line/column);
  * the parser (`parser.rs`) as fuel-indexed recursive-descent functions over
    the token list produced by the lexer;
  * the semantic analyzer and HTML generator (`semantic.rs`) as mutually
    recursive traversals of the AST threading a scope-stack state.

Rust-side fatal `exit(1)` calls are modelled as error results (`LexRes.err`,
`PRes.err`); fuel exhaustion is the distinguished outcome `.out`, proved
unreachable for sufficient fuel.  All definitions are kernel-computable.
-/

namespace Lolcode

/-! ## Tokens (`token.rs`) -/

/-- Token kinds, mirroring `TokenKind` in `token.rs` (including the variants
`Address` and `VarVal` that the lexer itself never produces). -/
inductive TokenKind where
  | hashWord (s : String)
  | keyword (s : String)
  | address (s : String)
  | text (s : String)
  | varDef (s : String)
  | varVal (s : String)
  | newline
  | eof
deriving DecidableEq, Repr

/-- A token with its 1-indexed source position, mirroring `Token`. -/
structure Token where
  kind : TokenKind
  line : Nat
  col : Nat
deriving DecidableEq, Repr

/-! ## Lexer (`lexer.rs`) -/

/-- Lexer state: the unconsumed input and the current 1-indexed position.
This is the `Lexer` struct of `lexer.rs` with the `CharIndices` iterator and
lookahead replaced by the remaining character list. -/
structure LexSt where
  input : List Char
  line : Nat
  col : Nat
deriving DecidableEq, Repr

/-- A fatal lexical error, as printed by `error_exit`: the lexer's current
line and column at the moment of the call, and the message. -/
structure LexError where
  line : Nat
  col : Nat
  msg : String
deriving DecidableEq, Repr

/-- Result of a fallible lexer computation: success, a fatal lexical error
(Rust `error_exit` + `exit(1)`), or fuel exhaustion (never reached when the
fuel exceeds the input length). -/
inductive LexRes (α : Type) where
  | ok (a : α)
  | err (e : LexError)
  | out
deriving DecidableEq, Repr

/-- Consume one character, updating line/column exactly as `Lexer::bump`
does: a newline moves to column 1 of the next line, anything else advances
the column.  On empty input the state is unchanged (Rust returns `None`). -/
def bump (st : LexSt) : LexSt :=
  match st.input with
  | [] => st
  | c :: rest => if c = '\n' then ⟨rest, st.line + 1, 1⟩ else ⟨rest, st.line, st.col + 1⟩

/-- Skip spaces and tabs (the loop at the top of `get_next_token`).
Spaces and tabs are never newlines, so only the column advances. -/
def skipSpacesGo : List Char → Nat → Nat → LexSt
  | [], l, c => ⟨[], l, c⟩
  | ch :: rest, l, c =>
    if ch = ' ' ∨ ch = '\t' then skipSpacesGo rest l (c + 1) else ⟨ch :: rest, l, c⟩

/-- Skip spaces and tabs from a lexer state. -/
def skipSpaces (st : LexSt) : LexSt := skipSpacesGo st.input st.line st.col

/-- Greedily read ASCII-alphabetic characters (the word loops of
`read_hash_word` and `skip_multiline_comment`), returning the word and the
rest of the input. -/
def readAlphaChars : List Char → List Char × List Char
  | [] => ([], [])
  | ch :: rest =>
    if ch.isAlpha then
      let r := readAlphaChars rest
      (ch :: r.1, r.2)
    else ([], ch :: rest)

/-- Greedily read ASCII-alphanumeric characters (the loop of `read_word`). -/
def readAlnumChars : List Char → List Char × List Char
  | [] => ([], [])
  | ch :: rest =>
    if ch.isAlphanum then
      let r := readAlnumChars rest
      (ch :: r.1, r.2)
    else ([], ch :: rest)

/-- Read characters up to (not including) the next newline or `#`
(the loop of `read_text_line`). -/
def readTextChars : List Char → List Char × List Char
  | [] => ([], [])
  | ch :: rest =>
    if ch = '\n' ∨ ch = '#' then ([], ch :: rest)
    else
      let r := readTextChars rest
      (ch :: r.1, r.2)

/-- Uppercase a character list (Rust `to_ascii_uppercase`, characterwise). -/
def listUpper (l : List Char) : List Char := l.map Char.toUpper

/-- Characters removed by Rust's `str::trim` that can occur inside a text
run (a text run never contains a newline, see `readTextChars`). -/
def isTrimmable (c : Char) : Bool := c = ' ' || c = '\t' || c = '\r'

/-- Trim leading and trailing whitespace from a character list
(`text.trim()` in `read_text_line`). -/
def trimChars (l : List Char) : List Char :=
  ((l.dropWhile isTrimmable).reverse.dropWhile isTrimmable).reverse

/-- The closed hashtag-word set of `Lexer::is_hash_word`. -/
def isHashWord (upper : String) : Bool :=
  upper == "HAI" || upper == "KTHXBYE" || upper == "OBTW" || upper == "TLDR" ||
  upper == "MAEK" || upper == "OIC" || upper == "GIMMEH" || upper == "MKAY" ||
  upper == "I HAZ" || upper == "IT IZ" || upper == "LEMME SEE"

/-- The closed keyword set of `Lexer::is_keyword`. -/
def isKeyword (upper : String) : Bool :=
  upper == "HEAD" || upper == "TITLE" || upper == "PARAGRAF" || upper == "BOLD" ||
  upper == "ITALICS" || upper == "LIST" || upper == "ITEM" || upper == "NEWLINE" ||
  upper == "SOUNDZ" || upper == "VIDZ"

/-- The lexer's `lookup`: keywords or hashtag words (in that order). -/
def lookup (s : String) : Bool := isKeyword s || isHashWord s

/-- Skip a multi-line `#OBTW ... #TLDR` comment (`skip_multiline_comment`):
scan forward; at a `#`, consume it and the following alphabetic word, and
stop when that word uppercases to `TLDR`; end of input is the fatal
"Unclosed comment block" error at the current position. -/
def skipMultilineComment : Nat → LexSt → LexRes LexSt
  | 0, _ => .out
  | fuel + 1, st =>
    match st.input with
    | [] => .err ⟨st.line, st.col, "Unclosed comment block - missing #TLDR"⟩
    | ch :: _ =>
      if ch = '#' then
        let st1 := bump st
        let p := readAlphaChars st1.input
        let st2 : LexSt := ⟨p.2, st1.line, st1.col + p.1.length⟩
        if String.mk (listUpper p.1) = "TLDR" then .ok st2
        else skipMultilineComment fuel st2
      else skipMultilineComment fuel (bump st)

/-- Result of `read_hash_word`: a token, a skipped comment (after which the
caller fetches the next real token), a fatal error, or fuel exhaustion. -/
inductive HashRes where
  | tok (t : Token) (st : LexSt)
  | comment (st : LexSt)
  | err (e : LexError)
  | out
deriving DecidableEq, Repr

/-- Read a hashtag word (`read_hash_word`): consume `#`, read the first
alphabetic word, attempt the one-shot two-word merge for `I`/`IT`/`LEMME`
followed by a single space (the consumed space and second word are not
un-consumed on a failed merge), validate the resulting word with `lookup`
(fatal error at the current position otherwise), and treat `OBTW` as the
start of a multi-line comment. -/
def readHashWord (fuel : Nat) (st : LexSt) (startLine startCol : Nat) : HashRes :=
  let st1 := bump st
  let p := readAlphaChars st1.input
  let firstWord := String.mk (listUpper p.1)
  let st2 : LexSt := ⟨p.2, st1.line, st1.col + p.1.length⟩
  let m : String × LexSt :=
    if firstWord = "I" ∧ st2.input.head? = some ' ' then
      let st3 := bump st2
      let q := readAlphaChars st3.input
      let st4 : LexSt := ⟨q.2, st3.line, st3.col + q.1.length⟩
      if String.mk (listUpper q.1) = "HAZ" then ("I HAZ", st4) else (firstWord, st4)
    else if firstWord = "IT" ∧ st2.input.head? = some ' ' then
      let st3 := bump st2
      let q := readAlphaChars st3.input
      let st4 : LexSt := ⟨q.2, st3.line, st3.col + q.1.length⟩
      if String.mk (listUpper q.1) = "IZ" then ("IT IZ", st4) else (firstWord, st4)
    else if firstWord = "LEMME" ∧ st2.input.head? = some ' ' then
      let st3 := bump st2
      let q := readAlphaChars st3.input
      let st4 : LexSt := ⟨q.2, st3.line, st3.col + q.1.length⟩
      if String.mk (listUpper q.1) = "SEE" then ("LEMME SEE", st4) else (firstWord, st4)
    else (firstWord, st2)
  let fullWord := m.1
  let st5 := m.2
  if lookup fullWord = false then
    .err ⟨st5.line, st5.col, "Unrecognized hashtag word '#" ++ fullWord ++ "'"⟩
  else if fullWord = "OBTW" then
    match skipMultilineComment fuel st5 with
    | .ok st6 => .comment st6
    | .err e => .err e
    | .out => .out
  else
    .tok ⟨.hashWord ("#" ++ fullWord), startLine, startCol⟩ st5

/-- Read a bare word (`read_word`): greedy alphanumeric characters; a word
accepted by `lookup` becomes a `Keyword` token of its uppercase form,
anything else a `VarDef` token of the original text. -/
def readWord (st : LexSt) (startLine startCol : Nat) : Token × LexSt :=
  let p := readAlnumChars st.input
  let upper := String.mk (listUpper p.1)
  let st' : LexSt := ⟨p.2, st.line, st.col + p.1.length⟩
  if lookup upper then (⟨.keyword upper, startLine, startCol⟩, st')
  else (⟨.varDef (String.mk p.1), startLine, startCol⟩, st')

/-- Read a plain text run (`read_text_line`): characters up to a newline or
`#`, trimmed; an empty trimmed run produces no token (the caller then
fetches the next real token). -/
def readTextLine (st : LexSt) (startLine startCol : Nat) : Option Token × LexSt :=
  let p := readTextChars st.input
  let st' : LexSt := ⟨p.2, st.line, st.col + p.1.length⟩
  let trimmed := trimChars p.1
  if trimmed = [] then (none, st')
  else (some ⟨.text (String.mk trimmed), startLine, startCol⟩, st')

/-- The lexer's `get_next_token`: skip spaces/tabs, remember the start
position, then dispatch on the next character — end of input yields `Eof`,
a newline yields a `Newline` token, `#` a hashtag word (recursing after a
skipped comment), an alphabetic character a word, and anything else a text
run (recursing when the trimmed run is empty). -/
def getNextToken : Nat → LexSt → LexRes (Token × LexSt)
  | 0, _ => .out
  | fuel + 1, st0 =>
    let st := skipSpaces st0
    let startLine := st.line
    let startCol := st.col
    match st.input with
    | [] => .ok (⟨.eof, startLine, startCol⟩, st)
    | ch :: _ =>
      if ch = '\n' then .ok (⟨.newline, startLine, startCol⟩, bump st)
      else if ch = '#' then
        match readHashWord (fuel + 1) st startLine startCol with
        | .tok t st' => .ok (t, st')
        | .comment st' => getNextToken fuel st'
        | .err e => .err e
        | .out => .out
      else if ch.isAlpha then .ok (readWord st startLine startCol)
      else
        match readTextLine st startLine startCol with
        | (some t, st') => .ok (t, st')
        | (none, st') => getNextToken fuel st'

/-- Canonical fuel for one `get_next_token` call: always sufficient. -/
def nextTok (st : LexSt) : LexRes (Token × LexSt) :=
  getNextToken (st.input.length + 1) st

/-- Repeatedly call `get_next_token` until `Eof`, collecting the tokens
(this is the driver loop of `main.rs`, and the stream the parser pulls). -/
def lexTokens : Nat → LexSt → LexRes (List Token)
  | 0, _ => .out
  | fuel + 1, st =>
    match nextTok st with
    | .ok (t, st') =>
      if t.kind = .eof then .ok [t]
      else
        match lexTokens fuel st' with
        | .ok ts => .ok (t :: ts)
        | .err e => .err e
        | .out => .out
    | .err e => .err e
    | .out => .out

/-- Initial lexer state for a source string (line 1, column 1). -/
def initSt (src : String) : LexSt := ⟨src.data, 1, 1⟩

/-- Tokenize a whole source string. -/
def lexAll (src : String) : LexRes (List Token) :=
  lexTokens (src.data.length + 1) (initSt src)

example :
    lexAll "#HAI\n#KTHXBYE\n" =
      .ok [⟨.hashWord "#HAI", 1, 1⟩, ⟨.newline, 1, 5⟩, ⟨.hashWord "#KTHXBYE", 2, 1⟩,
           ⟨.newline, 2, 9⟩, ⟨.eof, 3, 1⟩] := by decide

example :
    lexAll "#OBTW hi #TLDR x1" =
      .ok [⟨.varDef "x1", 1, 16⟩, ⟨.eof, 1, 18⟩] := by decide

/-! ## Abstract syntax tree (`parser.rs`, `enum ASTNode`) -/

mutual
/-- The parser's AST.  `Vec<ASTNode>` children are modelled by the mutually
defined list type `ASTList` so that all traversals are structurally
recursive (and hence kernel-computable). -/
inductive ASTNode where
  | program (children : ASTList)
  | headSection (children : ASTList)
  | paragrafSection (children : ASTList)
  | listSection (children : ASTList)
  | variableDeclaration (name : String)
  | variableAssignment (name : String) (value : String)
  | variableReference (name : String)
  | title (content : String)
  | text (content : String)
  | bold (content : ASTList)
  | italics (content : ASTList)
  | item (content : ASTList)
  | newline
  | sound (url : String)
  | video (url : String)
deriving DecidableEq, Repr
/-- A list of AST nodes (`Vec<ASTNode>`). -/
inductive ASTList where
  | nil
  | cons (head : ASTNode) (tail : ASTList)
deriving DecidableEq, Repr
end

/-! ## Parser (`parser.rs`, `LolcodeParser`) -/

/-- A fatal syntax error: `syntax_error` prints the current lookahead
token's line and column and the message, then exits. -/
structure PErr where
  line : Nat
  col : Nat
  msg : String
deriving DecidableEq, Repr

/-- Result of a parser computation: a value plus the remaining tokens, a
fatal syntax error, or fuel exhaustion. -/
inductive PRes (α : Type) where
  | ok (a : α) (rest : List Token)
  | err (e : PErr)
  | out
deriving DecidableEq, Repr

/-- The parser's one-token lookahead (`current_tok`).  The lexer yields
`Eof` forever once the input is exhausted, so an empty remaining list reads
as an `Eof` token (its position is immaterial: `lexAll` always ends the
list with the real `Eof` token, which is never consumed). -/
def cur : List Token → Token
  | [] => ⟨.eof, 0, 0⟩
  | t :: _ => t

/-- Advance past the current token (`next_token`). -/
def adv : List Token → List Token
  | [] => []
  | _ :: rest => rest

/-- Rust `{:?}` debug rendering of a `TokenKind`, as interpolated into the
parser's error messages. -/
def tokenKindDebug : TokenKind → String
  | .hashWord s => "HashWord(\"" ++ s ++ "\")"
  | .keyword s => "Keyword(\"" ++ s ++ "\")"
  | .address s => "Address(\"" ++ s ++ "\")"
  | .text s => "Text(\"" ++ s ++ "\")"
  | .varDef s => "VarDef(\"" ++ s ++ "\")"
  | .varVal s => "VarVal(\"" ++ s ++ "\")"
  | .newline => "Newline"
  | .eof => "Eof"

/-- Build the syntax error for the current token (`syntax_error`). -/
def syntaxErr (ts : List Token) (msg : String) : PErr :=
  ⟨(cur ts).line, (cur ts).col, msg⟩

/-- Require the current token to be the given hashtag word and consume it
(`match_hashword`). -/
def matchHashword (expected : String) (ts : List Token) : PRes Unit :=
  match (cur ts).kind with
  | .hashWord hw =>
    if hw = expected then .ok () (adv ts)
    else .err (syntaxErr ts ("Expected '" ++ expected ++ "' but found " ++
      tokenKindDebug (cur ts).kind))
  | _ => .err (syntaxErr ts ("Expected '" ++ expected ++ "' but found " ++
      tokenKindDebug (cur ts).kind))

/-- Require the current token to be the given keyword and consume it
(`match_keyword`). -/
def matchKeyword (expected : String) (ts : List Token) : PRes Unit :=
  match (cur ts).kind with
  | .keyword kw =>
    if kw = expected then .ok () (adv ts)
    else .err (syntaxErr ts ("Expected keyword '" ++ expected ++ "' but found " ++
      tokenKindDebug (cur ts).kind))
  | _ => .err (syntaxErr ts ("Expected keyword '" ++ expected ++ "' but found " ++
      tokenKindDebug (cur ts).kind))

/-- Skip optional newline tokens (`skip_newlines`). -/
def skipNewlines : List Token → List Token
  | t :: rest => if t.kind = .newline then skipNewlines rest else t :: rest
  | [] => []

/-- Trim a built-up string (Rust `str::trim` on parser-accumulated values,
which never contain newlines). -/
def strTrim (s : String) : String := String.mk (trimChars s.data)

/-- Parse a variable declaration `#I HAZ name` (`variable_declaration`). -/
def variableDeclarationF (ts : List Token) : PRes ASTNode :=
  match matchHashword "#I HAZ" ts with
  | .ok _ ts1 =>
    match (cur ts1).kind with
    | .varDef name => .ok (.variableDeclaration name) (adv ts1)
    | _ => .err (syntaxErr ts1 "Expected variable name after #I HAZ")
  | .err e => .err e
  | .out => .out

/-- The value-collecting loop of `variable_assignment`: concatenate text
and identifier tokens (no separator) until `#MKAY`; any other token —
including a newline — breaks the loop without being consumed. -/
def assignValueLoop (acc : String) : List Token → String × List Token
  | [] => (acc, [])
  | t :: rest =>
    match t.kind with
    | .text s => assignValueLoop (acc ++ s) rest
    | .varDef s => assignValueLoop (acc ++ s) rest
    | _ => (acc, t :: rest)

/-- Parse a variable assignment `#IT IZ value #MKAY`
(`variable_assignment`).  The node's name is left empty — the semantic
passes bind it positionally to the most recent declaration. -/
def variableAssignmentF (ts : List Token) : PRes ASTNode :=
  match matchHashword "#IT IZ" ts with
  | .ok _ ts1 =>
    let p := assignValueLoop "" ts1
    match matchHashword "#MKAY" p.2 with
    | .ok _ ts2 => .ok (.variableAssignment "" (strTrim p.1)) ts2
    | .err e => .err e
    | .out => .out
  | .err e => .err e
  | .out => .out

/-- Parse a variable reference `#LEMME SEE name #MKAY`
(`variable_reference`). -/
def variableReferenceF (ts : List Token) : PRes ASTNode :=
  match matchHashword "#LEMME SEE" ts with
  | .ok _ ts1 =>
    match (cur ts1).kind with
    | .varDef name =>
      match matchHashword "#MKAY" (adv ts1) with
      | .ok _ ts2 => .ok (.variableReference name) ts2
      | .err e => .err e
      | .out => .out
    | _ => .err (syntaxErr ts1 "Expected variable name after #LEMME SEE")
  | .err e => .err e
  | .out => .out

/-- The title-collecting loop of `head_content`: text and identifier
tokens joined with single spaces, newlines skipped, `#MKAY` ends the loop,
anything else is a fatal syntax error. -/
def titleLoop (acc : String) : List Token → PRes String
  | [] => .err (syntaxErr [] ("Unexpected token in TITLE: " ++ tokenKindDebug .eof))
  | t :: rest =>
    match t.kind with
    | .hashWord hw =>
      if hw = "#MKAY" then .ok acc (t :: rest)
      else .err ⟨t.line, t.col, "Unexpected token in TITLE: " ++ tokenKindDebug t.kind⟩
    | .text s => titleLoop (if acc = "" then s else acc ++ " " ++ s) rest
    | .varDef s => titleLoop (if acc = "" then s else acc ++ " " ++ s) rest
    | .newline => titleLoop acc rest
    | _ => .err ⟨t.line, t.col, "Unexpected token in TITLE: " ++ tokenKindDebug t.kind⟩

/-- Parse one head entry `#GIMMEH TITLE text #MKAY` (`head_content`). -/
def headContentF (ts : List Token) : PRes ASTNode :=
  match matchHashword "#GIMMEH" ts with
  | .ok _ ts1 =>
    match matchKeyword "TITLE" ts1 with
    | .ok _ ts2 =>
      match titleLoop "" ts2 with
      | .ok titleText ts3 =>
        match matchHashword "#MKAY" ts3 with
        | .ok _ ts4 => .ok (.title (strTrim titleText)) ts4
        | .err e => .err e
        | .out => .out
      | .err e => .err e
      | .out => .out
    | .err e => .err e
    | .out => .out
  | .err e => .err e
  | .out => .out

/-- The URL-collecting loop of `styled_text` for `SOUNDZ`/`VIDZ`: text,
identifier and address tokens concatenated, newlines skipped, `#MKAY` (or
any other unhandled token) ends the loop without being consumed. -/
def urlLoop (acc : String) : List Token → String × List Token
  | [] => (acc, [])
  | t :: rest =>
    match t.kind with
    | .text s => urlLoop (acc ++ s) rest
    | .varDef s => urlLoop (acc ++ s) rest
    | .address s => urlLoop (acc ++ s) rest
    | .newline => urlLoop acc rest
    | _ => (acc, t :: rest)

/-- The inline-content loop shared by `styled_text` (BOLD/ITALICS) and
`list_item` (their Rust loops are textually identical): `#MKAY` ends the
loop, `#LEMME SEE` parses a nested variable reference, text/identifier
tokens become `Text` nodes, anything else breaks out silently.  Fueled:
every iteration consumes at least one token, so any fuel exceeding the
token count is sufficient. -/
def styledLoopF : Nat → List Token → PRes ASTList
  | 0, _ => .out
  | fuel + 1, ts =>
    match (cur ts).kind with
    | .hashWord hw =>
      if hw = "#MKAY" then .ok .nil ts
      else if hw = "#LEMME SEE" then
        match variableReferenceF ts with
        | .ok n ts1 =>
          match styledLoopF fuel ts1 with
          | .ok ns ts2 => .ok (.cons n ns) ts2
          | .err e => .err e
          | .out => .out
        | .err e => .err e
        | .out => .out
      else .ok .nil ts
    | .text s =>
      match styledLoopF fuel (adv ts) with
      | .ok ns ts1 => .ok (.cons (.text s) ns) ts1
      | .err e => .err e
      | .out => .out
    | .varDef s =>
      match styledLoopF fuel (adv ts) with
      | .ok ns ts1 => .ok (.cons (.text s) ns) ts1
      | .err e => .err e
      | .out => .out
    | _ => .ok .nil ts

/-- Parse a styled-text construct `#GIMMEH style ...` (`styled_text`):
`NEWLINE` yields a `Newline` node immediately (no `#MKAY`), `SOUNDZ`/`VIDZ`
collect a URL up to `#MKAY`, and other keywords collect inline content up
to `#MKAY` (`BOLD`/`ITALICS` wrap it; any other keyword degenerates to a
`Text` node reading "style text"). -/
def styledTextF (ts : List Token) : PRes ASTNode :=
  match matchHashword "#GIMMEH" ts with
  | .ok _ ts1 =>
    match (cur ts1).kind with
    | .keyword style =>
      let ts2 := adv ts1
      if style = "NEWLINE" then .ok .newline ts2
      else if style = "SOUNDZ" ∨ style = "VIDZ" then
        let p := urlLoop "" ts2
        match matchHashword "#MKAY" p.2 with
        | .ok _ ts3 =>
          if style = "SOUNDZ" then .ok (.sound (strTrim p.1)) ts3
          else .ok (.video (strTrim p.1)) ts3
        | .err e => .err e
        | .out => .out
      else
        match styledLoopF (ts2.length + 1) ts2 with
        | .ok content ts3 =>
          match matchHashword "#MKAY" ts3 with
          | .ok _ ts4 =>
            if style = "BOLD" then .ok (.bold content) ts4
            else if style = "ITALICS" then .ok (.italics content) ts4
            else .ok (.text (style ++ " text")) ts4
          | .err e => .err e
          | .out => .out
        | .err e => .err e
        | .out => .out
    | _ => .err (syntaxErr ts1 "Expected style keyword after #GIMMEH")
  | .err e => .err e
  | .out => .out

/-- Parse one list item `#GIMMEH ITEM content #MKAY` (`list_item`); the
content loop is `styledLoopF` (identical Rust code). -/
def listItemF (ts : List Token) : PRes ASTNode :=
  match matchHashword "#GIMMEH" ts with
  | .ok _ ts1 =>
    match matchKeyword "ITEM" ts1 with
    | .ok _ ts2 =>
      match styledLoopF (ts2.length + 1) ts2 with
      | .ok content ts3 =>
        match matchHashword "#MKAY" ts3 with
        | .ok _ ts4 => .ok (.item content) ts4
        | .err e => .err e
        | .out => .out
      | .err e => .err e
      | .out => .out
    | .err e => .err e
    | .out => .out
  | .err e => .err e
  | .out => .out

/-- The item loop of `list_section`: parse `list_item`s (skipping newlines
in between) until `#OIC` is the lookahead. -/
def listLoopF : Nat → List Token → PRes ASTList
  | 0, _ => .out
  | fuel + 1, ts =>
    if (cur ts).kind = TokenKind.hashWord "#OIC" then .ok .nil ts
    else
      match listItemF ts with
      | .ok n ts1 =>
        match listLoopF fuel (skipNewlines ts1) with
        | .ok ns ts2 => .ok (.cons n ns) ts2
        | .err e => .err e
        | .out => .out
      | .err e => .err e
      | .out => .out

/-- Parse a list section (`list_section`). -/
def listSectionF (ts : List Token) : PRes ASTNode :=
  match matchKeyword "LIST" ts with
  | .ok _ ts1 =>
    match listLoopF (ts1.length + 1) (skipNewlines ts1) with
    | .ok items ts2 =>
      match matchHashword "#OIC" ts2 with
      | .ok _ ts3 => .ok (.listSection items) ts3
      | .err e => .err e
      | .out => .out
    | .err e => .err e
    | .out => .out
  | .err e => .err e
  | .out => .out

/-- The content loop of `head_section`: `#OIC` ends it, `#GIMMEH` starts a
head entry, and any other non-newline token breaks out silently (the
following `match_hashword("#OIC")` then reports the error). -/
def headLoopF : Nat → List Token → PRes ASTList
  | 0, _ => .out
  | fuel + 1, ts0 =>
    let ts := skipNewlines ts0
    match (cur ts).kind with
    | .hashWord hw =>
      if hw = "#OIC" then .ok .nil ts
      else if hw = "#GIMMEH" then
        match headContentF ts with
        | .ok n ts1 =>
          match headLoopF fuel ts1 with
          | .ok ns ts2 => .ok (.cons n ns) ts2
          | .err e => .err e
          | .out => .out
        | .err e => .err e
        | .out => .out
      else .ok .nil ts
    | .newline => headLoopF fuel (adv ts)
    | _ => .ok .nil ts

/-- Parse a head section (`head_section`). -/
def headSectionF (ts : List Token) : PRes ASTNode :=
  match matchKeyword "HEAD" ts with
  | .ok _ ts1 =>
    match headLoopF (ts1.length + 1) (skipNewlines ts1) with
    | .ok children ts2 =>
      match matchHashword "#OIC" ts2 with
      | .ok _ ts3 => .ok (.headSection children) ts3
      | .err e => .err e
      | .out => .out
    | .err e => .err e
    | .out => .out
  | .err e => .err e
  | .out => .out

mutual

/-- Dispatch `#MAEK (HEAD | PARAGRAF | LIST)` (`section`).  Only the cycle
`section → paragraf_section → content loop → paragraf_content → section`
(nested sections inside paragraphs) is mutually recursive; it is fueled,
and the fuel decreases at every call in the cycle. -/
def sectionF : Nat → List Token → PRes ASTNode
  | 0, _ => .out
  | fuel + 1, ts =>
    match (cur ts).kind with
    | .hashWord hw =>
      if hw = "#MAEK" then
        let ts1 := skipNewlines (adv ts)
        match (cur ts1).kind with
        | .keyword kw =>
          if kw = "HEAD" then headSectionF ts1
          else if kw = "PARAGRAF" then paragrafSectionF fuel ts1
          else if kw = "LIST" then listSectionF ts1
          else .err (syntaxErr ts1 ("Unknown section type '" ++ kw ++ "'"))
        | _ => .err (syntaxErr ts1 "Expected section type after #MAEK")
      else .err (syntaxErr ts ("Expected #MAEK to start a section, found '" ++ hw ++ "'"))
    | _ => .err (syntaxErr ts "Expected section")

/-- Parse a paragraf section (`paragraf_section`). -/
def paragrafSectionF : Nat → List Token → PRes ASTNode
  | 0, _ => .out
  | fuel + 1, ts =>
    match matchKeyword "PARAGRAF" ts with
    | .ok _ ts1 =>
      match paraLoopF fuel (skipNewlines ts1) with
      | .ok children ts2 =>
        match matchHashword "#OIC" ts2 with
        | .ok _ ts3 => .ok (.paragrafSection children) ts3
        | .err e => .err e
        | .out => .out
      | .err e => .err e
      | .out => .out
    | .err e => .err e
    | .out => .out

/-- The content loop of `paragraf_section`: parse `paragraf_content`
repeatedly (skipping newlines in between) until `#OIC` is the lookahead. -/
def paraLoopF : Nat → List Token → PRes ASTList
  | 0, _ => .out
  | fuel + 1, ts =>
    if (cur ts).kind = TokenKind.hashWord "#OIC" then .ok .nil ts
    else
      match paragrafContentF fuel ts with
      | .ok n ts1 =>
        match paraLoopF fuel (skipNewlines ts1) with
        | .ok ns ts2 => .ok (.cons n ns) ts2
        | .err e => .err e
        | .out => .out
      | .err e => .err e
      | .out => .out

/-- Parse one paragraf content item (`paragraf_content`): declarations,
assignments, references, styled text, nested sections, plain text,
identifiers-as-text, or a lone newline node. -/
def paragrafContentF : Nat → List Token → PRes ASTNode
  | 0, _ => .out
  | fuel + 1, ts =>
    match (cur ts).kind with
    | .hashWord hw =>
      if hw = "#I HAZ" then variableDeclarationF ts
      else if hw = "#IT IZ" then variableAssignmentF ts
      else if hw = "#LEMME SEE" then variableReferenceF ts
      else if hw = "#GIMMEH" then styledTextF ts
      else if hw = "#MAEK" then sectionF fuel ts
      else .err (syntaxErr ts ("Unexpected hashword in paragraf: " ++ hw))
    | .text s => .ok (.text s) (adv ts)
    | .varDef s => .ok (.text s) (adv ts)
    | .newline => .ok .newline (adv ts)
    | _ => .err (syntaxErr ts "Unexpected token in paragraf content")

end

/-- The top-level `body` loop: newlines are skipped each iteration;
`#KTHXBYE` and `Eof` end the loop; `#MAEK`, `#I HAZ` (with an optional
following `#IT IZ`), `#LEMME SEE` and `#GIMMEH` start constructs; `Text`
and `VarDef` tokens are absorbed as plain `Text` nodes; every other token
(a bare keyword, any other hashtag word, ...) is consumed and dropped by
the final `_` match arm. -/
def bodyF : Nat → List Token → PRes ASTList
  | 0, _ => .out
  | fuel + 1, ts0 =>
    let ts := skipNewlines ts0
    match (cur ts).kind with
    | .hashWord hw =>
      if hw = "#KTHXBYE" then .ok .nil ts
      else if hw = "#MAEK" then
        match sectionF (4 * ts.length + 16) ts with
        | .ok n ts1 =>
          match bodyF fuel ts1 with
          | .ok ns ts2 => .ok (.cons n ns) ts2
          | .err e => .err e
          | .out => .out
        | .err e => .err e
        | .out => .out
      else if hw = "#I HAZ" then
        match variableDeclarationF ts with
        | .ok d ts1 =>
          let ts2 := skipNewlines ts1
          if (cur ts2).kind = TokenKind.hashWord "#IT IZ" then
            match variableAssignmentF ts2 with
            | .ok a ts3 =>
              match bodyF fuel ts3 with
              | .ok ns ts4 => .ok (.cons d (.cons a ns)) ts4
              | .err e => .err e
              | .out => .out
            | .err e => .err e
            | .out => .out
          else
            match bodyF fuel ts2 with
            | .ok ns ts3 => .ok (.cons d ns) ts3
            | .err e => .err e
            | .out => .out
        | .err e => .err e
        | .out => .out
      else if hw = "#LEMME SEE" then
        match variableReferenceF ts with
        | .ok n ts1 =>
          match bodyF fuel ts1 with
          | .ok ns ts2 => .ok (.cons n ns) ts2
          | .err e => .err e
          | .out => .out
        | .err e => .err e
        | .out => .out
      else if hw = "#GIMMEH" then
        match styledTextF ts with
        | .ok n ts1 =>
          match bodyF fuel ts1 with
          | .ok ns ts2 => .ok (.cons n ns) ts2
          | .err e => .err e
          | .out => .out
        | .err e => .err e
        | .out => .out
      else bodyF fuel (adv ts)
    | .eof => .ok .nil ts
    | .text s =>
      match bodyF fuel (adv ts) with
      | .ok ns ts1 => .ok (.cons (.text s) ns) ts1
      | .err e => .err e
      | .out => .out
    | .varDef s =>
      match bodyF fuel (adv ts) with
      | .ok ns ts1 => .ok (.cons (.text s) ns) ts1
      | .err e => .err e
      | .out => .out
    | _ => bodyF fuel (adv ts)

/-- Top-level rule `program := #HAI body #KTHXBYE` (`program`): after
`#KTHXBYE` and trailing newlines the token stream must be exhausted. -/
def programF (ts : List Token) : PRes ASTNode :=
  match matchHashword "#HAI" ts with
  | .ok _ ts1 =>
    match bodyF (ts1.length + 1) (skipNewlines ts1) with
    | .ok children ts2 =>
      match matchHashword "#KTHXBYE" (skipNewlines ts2) with
      | .ok _ ts4 =>
        let ts5 := skipNewlines ts4
        if (cur ts5).kind = TokenKind.eof then .ok (.program children) ts5
        else .err (syntaxErr ts5 "Unexpected tokens after #KTHXBYE")
      | .err e => .err e
      | .out => .out
    | .err e => .err e
    | .out => .out
  | .err e => .err e
  | .out => .out

/-- Parse a token list from the top-level rule (`parse`). -/
def parseProgram (ts : List Token) : PRes ASTNode := programF ts

/-! ## Semantic analyzer and HTML generator (`semantic.rs`) -/

/-- One lexical scope: a mapping from variable name to an optional bound
value (`None` = declared but unassigned).  Rust uses a `HashMap`; an
association list without duplicate keys models it (`scopeInsert` replaces
in place). -/
abbrev Scope := List (String × Option String)

/-- Key membership (`HashMap::contains_key`). -/
def scopeContains (s : Scope) (name : String) : Bool :=
  s.any (fun p => p.1 == name)

/-- Lookup (`HashMap::get`). -/
def scopeGet (s : Scope) (name : String) : Option (Option String) :=
  match s.find? (fun p => p.1 == name) with
  | some p => some p.2
  | none => none

/-- Insert-or-replace (`HashMap::insert`). -/
def scopeInsert (name : String) (v : Option String) : Scope → Scope
  | [] => [(name, v)]
  | (k, w) :: rest =>
    if k = name then (k, v) :: rest else (k, w) :: scopeInsert name v rest

/-- State of `LolcodeSemanticAnalyzer`: the scope stack (head of the list
is the innermost scope, i.e. the top of the Rust `Vec`), the pending
`current_assignment` name, and the collected error strings.  `refTrace` is
a ghost field recording the name and lookup result at every variable
reference the pass visits, used to state that validation and generation
reach identical bindings; no control flow depends on it. -/
structure SemSt where
  scopeStack : List Scope
  currentAssignment : Option String
  errors : List String
  refTrace : List (String × Option (Option String))
deriving DecidableEq, Repr

/-- The analyzer's initial state (`LolcodeSemanticAnalyzer::new`, and the
reset before the generation pass): one empty global scope, no pending
assignment, no errors. -/
def freshSemSt : SemSt := ⟨[[]], none, [], []⟩

/-- Push a new scope (`enter_scope`). -/
def enterScope (st : SemSt) : SemSt :=
  { st with scopeStack := [] :: st.scopeStack }

/-- Pop the current scope, but never the global one (`exit_scope` pops only
when more than one scope is on the stack). -/
def exitScope (st : SemSt) : SemSt :=
  match st.scopeStack with
  | _ :: s2 :: rest => { st with scopeStack := s2 :: rest }
  | _ => st

/-- Search the scope stack from innermost to outermost
(`lookup_variable`). -/
def stackLookup : List Scope → String → Option (Option String)
  | [], _ => none
  | s :: rest, name =>
    match scopeGet s name with
    | some v => some v
    | none => stackLookup rest name

/-- Declare a variable in the current scope (`declare_variable`): an
"already declared in this scope" error if the innermost scope already has
the key, otherwise insert `name → None`.  An empty stack is unreachable
(Rust would panic in `current_scope`; the scope-stack invariant theorem
shows the stack is never empty). -/
def declareVariable (st : SemSt) (name : String) : SemSt :=
  match st.scopeStack with
  | [] => st
  | s :: rest =>
    if scopeContains s name then
      { st with errors := st.errors ++
        ["Variable '" ++ name ++ "' is already declared in this scope"] }
    else { st with scopeStack := scopeInsert name none s :: rest }

/-- Declare a variable during generation (`declare_variable_codegen`):
always insert, never error. -/
def declareVariableCodegen (st : SemSt) (name : String) : SemSt :=
  match st.scopeStack with
  | [] => st
  | s :: rest => { st with scopeStack := scopeInsert name none s :: rest }

/-- Assign to the innermost scope containing the name, walking outwards;
`none` when no scope contains it. -/
def stackAssign : List Scope → String → String → Option (List Scope)
  | [], _, _ => none
  | s :: rest, name, v =>
    if scopeContains s name then some (scopeInsert name (some v) s :: rest)
    else
      match stackAssign rest name v with
      | some stk => some (s :: stk)
      | none => none

/-- Assign a value to a declared variable (`assign_variable`): update the
innermost scope containing the name, or record a "Cannot assign to
undeclared variable" error. -/
def assignVariable (st : SemSt) (name : String) (v : String) : SemSt :=
  match stackAssign st.scopeStack name v with
  | some stk => { st with scopeStack := stk }
  | none =>
    { st with errors := st.errors ++
      ["Cannot assign to undeclared variable '" ++ name ++ "'"] }

mutual
/-- The validation pass (`traverse`): sections push/pop scopes, a
declaration declares and becomes the pending assignment target, an
assignment binds the pending declaration, a reference is checked against
the stack (recording one error for undeclared, one for unassigned), bold
and italics recurse, and the remaining nodes — including `Item` — are
leaves. -/
def traverse (st : SemSt) : ASTNode → SemSt
  | .program children => traverseList st children
  | .headSection children => traverseList st children
  | .paragrafSection children => exitScope (traverseList (enterScope st) children)
  | .listSection children => exitScope (traverseList (enterScope st) children)
  | .variableDeclaration name =>
    { declareVariable st name with currentAssignment := some name }
  | .variableAssignment _ value =>
    match st.currentAssignment with
    | some varName => { assignVariable st varName value with currentAssignment := none }
    | none => st
  | .variableReference name =>
    let r := stackLookup st.scopeStack name
    let st1 := { st with refTrace := st.refTrace ++ [(name, r)] }
    match r with
    | none =>
      { st1 with errors := st1.errors ++
        ["Variable '" ++ name ++ "' is used but never declared"] }
    | some none =>
      { st1 with errors := st1.errors ++
        ["Variable '" ++ name ++ "' is used but never assigned a value"] }
    | some (some _) => st1
  | .bold content => traverseList st content
  | .italics content => traverseList st content
  | .title _ => st
  | .text _ => st
  | .item _ => st
  | .newline => st
  | .sound _ => st
  | .video _ => st
/-- Traverse a child list in order. -/
def traverseList (st : SemSt) : ASTList → SemSt
  | .nil => st
  | .cons h t => traverseList (traverse st h) t
end

mutual
/-- Rust `{:?}` debug rendering of an AST node (derived `Debug` for
`ASTNode`), as a struct-variant format. -/
def astDebug : ASTNode → String
  | .program cs => "Program \x7b children: " ++ astListDebug cs ++ " \x7d"
  | .headSection cs => "HeadSection \x7b children: " ++ astListDebug cs ++ " \x7d"
  | .paragrafSection cs => "ParagrafSection \x7b children: " ++ astListDebug cs ++ " \x7d"
  | .listSection cs => "ListSection \x7b children: " ++ astListDebug cs ++ " \x7d"
  | .variableDeclaration n => "VariableDeclaration \x7b name: \"" ++ n ++ "\" \x7d"
  | .variableAssignment n v =>
    "VariableAssignment \x7b name: \"" ++ n ++ "\", value: \"" ++ v ++ "\" \x7d"
  | .variableReference n => "VariableReference \x7b name: \"" ++ n ++ "\" \x7d"
  | .title c => "Title \x7b content: \"" ++ c ++ "\" \x7d"
  | .text c => "Text \x7b content: \"" ++ c ++ "\" \x7d"
  | .bold cs => "Bold \x7b content: " ++ astListDebug cs ++ " \x7d"
  | .italics cs => "Italics \x7b content: " ++ astListDebug cs ++ " \x7d"
  | .item cs => "Item \x7b content: " ++ astListDebug cs ++ " \x7d"
  | .newline => "Newline"
  | .sound u => "Sound \x7b url: \"" ++ u ++ "\" \x7d"
  | .video u => "Video \x7b url: \"" ++ u ++ "\" \x7d"
/-- Debug rendering of a node list (`Vec`'s `Debug`: bracketed,
comma-separated). -/
def astListDebug : ASTList → String
  | .nil => "[]"
  | .cons h t => "[" ++ astDebug h ++ astListDebugGo t ++ "]"
/-- Continuation of `astListDebug` after the first element. -/
def astListDebugGo : ASTList → String
  | .nil => ""
  | .cons h t => ", " ++ astDebug h ++ astListDebugGo t
end

mutual
/-- The generation pass (`generate_html_with_traversal`), which re-walks
the tree with a fresh scope stack.  One branch cannot be taken from the
source as written: the `Item` arm is Rust
`format!("<li>{}</li>\n", content)` with `content : Vec<ASTNode>`, and
`Vec<ASTNode>` implements `Debug` but not `Display`, so that line does not
typecheck.  Following §4.4 of the spec, which describes this naive branch
as interpolating "the raw child-list debug representation" rather than
recursively rendering, the arm is modelled as the debug rendering of the
child list: no recursive traversal and no scope operation happens there. -/
def generateHtml (st : SemSt) : ASTNode → String × SemSt
  | .program children =>
    let p := genList st children
    ("<!DOCTYPE html>\n<html>\n<head>\n<meta charset=\"UTF-8\">\n<title>LOLCODE Markdown</title>\n</head>\n<body>\n"
      ++ p.1 ++ "</body>\n</html>", p.2)
  | .headSection children => genList st children
  | .paragrafSection children =>
    let p := genList (enterScope st) children
    ("<p>\n" ++ p.1 ++ "</p>\n", exitScope p.2)
  | .listSection children =>
    let p := genList (enterScope st) children
    ("<ul>\n" ++ p.1 ++ "</ul>\n", exitScope p.2)
  | .title content => ("<h1>" ++ content ++ "</h1>\n", st)
  | .text content => (content ++ " ", st)
  | .bold content =>
    let p := genList st content
    ("<b>" ++ p.1 ++ "</b>", p.2)
  | .italics content =>
    let p := genList st content
    ("<i>" ++ p.1 ++ "</i>", p.2)
  | .item content => ("<li>" ++ astListDebug content ++ "</li>\n", st)
  | .newline => ("<br>\n", st)
  | .sound url => ("<audio controls src=\"" ++ url ++ "\"></audio>\n", st)
  | .video url => ("<video controls src=\"" ++ url ++ "\"></video>\n", st)
  | .variableDeclaration name =>
    ("", declareVariableCodegen { st with currentAssignment := some name } name)
  | .variableAssignment _ value =>
    match st.currentAssignment with
    | some varName =>
      ("", { assignVariable st varName value with currentAssignment := none })
    | none => ("", st)
  | .variableReference name =>
    let r := stackLookup st.scopeStack name
    let st1 := { st with refTrace := st.refTrace ++ [(name, r)] }
    match r with
    | some (some v) => (v, st1)
    | _ => ("[undefined: " ++ name ++ "]", st1)
/-- Generate a child list in order, concatenating the fragments. -/
def genList (st : SemSt) : ASTList → String × SemSt
  | .nil => ("", st)
  | .cons h t =>
    let p := generateHtml st h
    let q := genList p.2 t
    (p.1 ++ q.1, q.2)
end

/-- The validation pass from a fresh analyzer, returning the collected
errors (`analyze_tree` before `report_errors`). -/
def validate (t : ASTNode) : List String := (traverse freshSemSt t).errors

/-- The generation pass from a fresh analyzer (`analyze_tree` resets the
scope stack and pending assignment before generating). -/
def emitHtml (t : ASTNode) : String := (generateHtml freshSemSt t).1

/-- The front half of `main.rs`: tokenize (the lexing validation loop runs
the same lexer), then parse; `some tree` iff both stages succeed. -/
def parsePipeline (src : String) : Option ASTNode :=
  match lexAll src with
  | .ok ts =>
    match parseProgram ts with
    | .ok t _ => some t
    | _ => none
  | _ => none

/-! ## Concrete programs used by the claims -/

/-- Spec scenario 2 (claim C1). -/
def src2 : String :=
  "#HAI\n#MAEK PARAGRAF\n#I HAZ x\n#IT IZ hello #MKAY\n#LEMME SEE x #MKAY\n#OIC\n#KTHXBYE\n"

/-- The paragraph node scenario 2 parses to. -/
def para2 : ASTNode :=
  .paragrafSection (.cons (.variableDeclaration "x")
    (.cons (.variableAssignment "" "hello")
      (.cons (.variableReference "x") .nil)))

/-- The tree scenario 2 parses to. -/
def tree2 : ASTNode := .program (.cons para2 .nil)

/-- Spec scenario 5 (claim C3). -/
def src5 : String :=
  "#HAI\n#MAEK LIST\n#GIMMEH ITEM one #MKAY\n#GIMMEH ITEM two #MKAY\n#OIC\n#KTHXBYE\n"

/-- The list node scenario 5 parses to. -/
def list5 : ASTNode :=
  .listSection (.cons (.item (.cons (.text "one") .nil))
    (.cons (.item (.cons (.text "two") .nil)) .nil))

/-- The tree scenario 5 parses to. -/
def tree5 : ASTNode := .program (.cons list5 .nil)


/-- The token list scenario 2 lexes to. -/
def toks2 : List Token :=
  [⟨.hashWord "#HAI", 1, 1⟩, ⟨.newline, 1, 5⟩, ⟨.hashWord "#MAEK", 2, 1⟩,
   ⟨.keyword "PARAGRAF", 2, 7⟩, ⟨.newline, 2, 15⟩, ⟨.hashWord "#I HAZ", 3, 1⟩,
   ⟨.varDef "x", 3, 8⟩, ⟨.newline, 3, 9⟩, ⟨.hashWord "#IT IZ", 4, 1⟩,
   ⟨.varDef "hello", 4, 8⟩, ⟨.hashWord "#MKAY", 4, 14⟩, ⟨.newline, 4, 19⟩,
   ⟨.hashWord "#LEMME SEE", 5, 1⟩, ⟨.varDef "x", 5, 12⟩, ⟨.hashWord "#MKAY", 5, 14⟩,
   ⟨.newline, 5, 19⟩, ⟨.hashWord "#OIC", 6, 1⟩, ⟨.newline, 6, 5⟩,
   ⟨.hashWord "#KTHXBYE", 7, 1⟩, ⟨.newline, 7, 9⟩, ⟨.eof, 8, 1⟩]

/-- The token list scenario 5 lexes to. -/
def toks5 : List Token :=
  [⟨.hashWord "#HAI", 1, 1⟩, ⟨.newline, 1, 5⟩, ⟨.hashWord "#MAEK", 2, 1⟩,
   ⟨.keyword "LIST", 2, 7⟩, ⟨.newline, 2, 11⟩, ⟨.hashWord "#GIMMEH", 3, 1⟩,
   ⟨.keyword "ITEM", 3, 9⟩, ⟨.varDef "one", 3, 14⟩, ⟨.hashWord "#MKAY", 3, 18⟩,
   ⟨.newline, 3, 23⟩, ⟨.hashWord "#GIMMEH", 4, 1⟩, ⟨.keyword "ITEM", 4, 9⟩,
   ⟨.varDef "two", 4, 14⟩, ⟨.hashWord "#MKAY", 4, 18⟩, ⟨.newline, 4, 23⟩,
   ⟨.hashWord "#OIC", 5, 1⟩, ⟨.newline, 5, 5⟩, ⟨.hashWord "#KTHXBYE", 6, 1⟩,
   ⟨.newline, 6, 9⟩, ⟨.eof, 7, 1⟩]

/-- A top-level program containing a bare keyword token (claim C7). -/
def srcC7 : String := "#HAI\nBOLD\n#KTHXBYE\n"

/-- The token list `srcC7` lexes to: the bare word BOLD lexes as a
`Keyword` token (the lexer's `lookup` accepts keywords and hashtag words
alike for bare words). -/
def toksC7 : List Token :=
  [⟨.hashWord "#HAI", 1, 1⟩, ⟨.newline, 1, 5⟩, ⟨.keyword "BOLD", 2, 1⟩,
   ⟨.newline, 2, 5⟩, ⟨.hashWord "#KTHXBYE", 3, 1⟩, ⟨.newline, 3, 9⟩, ⟨.eof, 4, 1⟩]

/-- A program whose variable assignment value run spans a newline
(claim C10). -/
def srcC10 : String :=
  "#HAI\n#MAEK PARAGRAF\n#I HAZ x\n#IT IZ a\nb #MKAY\n#OIC\n#KTHXBYE\n"

/-- The token list `srcC10` lexes to. -/
def toksC10 : List Token :=
  [⟨.hashWord "#HAI", 1, 1⟩, ⟨.newline, 1, 5⟩, ⟨.hashWord "#MAEK", 2, 1⟩,
   ⟨.keyword "PARAGRAF", 2, 7⟩, ⟨.newline, 2, 15⟩, ⟨.hashWord "#I HAZ", 3, 1⟩,
   ⟨.varDef "x", 3, 8⟩, ⟨.newline, 3, 9⟩, ⟨.hashWord "#IT IZ", 4, 1⟩,
   ⟨.varDef "a", 4, 8⟩, ⟨.newline, 4, 9⟩, ⟨.varDef "b", 5, 1⟩,
   ⟨.hashWord "#MKAY", 5, 3⟩, ⟨.newline, 5, 8⟩, ⟨.hashWord "#OIC", 6, 1⟩,
   ⟨.newline, 6, 5⟩, ⟨.hashWord "#KTHXBYE", 7, 1⟩, ⟨.newline, 7, 9⟩, ⟨.eof, 8, 1⟩]

/-- The pure stack effect of `exit_scope` (pops the innermost scope, but
never the last one). -/
def popStack : List Scope → List Scope
  | _ :: s2 :: rest => s2 :: rest
  | s => s

/-- `a` is a suffix of `b`. -/
def SuffixOf (a b : List Char) : Prop := ∃ p, b = p ++ a

/-! ## Comment-insertion scaffolding (claim C6)

The definitions below state, over the embedded lexer, what it means to
insert a well-formed `#OBTW ... #TLDR` comment block at a position lying
between two adjacent tokens, and what "the same token sequence" means
(token kinds with their payloads; recorded line/column positions of the
tokens after the insertion necessarily shift by the length of the
comment, and the position carried by a lexical error shifts likewise, so
the comparison erases positions). -/

/-- The characters of a comment block `#OBTW<mid>#TLDR` with body `mid`. -/
def commentChars (mid : List Char) : List Char :=
  '#' :: 'O' :: 'B' :: 'T' :: 'W' :: (mid ++ '#' :: 'T' :: 'L' :: 'D' :: 'R' :: [])

/-- A lexing outcome with positions erased: the sequence of token kinds,
or the message of the fatal lexical error. -/
inductive KRes where
  | ok (ks : List TokenKind)
  | err (msg : String)
  | out
deriving DecidableEq, Repr

/-- Erase positions from a lexing outcome. -/
def kindsOf : LexRes (List Token) → KRes
  | .ok ts => .ok (ts.map Token.kind)
  | .err e => .err e.msg
  | .out => .out

/-- Prepend a token kind to the kinds of a lexing outcome. -/
def consK (k : TokenKind) : KRes → KRes
  | .ok ks => .ok (k :: ks)
  | r => r

/-- The position-erased token stream produced from a lexer state. -/
def lexKinds (st : LexSt) : KRes := kindsOf (lexTokens (st.input.length + 1) st)

/-- Step a lexer state past `k` (successful, non-`Eof`) tokens: the states
reached this way are exactly the boundaries between adjacent tokens. -/
def iterTok : Nat → LexSt → Option LexSt
  | 0, st => some st
  | k + 1, st =>
    match nextTok st with
    | .ok (t, st') => if t.kind = .eof then none else iterTok k st'
    | _ => none

/-- Similarity of single-token results up to positions: same token kind
and same remaining input, same error message, or fuel exhaustion on both
sides. -/
def nextSim : LexRes (Token × LexSt) → LexRes (Token × LexSt) → Prop
  | .ok (t1, s1), .ok (t2, s2) => t1.kind = t2.kind ∧ s1.input = s2.input
  | .err e1, .err e2 => e1.msg = e2.msg
  | .out, .out => True
  | _, _ => False

/-- Similarity of comment-skipping results up to positions. -/
def skipSim : LexRes LexSt → LexRes LexSt → Prop
  | .ok s1, .ok s2 => s1.input = s2.input
  | .err e1, .err e2 => e1.msg = e2.msg
  | .out, .out => True
  | _, _ => False

/-- Similarity of `read_hash_word` results up to positions. -/
def hashSim : HashRes → HashRes → Prop
  | .tok t1 s1, .tok t2 s2 => t1.kind = t2.kind ∧ s1.input = s2.input
  | .comment s1, .comment s2 => s1.input = s2.input
  | .err e1, .err e2 => e1.msg = e2.msg
  | .out, .out => True
  | _, _ => False

/-! ## Claim C1 -/

/-- Claim C1 as stated is false.  The scenario-2 program lexes, parses to
`tree2` and validates with zero errors, but the HTML emitted for its
paragraph is not the claimed string `<p>\nhello </p>\n`: a
`VariableReference` emits the bare bound value (`semantic.rs` line 365),
and the trailing-space text-join rule applies only to `Text` nodes, so no
trailing space follows "hello". -/
theorem c1_counterexample :
    parsePipeline src2 = some tree2 ∧ validate tree2 = [] ∧
    (generateHtml freshSemSt para2).1 ≠ "<p>\nhello </p>\n" := by
  have h1 : lexAll src2 = .ok toks2 := by decide
  have h2 : parseProgram toks2 = .ok tree2 [⟨.eof, 8, 1⟩] := by decide
  exact ⟨by simp only [parsePipeline, h1, h2], by decide, by decide⟩

/-- Claim C1 amended: the scenario-2 program validates with zero errors and
the paragraph's emitted HTML is exactly `<p>\nhello</p>\n` — the bound
value is substituted with no trailing space, since the variable reference
emits the raw value and the text-join rule applies only to `Text` nodes. -/
theorem c1_paragraph_emission :
    parsePipeline src2 = some tree2 ∧ validate tree2 = [] ∧
    (generateHtml freshSemSt para2).1 = "<p>\nhello</p>\n" := by
  have h1 : lexAll src2 = .ok toks2 := by decide
  have h2 : parseProgram toks2 = .ok tree2 [⟨.eof, 8, 1⟩] := by decide
  exact ⟨by simp only [parsePipeline, h1, h2], by decide, by decide⟩

/-! ## Claim C3 -/

/-- Claim C3 documents a code bug: the `Item` arm of the generator is
`format!("<li>{}</li>\n", content)` with `content : Vec<ASTNode>`, which
does not typecheck in Rust (`Vec<ASTNode>` has no `Display` instance) — it
is the naive direct interpolation the spec explicitly warns against.
Under the modelled debug-interpolation behavior the scenario-5 program
parses and validates, but each `<li>` holds the child list's debug
representation, not the recursively rendered children: the final conjunct
contrasts it with the Bold-style rendering of the same child list, which
would give `<li>one </li>`. -/
theorem c3_item_not_recursive :
    parsePipeline src5 = some tree5 ∧ validate tree5 = [] ∧
    (generateHtml freshSemSt list5).1 =
      "<ul>\n<li>[Text \x7b content: \"one\" \x7d]</li>\n<li>[Text \x7b content: \"two\" \x7d]</li>\n</ul>\n" ∧
    (generateHtml freshSemSt (.item (.cons (.text "one") .nil))).1 ≠
      "<li>" ++ (genList freshSemSt (.cons (.text "one") .nil)).1 ++ "</li>\n" := by
  have h1 : lexAll src5 = .ok toks5 := by decide
  have h2 : parseProgram toks5 = .ok tree5 [⟨.eof, 7, 1⟩] := by decide
  exact ⟨by simp only [parsePipeline, h1, h2], by decide, by decide, by decide⟩

/-! ## Claim C5 -/

/-- Claim C5: visiting `VariableDeclaration(name)` during validation
checks the innermost scope only — if the name is already a key there,
exactly one "already declared in this scope" error is recorded (and the
scope stack is unchanged); otherwise `name → None` is inserted into the
innermost scope.  In both cases the name becomes the pending assignment
target.  Consequently redeclaring a name in a nested section raises no
error, and declaring the same name twice in the same section raises
exactly that one error. -/
theorem c5_variable_declaration (st : SemSt) (name : String) (s : Scope)
    (rest : List Scope) (h : st.scopeStack = s :: rest) :
    (scopeContains s name = true →
      traverse st (.variableDeclaration name) =
        { st with
            errors := st.errors ++
              ["Variable '" ++ name ++ "' is already declared in this scope"],
            currentAssignment := some name }) ∧
    (scopeContains s name = false →
      traverse st (.variableDeclaration name) =
        { st with
            scopeStack := scopeInsert name none s :: rest,
            currentAssignment := some name }) ∧
    validate (.program (.cons (.paragrafSection (.cons (.variableDeclaration name)
      (.cons (.paragrafSection (.cons (.variableDeclaration name) .nil)) .nil))) .nil)) = [] ∧
    validate (.program (.cons (.paragrafSection (.cons (.variableDeclaration name)
      (.cons (.variableDeclaration name) .nil))) .nil)) =
      ["Variable '" ++ name ++ "' is already declared in this scope"] := by
  refine ⟨fun hc => ?_, fun hc => ?_, ?_, ?_⟩
  · simp [traverse, declareVariable, h, hc]
  · simp [traverse, declareVariable, h, hc]
  · simp [validate, freshSemSt, traverse, traverseList, enterScope, exitScope,
      declareVariable, scopeContains, scopeInsert]
  · simp [validate, freshSemSt, traverse, traverseList, enterScope, exitScope,
      declareVariable, scopeContains, scopeInsert]

/-- Witness for C5: the double declaration of `x` in one paragraf section
yields exactly one "already declared" error. -/
theorem c5_variable_declaration_witness :
    validate (.program (.cons (.paragrafSection (.cons (.variableDeclaration "x")
      (.cons (.variableDeclaration "x") .nil))) .nil)) =
      ["Variable '" ++ "x" ++ "' is already declared in this scope"] :=
  (c5_variable_declaration freshSemSt "x" [] [] rfl).2.2.2

/-! ## Claim C7 -/

/-- Claim C7 as stated is false: a bare `Keyword` token at the top level is
not a recognized construct-starter, yet the body rule does not absorb it as
a `Text` node — the final `_` match arm consumes and drops it.  The program
`#HAI\nBOLD\n#KTHXBYE\n` parses to a `Program` with no children at all:
the `BOLD` token left no `Text` node in the tree. -/
theorem c7_counterexample :
    lexAll srcC7 = .ok toksC7 ∧
    parseProgram toksC7 = .ok (.program .nil) [⟨.eof, 4, 1⟩] := by
  exact ⟨by decide, by decide⟩

/-- Claim C7 amended: in the top-level body rule, a non-starter `Text` or
`VarDef` token is absorbed as a plain `Text` node, while every other
non-starter, non-`Eof` token — a bare keyword, a hashtag word other than
the five construct starters, an address or varVal token — is consumed and
silently dropped (no node, no error). -/
theorem c7_body_tolerance (fuel : Nat) (s : String) (l c : Nat) (ts : List Token) :
    (bodyF (fuel + 1) (⟨.text s, l, c⟩ :: ts) =
      match bodyF fuel ts with
      | .ok ns ts1 => .ok (.cons (.text s) ns) ts1
      | .err e => .err e
      | .out => .out) ∧
    (bodyF (fuel + 1) (⟨.varDef s, l, c⟩ :: ts) =
      match bodyF fuel ts with
      | .ok ns ts1 => .ok (.cons (.text s) ns) ts1
      | .err e => .err e
      | .out => .out) ∧
    (bodyF (fuel + 1) (⟨.keyword s, l, c⟩ :: ts) = bodyF fuel ts) ∧
    (bodyF (fuel + 1) (⟨.address s, l, c⟩ :: ts) = bodyF fuel ts) ∧
    (bodyF (fuel + 1) (⟨.varVal s, l, c⟩ :: ts) = bodyF fuel ts) ∧
    (∀ hw, hw ≠ "#KTHXBYE" → hw ≠ "#MAEK" → hw ≠ "#I HAZ" → hw ≠ "#LEMME SEE" →
      hw ≠ "#GIMMEH" → bodyF (fuel + 1) (⟨.hashWord hw, l, c⟩ :: ts) = bodyF fuel ts) := by
  refine ⟨?_, ?_, ?_, ?_, ?_, fun hw h1 h2 h3 h4 h5 => ?_⟩
  · simp [bodyF, skipNewlines, cur, adv]
  · simp [bodyF, skipNewlines, cur, adv]
  · simp [bodyF, skipNewlines, cur, adv]
  · simp [bodyF, skipNewlines, cur, adv]
  · simp [bodyF, skipNewlines, cur, adv]
  · simp [bodyF, skipNewlines, cur, adv, h1, h2, h3, h4, h5]

/-- Witness for C7's amended theorem: a stray `#OIC` hashtag word at the
top level is dropped. -/
theorem c7_body_tolerance_witness :
    bodyF 2 [⟨.hashWord "#OIC", 1, 1⟩] = bodyF 1 [] :=
  (c7_body_tolerance 1 "" 1 1 []).2.2.2.2.2 "#OIC" (by decide) (by decide)
    (by decide) (by decide) (by decide)

/-! ## Claim C10 -/

/-- Claim C10: a `Newline` token inside the value run of `#IT IZ ... #MKAY`
always aborts parsing with a fatal syntax error, because the value loop
breaks on the newline without consuming it and the following
`match_hashword("#MKAY")` then fails on it.  Stated for every value run of
text/identifier tokens followed by a newline, plus the concrete program
`srcC10`, which fails at the newline in line 4 and produces no AST. -/
theorem c10_assignment_newline (run rest : List Token) (l0 c0 l c : Nat)
    (hrun : ∀ t ∈ run, (∃ s, t.kind = .text s) ∨ (∃ s, t.kind = .varDef s)) :
    variableAssignmentF (⟨.hashWord "#IT IZ", l0, c0⟩ :: (run ++ ⟨.newline, l, c⟩ :: rest)) =
      .err ⟨l, c, "Expected '#MKAY' but found Newline"⟩ ∧
    lexAll srcC10 = .ok toksC10 ∧
    parseProgram toksC10 = .err ⟨4, 9, "Expected '#MKAY' but found Newline"⟩ := by
  refine ⟨?_, by decide, by decide⟩
  have key : ∀ (run : List Token), (∀ t ∈ run, (∃ s, t.kind = .text s) ∨ (∃ s, t.kind = .varDef s)) →
      ∀ acc, (assignValueLoop acc (run ++ ⟨.newline, l, c⟩ :: rest)).2 = ⟨.newline, l, c⟩ :: rest := by
    intro run
    induction run with
    | nil => intro _ acc; simp [assignValueLoop]
    | cons t tl ih =>
      intro hmem acc
      rcases hmem t (List.mem_cons_self t tl) with ⟨s, hs⟩ | ⟨s, hs⟩ <;>
        simp [assignValueLoop, hs, ih (fun u hu => hmem u (List.mem_cons_of_mem t hu))]
  simp [variableAssignmentF, matchHashword, cur, adv, key run hrun "",
    tokenKindDebug, syntaxErr]

/-- Witness for C10 at the concrete run `a` (one identifier token). -/
theorem c10_assignment_newline_witness :
    variableAssignmentF [⟨.hashWord "#IT IZ", 4, 1⟩, ⟨.varDef "a", 4, 8⟩,
      ⟨.newline, 4, 9⟩, ⟨.varDef "b", 5, 1⟩, ⟨.hashWord "#MKAY", 5, 3⟩] =
      .err ⟨4, 9, "Expected '#MKAY' but found Newline"⟩ :=
  (c10_assignment_newline [⟨.varDef "a", 4, 8⟩] [⟨.varDef "b", 5, 1⟩, ⟨.hashWord "#MKAY", 5, 3⟩]
    4 1 4 9 (by intro t ht; simp at ht; simp [ht])).1

/-! ## Scope-state lemmas shared by claims C2 and C8 -/

theorem exitScope_scopeStack (st : SemSt) :
    (exitScope st).scopeStack = popStack st.scopeStack := by
  obtain ⟨stack, ca, errs, tr⟩ := st
  cases stack with
  | nil => rfl
  | cons a t => cases t <;> rfl

theorem exitScope_errors (st : SemSt) : (exitScope st).errors = st.errors := by
  obtain ⟨stack, ca, errs, tr⟩ := st
  cases stack with
  | nil => rfl
  | cons a t => cases t <;> rfl

theorem exitScope_currentAssignment (st : SemSt) :
    (exitScope st).currentAssignment = st.currentAssignment := by
  obtain ⟨stack, ca, errs, tr⟩ := st
  cases stack with
  | nil => rfl
  | cons a t => cases t <;> rfl

theorem exitScope_refTrace (st : SemSt) : (exitScope st).refTrace = st.refTrace := by
  obtain ⟨stack, ca, errs, tr⟩ := st
  cases stack with
  | nil => rfl
  | cons a t => cases t <;> rfl

theorem popStack_ne_nil (l : List Scope) (h : l ≠ []) : popStack l ≠ [] := by
  cases l with
  | nil => exact absurd rfl h
  | cons a t => cases t <;> simp [popStack]

theorem popStack_length (l : List Scope) (h : 2 ≤ l.length) :
    (popStack l).length = l.length - 1 := by
  cases l with
  | nil => simp at h
  | cons a t => cases t with
    | nil => simp at h
    | cons b r => simp [popStack]

theorem stackAssign_length (stk : List Scope) (name v : String) :
    ∀ stk', stackAssign stk name v = some stk' → stk'.length = stk.length := by
  induction stk with
  | nil => intro stk' h; simp [stackAssign] at h
  | cons s rest ih =>
    intro stk' h
    by_cases hc : scopeContains s name
    · simp [stackAssign, hc] at h
      subst h
      simp
    · simp [stackAssign, hc] at h
      cases hsa : stackAssign rest name v with
      | none => rw [hsa] at h; simp at h
      | some stk2 =>
        rw [hsa] at h
        simp at h
        subst h
        simp [ih stk2 hsa]

mutual
/-- During validation, errors are only ever appended. -/
theorem traverse_errors_ext (n : ASTNode) : ∀ st : SemSt,
    ∃ d, (traverse st n).errors = st.errors ++ d := by
  cases n with
  | program cs => exact fun st => traverseList_errors_ext cs st
  | headSection cs => exact fun st => traverseList_errors_ext cs st
  | paragrafSection cs =>
    intro st
    obtain ⟨d, hd⟩ := traverseList_errors_ext cs (enterScope st)
    refine ⟨d, ?_⟩
    simp only [traverse, exitScope_errors]
    simpa [enterScope] using hd
  | listSection cs =>
    intro st
    obtain ⟨d, hd⟩ := traverseList_errors_ext cs (enterScope st)
    refine ⟨d, ?_⟩
    simp only [traverse, exitScope_errors]
    simpa [enterScope] using hd
  | variableDeclaration name =>
    intro st
    obtain ⟨stack, ca, errs, tr⟩ := st
    cases stack with
    | nil => exact ⟨[], by simp [traverse, declareVariable]⟩
    | cons s rest =>
      by_cases hc : scopeContains s name
      · exact ⟨["Variable '" ++ name ++ "' is already declared in this scope"],
          by simp [traverse, declareVariable, hc]⟩
      · exact ⟨[], by simp [traverse, declareVariable, hc]⟩
  | variableAssignment nm v =>
    intro st
    cases hca : st.currentAssignment with
    | none => exact ⟨[], by simp [traverse, hca]⟩
    | some varName =>
      cases hsa : stackAssign st.scopeStack varName v with
      | some stk => exact ⟨[], by simp [traverse, hca, assignVariable, hsa]⟩
      | none => exact ⟨["Cannot assign to undeclared variable '" ++ varName ++ "'"],
          by simp [traverse, hca, assignVariable, hsa]⟩
  | variableReference name =>
    intro st
    cases hr : stackLookup st.scopeStack name with
    | none => exact ⟨["Variable '" ++ name ++ "' is used but never declared"],
        by simp [traverse, hr]⟩
    | some o =>
      cases o with
      | none => exact ⟨["Variable '" ++ name ++ "' is used but never assigned a value"],
          by simp [traverse, hr]⟩
      | some v => exact ⟨[], by simp [traverse, hr]⟩
  | bold cs => exact fun st => traverseList_errors_ext cs st
  | italics cs => exact fun st => traverseList_errors_ext cs st
  | title c => exact fun st => ⟨[], by simp [traverse]⟩
  | text c => exact fun st => ⟨[], by simp [traverse]⟩
  | item cs => exact fun st => ⟨[], by simp [traverse]⟩
  | newline => exact fun st => ⟨[], by simp [traverse]⟩
  | sound u => exact fun st => ⟨[], by simp [traverse]⟩
  | video u => exact fun st => ⟨[], by simp [traverse]⟩
/-- List version of `traverse_errors_ext`. -/
theorem traverseList_errors_ext (l : ASTList) : ∀ st : SemSt,
    ∃ d, (traverseList st l).errors = st.errors ++ d := by
  cases l with
  | nil => exact fun st => ⟨[], by simp [traverseList]⟩
  | cons h t =>
    intro st
    obtain ⟨d1, h1⟩ := traverse_errors_ext h st
    obtain ⟨d2, h2⟩ := traverseList_errors_ext t (traverse st h)
    exact ⟨d1 ++ d2, by simp [traverseList, h2, h1]⟩
end


mutual
/-- Core refinement lemma for claim C2: starting from states with equal
scope stacks, pending assignments and reference traces, if validating a
node adds no error then generating it performs exactly the same scope
mutations and reference lookups: the resulting stacks, pending
assignments and reference traces coincide, and generation adds no error
either. -/
theorem genAgrees (n : ASTNode) : ∀ sv sg : SemSt,
    sg.scopeStack = sv.scopeStack → sg.currentAssignment = sv.currentAssignment →
    sg.refTrace = sv.refTrace → (traverse sv n).errors = sv.errors →
    (generateHtml sg n).2.scopeStack = (traverse sv n).scopeStack ∧
    (generateHtml sg n).2.currentAssignment = (traverse sv n).currentAssignment ∧
    (generateHtml sg n).2.refTrace = (traverse sv n).refTrace ∧
    (generateHtml sg n).2.errors = sg.errors := by
  cases n with
  | program cs =>
    intro sv sg hst hca htr herr
    have h := genAgreesList cs sv sg hst hca htr (by simpa [traverse] using herr)
    refine ⟨?_, ?_, ?_, ?_⟩ <;> simp only [generateHtml, traverse] <;> tauto
  | headSection cs =>
    intro sv sg hst hca htr herr
    have h := genAgreesList cs sv sg hst hca htr (by simpa [traverse] using herr)
    refine ⟨?_, ?_, ?_, ?_⟩ <;> simp only [generateHtml, traverse] <;> tauto
  | paragrafSection cs =>
    intro sv sg hst hca htr herr
    have herr' : (traverseList (enterScope sv) cs).errors = (enterScope sv).errors := by
      have h1 := herr
      simp only [traverse, exitScope_errors] at h1
      simpa [enterScope] using h1
    obtain ⟨i1, i2, i3, i4⟩ := genAgreesList cs (enterScope sv) (enterScope sg)
      (by simp [enterScope, hst]) (by simp [enterScope, hca]) (by simp [enterScope, htr]) herr'
    refine ⟨?_, ?_, ?_, ?_⟩
    · simp only [generateHtml, traverse, exitScope_scopeStack]
      rw [i1]
    · simp only [generateHtml, traverse, exitScope_currentAssignment]
      exact i2
    · simp only [generateHtml, traverse, exitScope_refTrace]
      exact i3
    · simp only [generateHtml, exitScope_errors]
      simpa [enterScope] using i4
  | listSection cs =>
    intro sv sg hst hca htr herr
    have herr' : (traverseList (enterScope sv) cs).errors = (enterScope sv).errors := by
      have h1 := herr
      simp only [traverse, exitScope_errors] at h1
      simpa [enterScope] using h1
    obtain ⟨i1, i2, i3, i4⟩ := genAgreesList cs (enterScope sv) (enterScope sg)
      (by simp [enterScope, hst]) (by simp [enterScope, hca]) (by simp [enterScope, htr]) herr'
    refine ⟨?_, ?_, ?_, ?_⟩
    · simp only [generateHtml, traverse, exitScope_scopeStack]
      rw [i1]
    · simp only [generateHtml, traverse, exitScope_currentAssignment]
      exact i2
    · simp only [generateHtml, traverse, exitScope_refTrace]
      exact i3
    · simp only [generateHtml, exitScope_errors]
      simpa [enterScope] using i4
  | variableDeclaration name =>
    intro sv sg hst hca htr herr
    cases hsv : sv.scopeStack with
    | nil =>
      have hsg : sg.scopeStack = [] := by rw [hst, hsv]
      refine ⟨?_, ?_, ?_, ?_⟩ <;>
        simp [traverse, generateHtml, declareVariable, declareVariableCodegen,
          hsv, hsg, hst, hca, htr]
    | cons s rest =>
      have hsg : sg.scopeStack = s :: rest := by rw [hst, hsv]
      by_cases hc : scopeContains s name
      · exfalso
        have hx : (traverse sv (.variableDeclaration name)).errors =
            sv.errors ++ ["Variable '" ++ name ++ "' is already declared in this scope"] := by
          simp [traverse, declareVariable, hsv, hc]
        rw [herr] at hx
        simp at hx
      · refine ⟨?_, ?_, ?_, ?_⟩ <;>
          simp [traverse, generateHtml, declareVariable, declareVariableCodegen,
            hsv, hsg, hca, htr, hc]
  | variableAssignment nm v =>
    intro sv sg hst hca htr herr
    cases hsv : sv.currentAssignment with
    | none =>
      have hsg : sg.currentAssignment = none := by rw [hca, hsv]
      refine ⟨?_, ?_, ?_, ?_⟩ <;> simp [traverse, generateHtml, hsv, hsg, hst, hca, htr]
    | some varName =>
      have hsg : sg.currentAssignment = some varName := by rw [hca, hsv]
      cases hsa : stackAssign sv.scopeStack varName v with
      | none =>
        exfalso
        have hx : (traverse sv (.variableAssignment nm v)).errors =
            sv.errors ++ ["Cannot assign to undeclared variable '" ++ varName ++ "'"] := by
          simp [traverse, hsv, assignVariable, hsa]
        rw [herr] at hx
        simp at hx
      | some stk =>
        have hsa2 : stackAssign sg.scopeStack varName v = some stk := by rw [hst]; exact hsa
        refine ⟨?_, ?_, ?_, ?_⟩ <;>
          simp [traverse, generateHtml, hsv, hsg, assignVariable, hsa, hsa2, hst, hca, htr]
  | variableReference name =>
    intro sv sg hst hca htr herr
    cases hr : stackLookup sv.scopeStack name with
    | none =>
      exfalso
      have hx : (traverse sv (.variableReference name)).errors =
          sv.errors ++ ["Variable '" ++ name ++ "' is used but never declared"] := by
        simp [traverse, hr]
      rw [herr] at hx
      simp at hx
    | some o =>
      cases o with
      | none =>
        exfalso
        have hx : (traverse sv (.variableReference name)).errors =
            sv.errors ++ ["Variable '" ++ name ++ "' is used but never assigned a value"] := by
          simp [traverse, hr]
        rw [herr] at hx
        simp at hx
      | some v =>
        have hr2 : stackLookup sg.scopeStack name = some (some v) := by rw [hst]; exact hr
        refine ⟨?_, ?_, ?_, ?_⟩ <;> simp [traverse, generateHtml, hr, hr2, hst, hca, htr]
  | bold cs =>
    intro sv sg hst hca htr herr
    have h := genAgreesList cs sv sg hst hca htr (by simpa [traverse] using herr)
    refine ⟨?_, ?_, ?_, ?_⟩ <;> simp only [generateHtml, traverse] <;> tauto
  | italics cs =>
    intro sv sg hst hca htr herr
    have h := genAgreesList cs sv sg hst hca htr (by simpa [traverse] using herr)
    refine ⟨?_, ?_, ?_, ?_⟩ <;> simp only [generateHtml, traverse] <;> tauto
  | title c =>
    intro sv sg hst hca htr herr
    refine ⟨?_, ?_, ?_, ?_⟩ <;> simp [traverse, generateHtml, hst, hca, htr]
  | text c =>
    intro sv sg hst hca htr herr
    refine ⟨?_, ?_, ?_, ?_⟩ <;> simp [traverse, generateHtml, hst, hca, htr]
  | item cs =>
    intro sv sg hst hca htr herr
    refine ⟨?_, ?_, ?_, ?_⟩ <;> simp [traverse, generateHtml, hst, hca, htr]
  | newline =>
    intro sv sg hst hca htr herr
    refine ⟨?_, ?_, ?_, ?_⟩ <;> simp [traverse, generateHtml, hst, hca, htr]
  | sound u =>
    intro sv sg hst hca htr herr
    refine ⟨?_, ?_, ?_, ?_⟩ <;> simp [traverse, generateHtml, hst, hca, htr]
  | video u =>
    intro sv sg hst hca htr herr
    refine ⟨?_, ?_, ?_, ?_⟩ <;> simp [traverse, generateHtml, hst, hca, htr]
/-- List version of `genAgrees`. -/
theorem genAgreesList (l : ASTList) : ∀ sv sg : SemSt,
    sg.scopeStack = sv.scopeStack → sg.currentAssignment = sv.currentAssignment →
    sg.refTrace = sv.refTrace → (traverseList sv l).errors = sv.errors →
    (genList sg l).2.scopeStack = (traverseList sv l).scopeStack ∧
    (genList sg l).2.currentAssignment = (traverseList sv l).currentAssignment ∧
    (genList sg l).2.refTrace = (traverseList sv l).refTrace ∧
    (genList sg l).2.errors = sg.errors := by
  cases l with
  | nil =>
    intro sv sg hst hca htr herr
    refine ⟨?_, ?_, ?_, ?_⟩ <;> simp [traverseList, genList, hst, hca, htr]
  | cons hd tl =>
    intro sv sg hst hca htr herr
    obtain ⟨d1, h1⟩ := traverse_errors_ext hd sv
    obtain ⟨d2, h2⟩ := traverseList_errors_ext tl (traverse sv hd)
    have hsplit : d1 ++ d2 = [] := by
      have hx : sv.errors ++ (d1 ++ d2) = sv.errors ++ [] := by
        have h3 := herr
        simp only [traverseList] at h3
        rw [h2, h1] at h3
        simpa using h3
      exact List.append_cancel_left hx
    have hd1 : d1 = [] := (List.append_eq_nil.mp hsplit).1
    have hd2 : d2 = [] := (List.append_eq_nil.mp hsplit).2
    have herr1 : (traverse sv hd).errors = sv.errors := by rw [h1, hd1, List.append_nil]
    have herr2 : (traverseList (traverse sv hd) tl).errors = (traverse sv hd).errors := by
      rw [h2, hd2, List.append_nil]
    obtain ⟨i1, i2, i3, i4⟩ := genAgrees hd sv sg hst hca htr herr1
    obtain ⟨j1, j2, j3, j4⟩ := genAgreesList tl (traverse sv hd) (generateHtml sg hd).2
      i1 i2 i3 herr2
    refine ⟨?_, ?_, ?_, ?_⟩
    · simp only [genList, traverseList]
      exact j1
    · simp only [genList, traverseList]
      exact j2
    · simp only [genList, traverseList]
      exact j3
    · simp only [genList, traverseList]
      rw [j4, i4]
end

/-! ## Claim C2 -/

/-- Claim C2: for every tree that passes validation, the generation pass,
starting from the same fresh analyzer state `analyze_tree` resets to,
performs the identical declare/assign/lookup scope mutations: the final
scope stacks, pending assignments, and the per-reference-site lookup
traces (name and binding found, in traversal order) coincide, and
generation records no error either. -/
theorem c2_generation_refines_validation (t : ASTNode) (h : validate t = []) :
    (generateHtml freshSemSt t).2.scopeStack = (traverse freshSemSt t).scopeStack ∧
    (generateHtml freshSemSt t).2.currentAssignment =
      (traverse freshSemSt t).currentAssignment ∧
    (generateHtml freshSemSt t).2.refTrace = (traverse freshSemSt t).refTrace ∧
    (generateHtml freshSemSt t).2.errors = [] ∧
    (traverse freshSemSt t).errors = [] := by
  have herr : (traverse freshSemSt t).errors = freshSemSt.errors := h
  obtain ⟨i1, i2, i3, i4⟩ := genAgrees t freshSemSt freshSemSt rfl rfl rfl herr
  exact ⟨i1, i2, i3, i4, h⟩

/-- Witness for C2 at the scenario-2 tree, which passes validation. -/
theorem c2_generation_refines_validation_witness :
    (generateHtml freshSemSt tree2).2.refTrace = (traverse freshSemSt tree2).refTrace ∧
    (generateHtml freshSemSt tree2).2.errors = [] :=
  ⟨(c2_generation_refines_validation tree2 (by decide)).2.2.1,
   (c2_generation_refines_validation tree2 (by decide)).2.2.2.1⟩


/-! ## Claim C8 -/

mutual
/-- The validation pass preserves the scope-stack length (pushes and pops
are balanced, and `exit_scope` never pops the last scope), and keeps the
stack non-empty. -/
theorem traverse_stack (n : ASTNode) : ∀ st : SemSt, st.scopeStack ≠ [] →
    (traverse st n).scopeStack.length = st.scopeStack.length ∧
    (traverse st n).scopeStack ≠ [] := by
  cases n with
  | program cs => exact fun st h => traverseList_stack cs st h
  | headSection cs => exact fun st h => traverseList_stack cs st h
  | paragrafSection cs =>
    intro st h
    obtain ⟨hlen, hne⟩ := traverseList_stack cs (enterScope st) (by simp [enterScope])
    have hlen2 : 2 ≤ (traverseList (enterScope st) cs).scopeStack.length := by
      rw [hlen]
      simp [enterScope]
      exact List.length_pos.mpr h
    constructor
    · simp only [traverse, exitScope_scopeStack]
      rw [popStack_length _ hlen2, hlen]
      simp [enterScope]
    · simp only [traverse, exitScope_scopeStack]
      exact popStack_ne_nil _ hne
  | listSection cs =>
    intro st h
    obtain ⟨hlen, hne⟩ := traverseList_stack cs (enterScope st) (by simp [enterScope])
    have hlen2 : 2 ≤ (traverseList (enterScope st) cs).scopeStack.length := by
      rw [hlen]
      simp [enterScope]
      exact List.length_pos.mpr h
    constructor
    · simp only [traverse, exitScope_scopeStack]
      rw [popStack_length _ hlen2, hlen]
      simp [enterScope]
    · simp only [traverse, exitScope_scopeStack]
      exact popStack_ne_nil _ hne
  | variableDeclaration name =>
    intro st h
    cases hsv : st.scopeStack with
    | nil => exact absurd hsv h
    | cons s rest =>
      by_cases hc : scopeContains s name <;>
        simp [traverse, declareVariable, hsv, hc]
  | variableAssignment nm v =>
    intro st h
    cases hca : st.currentAssignment with
    | none => simp [traverse, hca, h]
    | some varName =>
      cases hsa : stackAssign st.scopeStack varName v with
      | none => simp [traverse, hca, assignVariable, hsa, h]
      | some stk =>
        have hl := stackAssign_length st.scopeStack varName v stk hsa
        constructor
        · simp [traverse, hca, assignVariable, hsa, hl]
        · simp only [traverse, hca, assignVariable, hsa]
          intro hk
          rw [hk] at hl
          simp at hl
          exact h (List.length_eq_zero.mp hl.symm)
  | variableReference name =>
    intro st h
    cases hr : stackLookup st.scopeStack name with
    | none => simp [traverse, hr, h]
    | some o => cases o with
      | none => simp [traverse, hr, h]
      | some v => simp [traverse, hr, h]
  | bold cs => exact fun st h => traverseList_stack cs st h
  | italics cs => exact fun st h => traverseList_stack cs st h
  | title c => exact fun st h => by simp [traverse, h]
  | text c => exact fun st h => by simp [traverse, h]
  | item cs => exact fun st h => by simp [traverse, h]
  | newline => exact fun st h => by simp [traverse, h]
  | sound u => exact fun st h => by simp [traverse, h]
  | video u => exact fun st h => by simp [traverse, h]
/-- List version of `traverse_stack`. -/
theorem traverseList_stack (l : ASTList) : ∀ st : SemSt, st.scopeStack ≠ [] →
    (traverseList st l).scopeStack.length = st.scopeStack.length ∧
    (traverseList st l).scopeStack ≠ [] := by
  cases l with
  | nil => exact fun st h => by simp [traverseList, h]
  | cons hd tl =>
    intro st h
    obtain ⟨h1, h2⟩ := traverse_stack hd st h
    obtain ⟨h3, h4⟩ := traverseList_stack tl (traverse st hd) h2
    exact ⟨by simp only [traverseList]; rw [h3, h1], by simp only [traverseList]; exact h4⟩
end

mutual
/-- The generation pass preserves the scope-stack length and keeps the
stack non-empty. -/
theorem generate_stack (n : ASTNode) : ∀ st : SemSt, st.scopeStack ≠ [] →
    (generateHtml st n).2.scopeStack.length = st.scopeStack.length ∧
    (generateHtml st n).2.scopeStack ≠ [] := by
  cases n with
  | program cs =>
    intro st h
    simpa only [generateHtml] using genList_stack cs st h
  | headSection cs =>
    intro st h
    simpa only [generateHtml] using genList_stack cs st h
  | paragrafSection cs =>
    intro st h
    obtain ⟨hlen, hne⟩ := genList_stack cs (enterScope st) (by simp [enterScope])
    have hlen2 : 2 ≤ (genList (enterScope st) cs).2.scopeStack.length := by
      rw [hlen]
      simp [enterScope]
      exact List.length_pos.mpr h
    constructor
    · simp only [generateHtml, exitScope_scopeStack]
      rw [popStack_length _ hlen2, hlen]
      simp [enterScope]
    · simp only [generateHtml, exitScope_scopeStack]
      exact popStack_ne_nil _ hne
  | listSection cs =>
    intro st h
    obtain ⟨hlen, hne⟩ := genList_stack cs (enterScope st) (by simp [enterScope])
    have hlen2 : 2 ≤ (genList (enterScope st) cs).2.scopeStack.length := by
      rw [hlen]
      simp [enterScope]
      exact List.length_pos.mpr h
    constructor
    · simp only [generateHtml, exitScope_scopeStack]
      rw [popStack_length _ hlen2, hlen]
      simp [enterScope]
    · simp only [generateHtml, exitScope_scopeStack]
      exact popStack_ne_nil _ hne
  | variableDeclaration name =>
    intro st h
    cases hsv : st.scopeStack with
    | nil => exact absurd hsv h
    | cons s rest => simp [generateHtml, declareVariableCodegen, hsv]
  | variableAssignment nm v =>
    intro st h
    cases hca : st.currentAssignment with
    | none => simp [generateHtml, hca, h]
    | some varName =>
      cases hsa : stackAssign st.scopeStack varName v with
      | none => simp [generateHtml, hca, assignVariable, hsa, h]
      | some stk =>
        have hl := stackAssign_length st.scopeStack varName v stk hsa
        constructor
        · simp [generateHtml, hca, assignVariable, hsa, hl]
        · simp only [generateHtml, hca, assignVariable, hsa]
          intro hk
          rw [hk] at hl
          simp at hl
          exact h (List.length_eq_zero.mp hl.symm)
  | variableReference name =>
    intro st h
    cases hr : stackLookup st.scopeStack name with
    | none => simp [generateHtml, hr, h]
    | some o => cases o with
      | none => simp [generateHtml, hr, h]
      | some v => simp [generateHtml, hr, h]
  | bold cs =>
    intro st h
    simpa only [generateHtml] using genList_stack cs st h
  | italics cs =>
    intro st h
    simpa only [generateHtml] using genList_stack cs st h
  | title c => exact fun st h => by simp [generateHtml, h]
  | text c => exact fun st h => by simp [generateHtml, h]
  | item cs => exact fun st h => by simp [generateHtml, h]
  | newline => exact fun st h => by simp [generateHtml, h]
  | sound u => exact fun st h => by simp [generateHtml, h]
  | video u => exact fun st h => by simp [generateHtml, h]
/-- List version of `generate_stack`. -/
theorem genList_stack (l : ASTList) : ∀ st : SemSt, st.scopeStack ≠ [] →
    (genList st l).2.scopeStack.length = st.scopeStack.length ∧
    (genList st l).2.scopeStack ≠ [] := by
  cases l with
  | nil => exact fun st h => by simp [genList, h]
  | cons hd tl =>
    intro st h
    obtain ⟨h1, h2⟩ := generate_stack hd st h
    obtain ⟨h3, h4⟩ := genList_stack tl (generateHtml st hd).2 h2
    exact ⟨by simp only [genList]; rw [h3, h1], by simp only [genList]; exact h4⟩
end

/-- Claim C8: both passes start from a stack holding exactly the one
global scope (`LolcodeSemanticAnalyzer::new`, and the reset in
`analyze_tree`); `exit_scope` never empties a non-empty stack (the global
scope is never popped); and each full traversal of either pass preserves
the stack's length and leaves it non-empty — so every scope-stack
operation during validation and generation acts on a non-empty stack. -/
theorem c8_scope_stack_never_empty :
    freshSemSt.scopeStack = [[]] ∧ freshSemSt.scopeStack.length = 1 ∧
    (∀ st : SemSt, st.scopeStack ≠ [] → (exitScope st).scopeStack ≠ []) ∧
    (∀ (n : ASTNode) (st : SemSt), st.scopeStack ≠ [] →
      (traverse st n).scopeStack.length = st.scopeStack.length ∧
      (traverse st n).scopeStack ≠ []) ∧
    (∀ (n : ASTNode) (st : SemSt), st.scopeStack ≠ [] →
      (generateHtml st n).2.scopeStack.length = st.scopeStack.length ∧
      (generateHtml st n).2.scopeStack ≠ []) := by
  refine ⟨rfl, rfl, ?_, fun n st h => traverse_stack n st h,
    fun n st h => generate_stack n st h⟩
  intro st h
  rw [exitScope_scopeStack]
  exact popStack_ne_nil _ h

/-- Witness for C8: the invariant at the scenario-2 tree from the fresh
state. -/
theorem c8_scope_stack_never_empty_witness :
    (traverse freshSemSt tree2).scopeStack.length = freshSemSt.scopeStack.length ∧
    (traverse freshSemSt tree2).scopeStack ≠ [] :=
  c8_scope_stack_never_empty.2.2.2.1 tree2 freshSemSt (by decide)




/-! ## Lexer lemmas: consumption and characterization -/

theorem suffixOf_refl (a : List Char) : SuffixOf a a := ⟨[], rfl⟩

theorem suffixOf_trans {a b c : List Char} (h1 : SuffixOf a b) (h2 : SuffixOf b c) :
    SuffixOf a c := by
  obtain ⟨p, hp⟩ := h1
  obtain ⟨q, hq⟩ := h2
  exact ⟨q ++ p, by rw [hq, hp, List.append_assoc]⟩

theorem suffixOf_cons {a b : List Char} (c : Char) (h : SuffixOf a b) :
    SuffixOf a (c :: b) := by
  obtain ⟨p, hp⟩ := h
  exact ⟨c :: p, by rw [hp]; rfl⟩

theorem suffixOf_length {a b : List Char} (h : SuffixOf a b) : a.length ≤ b.length := by
  obtain ⟨p, hp⟩ := h
  rw [hp]
  simp

theorem readAlphaChars_split (li : List Char) :
    SuffixOf (readAlphaChars li).2 li ∧
    (readAlphaChars li).1.length + (readAlphaChars li).2.length = li.length := by
  induction li with
  | nil => exact ⟨suffixOf_refl _, rfl⟩
  | cons ch rest ih =>
    by_cases h : ch.isAlpha
    · constructor
      · have h2 := suffixOf_cons ch ih.1
        simpa [readAlphaChars, h] using h2
      · have h2 := ih.2
        simp [readAlphaChars, h]
        omega
    · have hx : readAlphaChars (ch :: rest) = ([], ch :: rest) := by
        simp [readAlphaChars, h]
      rw [hx]
      exact ⟨suffixOf_refl _, by simp⟩

theorem readAlnumChars_split (li : List Char) :
    SuffixOf (readAlnumChars li).2 li ∧
    (readAlnumChars li).1.length + (readAlnumChars li).2.length = li.length := by
  induction li with
  | nil => exact ⟨suffixOf_refl _, rfl⟩
  | cons ch rest ih =>
    by_cases h : ch.isAlphanum
    · constructor
      · have h2 := suffixOf_cons ch ih.1
        simpa [readAlnumChars, h] using h2
      · have h2 := ih.2
        simp [readAlnumChars, h]
        omega
    · have hx : readAlnumChars (ch :: rest) = ([], ch :: rest) := by
        simp [readAlnumChars, h]
      rw [hx]
      exact ⟨suffixOf_refl _, by simp⟩

theorem readTextChars_split (li : List Char) :
    SuffixOf (readTextChars li).2 li ∧
    (readTextChars li).1.length + (readTextChars li).2.length = li.length := by
  induction li with
  | nil => exact ⟨suffixOf_refl _, rfl⟩
  | cons ch rest ih =>
    by_cases h : ch = '\n' ∨ ch = '#'
    · have hx : readTextChars (ch :: rest) = ([], ch :: rest) := by
        simp [readTextChars, h]
      rw [hx]
      exact ⟨suffixOf_refl _, by simp⟩
    · constructor
      · have h2 := suffixOf_cons ch ih.1
        simpa [readTextChars, h] using h2
      · have h2 := ih.2
        simp [readTextChars, h]
        omega

theorem skipSpacesGo_split (li : List Char) : ∀ l c : Nat,
    SuffixOf (skipSpacesGo li l c).input li ∧ (skipSpacesGo li l c).line = l := by
  induction li with
  | nil => intro l c; exact ⟨suffixOf_refl _, rfl⟩
  | cons ch rest ih =>
    intro l c
    by_cases h : ch = ' ' ∨ ch = '\t'
    · constructor
      · have h2 := suffixOf_cons ch (ih l (c + 1)).1
        simpa [skipSpacesGo, h] using h2
      · simp [skipSpacesGo, h, (ih l (c + 1)).2]
    · have hx : skipSpacesGo (ch :: rest) l c = ⟨ch :: rest, l, c⟩ := by
        simp [skipSpacesGo, h]
      rw [hx]
      exact ⟨suffixOf_refl _, rfl⟩

/-- Reading an alphabetic word from `w ++ rest`, where `w` is alphabetic
and `rest` does not begin alphabetically, yields exactly `(w, rest)`. -/
theorem readAlphaChars_exact (w : List Char) (rest : List Char)
    (hw : ∀ ch ∈ w, ch.isAlpha = true)
    (hr : ∀ ch, rest.head? = some ch → ch.isAlpha = false) :
    readAlphaChars (w ++ rest) = (w, rest) := by
  induction w with
  | nil =>
    cases rest with
    | nil => rfl
    | cons ch r => simp [readAlphaChars, hr ch rfl]
  | cons ch wr ih =>
    have hch : ch.isAlpha = true := hw ch (List.mem_cons_self ch wr)
    have htail := ih (fun a ha => hw a (List.mem_cons_of_mem ch ha))
    simp [readAlphaChars, hch, htail]

/-- Skipping spaces over a state whose input does not begin with a space
or tab is the identity. -/
theorem skipSpaces_nospace (st : LexSt)
    (h : ∀ ch, st.input.head? = some ch → ¬(ch = ' ' ∨ ch = '\t')) :
    skipSpaces st = st := by
  obtain ⟨li, l, c⟩ := st
  cases li with
  | nil => rfl
  | cons ch rest => simp [skipSpaces, skipSpacesGo, h ch rfl]

/-! ## Claim C4 -/

/-- Claim C4 as stated is false: for the program `#FOO` the lexer reports
the "Unrecognized hashtag word" error at line 1, column 5 — the lexer's
current position just past the word — not at the position (1,1) of the
`#` character (`error_exit` prints `self.line`/`self.col`; the token-start
position saved in `get_next_token` is not used for the error). -/
theorem c4_counterexample :
    getNextToken 5 ⟨"#FOO".data, 1, 1⟩ =
      .err ⟨1, 5, "Unrecognized hashtag word '#FOO'"⟩ ∧
    lexAll "#FOO" = .err ⟨1, 5, "Unrecognized hashtag word '#FOO'"⟩ ∧
    (5 : Nat) ≠ 1 := by
  exact ⟨by decide, by decide, by decide⟩

/-- Claim C4 amended: when the lexer reaches `#` at position `(l, c)`
followed by an unrecognized alphabetic word `w` (not extendable by a
two-word merge: the next character is neither alphabetic nor a space), it
fails with the fatal error "Unrecognized hashtag word '#W'" (W the
uppercased word) reported at line `l`, column `c + 1 + |w|` — the current
position just past the word, not the `#`'s column `c`. -/
theorem c4_error_position (w rest : List Char) (l c fuel : Nat)
    (_hw : w ≠ []) (halpha : ∀ ch ∈ w, ch.isAlpha = true)
    (hrest : ∀ ch, rest.head? = some ch → (ch.isAlpha = false ∧ ch ≠ ' '))
    (hbad : lookup (String.mk (listUpper w)) = false) :
    getNextToken (fuel + 1) ⟨'#' :: (w ++ rest), l, c⟩ =
      .err ⟨l, c + 1 + w.length,
        "Unrecognized hashtag word '#" ++ String.mk (listUpper w) ++ "'"⟩ ∧
    c + 1 + w.length ≠ c := by
  constructor
  · have hskip : skipSpaces ⟨'#' :: (w ++ rest), l, c⟩ = ⟨'#' :: (w ++ rest), l, c⟩ :=
      skipSpaces_nospace _ (by intro ch hch; simp at hch; subst hch; decide)
    have hread : readAlphaChars (w ++ rest) = (w, rest) :=
      readAlphaChars_exact w rest halpha (fun ch hch => (hrest ch hch).1)
    have hnospace : ¬(rest.head? = some ' ') := fun hsp => (hrest ' ' hsp).2 rfl
    rw [getNextToken]
    simp [hskip, readHashWord, bump, hread, hnospace, hbad, Nat.add_assoc]
  · omega


/-- Witness for C4's amended theorem at the word `FOO`. -/
theorem c4_error_position_witness :
    getNextToken 5 ⟨'#' :: (['F', 'O', 'O'] ++ []), 1, 1⟩ =
      .err ⟨1, 1 + 1 + (['F', 'O', 'O'] : List Char).length,
        "Unrecognized hashtag word '#" ++ String.mk (listUpper ['F', 'O', 'O']) ++ "'"⟩ :=
  (c4_error_position ['F', 'O', 'O'] [] 1 1 4 (by decide) (by decide)
    (by intro ch hch; simp at hch) (by decide)).1

/-! ## Lexer progress and sufficiency lemmas (claim C9) -/

theorem bump_input (st : LexSt) (ch : Char) (rest : List Char)
    (h : st.input = ch :: rest) : (bump st).input = rest := by
  obtain ⟨li, l, c⟩ := st
  simp only at h
  subst h
  by_cases hnl : ch = '\n' <;> simp [bump, hnl]

theorem skipMultilineComment_consumes (fuel : Nat) : ∀ st st' : LexSt,
    skipMultilineComment fuel st = .ok st' →
    SuffixOf st'.input st.input ∧ st'.input.length < st.input.length := by
  induction fuel with
  | zero => intro st st' h; simp [skipMultilineComment] at h
  | succ fuel ih =>
    intro st st' h
    obtain ⟨li, l, c⟩ := st
    cases li with
    | nil => simp [skipMultilineComment] at h
    | cons ch rest =>
      simp only [skipMultilineComment] at h
      have hb : (bump ⟨ch :: rest, l, c⟩).input = rest := bump_input _ ch rest rfl
      by_cases hch : ch = '#'
      · rw [if_pos hch] at h
        have hsplit := readAlphaChars_split (bump ⟨ch :: rest, l, c⟩).input
        rw [hb] at hsplit
        by_cases htl : String.mk (listUpper (readAlphaChars (bump ⟨ch :: rest, l, c⟩).input).1) = "TLDR"
        · rw [if_pos htl] at h
          have hst' : st'.input = (readAlphaChars (bump ⟨ch :: rest, l, c⟩).input).2 := by
            cases h
            rfl
          rw [hst', hb]
          have h3 := hsplit.2
          constructor
          · exact suffixOf_trans hsplit.1 ⟨[ch], rfl⟩
          · simp only [List.length_cons]
            omega
        · rw [if_neg htl] at h
          rw [hb] at h
          have hrec := ih _ _ h
          dsimp only at hrec
          have h3 := hsplit.2
          have h1 := hrec.2
          constructor
          · exact suffixOf_trans hrec.1 (suffixOf_trans hsplit.1 ⟨[ch], rfl⟩)
          · simp only [List.length_cons]
            omega
      · rw [if_neg hch] at h
        have hrec := ih _ _ h
        rw [hb] at hrec
        have h1 := hrec.2
        constructor
        · exact suffixOf_trans hrec.1 ⟨[ch], rfl⟩
        · simp only [List.length_cons]
          omega

theorem skipMultilineComment_suff (fuel : Nat) : ∀ st : LexSt,
    st.input.length < fuel → skipMultilineComment fuel st ≠ .out := by
  induction fuel with
  | zero => intro st h; omega
  | succ fuel ih =>
    intro st h
    obtain ⟨li, l, c⟩ := st
    cases li with
    | nil => simp [skipMultilineComment]
    | cons ch rest =>
      simp only [skipMultilineComment]
      have hb : (bump ⟨ch :: rest, l, c⟩).input = rest := bump_input _ ch rest rfl
      simp only [List.length_cons] at h
      by_cases hch : ch = '#'
      · rw [if_pos hch]
        have hsplit := readAlphaChars_split (bump ⟨ch :: rest, l, c⟩).input
        rw [hb] at hsplit
        have h2 := suffixOf_length hsplit.1
        by_cases htl : String.mk (listUpper (readAlphaChars (bump ⟨ch :: rest, l, c⟩).input).1) = "TLDR"
        · rw [if_pos htl]
          simp
        · rw [if_neg htl]
          rw [hb]
          apply ih
          dsimp only
          omega
      · rw [if_neg hch]
        apply ih
        rw [hb]
        omega


/-- Shape of the result state of one two-word-merge attempt: whatever the
outcome of reading the second word from `sp :: t`, the resulting input is
a suffix of `t`. -/
theorem merge_suffix (t : List Char) : SuffixOf (readAlphaChars t).2 t :=
  (readAlphaChars_split t).1

/-- Case analysis of `read_hash_word` from a `#`-headed state: any token
or skipped-comment outcome leaves a suffix of the input past the `#`
(hence strictly less input than before the `#`), and with sufficient fuel
the computation never runs out. -/
theorem readHashWord_cases (fuel : Nat) (st : LexSt) (sl sc : Nat) (rest : List Char)
    (hin : st.input = '#' :: rest) :
    (∀ t st', readHashWord fuel st sl sc = .tok t st' →
      SuffixOf st'.input rest ∧ t.kind ≠ .eof) ∧
    (∀ st', readHashWord fuel st sl sc = .comment st' → SuffixOf st'.input rest) ∧
    (rest.length < fuel → readHashWord fuel st sl sc ≠ .out) := by
  have hb : (bump st).input = rest := bump_input st '#' rest hin
  have hp := readAlphaChars_split (bump st).input
  rw [hb] at hp
  simp only [readHashWord, hb]
  cases hP : readAlphaChars rest with
  | mk w r2 =>
    rw [hP] at hp
    dsimp only at hp ⊢
    have hr2 : SuffixOf r2 rest := hp.1
    by_cases h1 : String.mk (listUpper w) = "I" ∧ r2.head? = some ' '
    · rw [if_pos h1]
      cases hr : r2 with
      | nil =>
        rw [hr] at h1
        simp at h1
      | cons sp t =>
        rw [hr] at hr2
        have hbt : (bump ⟨sp :: t, (bump st).line, (bump st).col + w.length⟩).input = t :=
          bump_input _ sp t rfl
        rw [hbt]
        have hsufq : SuffixOf (readAlphaChars t).2 rest :=
          suffixOf_trans (merge_suffix t) (suffixOf_trans ⟨[sp], rfl⟩ hr2)
        by_cases hHAZ : String.mk (listUpper (readAlphaChars t).1) = "HAZ"
        · rw [if_pos hHAZ]
          dsimp only
          rw [if_neg (by decide : ¬(lookup "I HAZ" = false)),
            if_neg (by decide : ¬("I HAZ" = "OBTW"))]
          refine ⟨?_, ?_, ?_⟩
          · intro t' st' h
            cases h
            exact ⟨hsufq, by simp⟩
          · intro st' h
            cases h
          · intro _
            simp
        · rw [if_neg hHAZ]
          dsimp only
          rw [if_pos (by rw [h1.1]; decide : lookup (String.mk (listUpper w)) = false)]
          refine ⟨?_, ?_, ?_⟩
          · intro t' st' h
            cases h
          · intro st' h
            cases h
          · intro _
            simp
    · rw [if_neg h1]
      by_cases h2 : String.mk (listUpper w) = "IT" ∧ r2.head? = some ' '
      · rw [if_pos h2]
        cases hr : r2 with
        | nil =>
          rw [hr] at h2
          simp at h2
        | cons sp t =>
          rw [hr] at hr2
          have hbt : (bump ⟨sp :: t, (bump st).line, (bump st).col + w.length⟩).input = t :=
            bump_input _ sp t rfl
          rw [hbt]
          have hsufq : SuffixOf (readAlphaChars t).2 rest :=
            suffixOf_trans (merge_suffix t) (suffixOf_trans ⟨[sp], rfl⟩ hr2)
          by_cases hIZ : String.mk (listUpper (readAlphaChars t).1) = "IZ"
          · rw [if_pos hIZ]
            dsimp only
            rw [if_neg (by decide : ¬(lookup "IT IZ" = false)),
              if_neg (by decide : ¬("IT IZ" = "OBTW"))]
            refine ⟨?_, ?_, ?_⟩
            · intro t' st' h
              cases h
              exact ⟨hsufq, by simp⟩
            · intro st' h
              cases h
            · intro _
              simp
          · rw [if_neg hIZ]
            dsimp only
            rw [if_pos (by rw [h2.1]; decide : lookup (String.mk (listUpper w)) = false)]
            refine ⟨?_, ?_, ?_⟩
            · intro t' st' h
              cases h
            · intro st' h
              cases h
            · intro _
              simp
      · rw [if_neg h2]
        by_cases h3 : String.mk (listUpper w) = "LEMME" ∧ r2.head? = some ' '
        · rw [if_pos h3]
          cases hr : r2 with
          | nil =>
            rw [hr] at h3
            simp at h3
          | cons sp t =>
            rw [hr] at hr2
            have hbt : (bump ⟨sp :: t, (bump st).line, (bump st).col + w.length⟩).input = t :=
              bump_input _ sp t rfl
            rw [hbt]
            have hsufq : SuffixOf (readAlphaChars t).2 rest :=
              suffixOf_trans (merge_suffix t) (suffixOf_trans ⟨[sp], rfl⟩ hr2)
            by_cases hSEE : String.mk (listUpper (readAlphaChars t).1) = "SEE"
            · rw [if_pos hSEE]
              dsimp only
              rw [if_neg (by decide : ¬(lookup "LEMME SEE" = false)),
                if_neg (by decide : ¬("LEMME SEE" = "OBTW"))]
              refine ⟨?_, ?_, ?_⟩
              · intro t' st' h
                cases h
                exact ⟨hsufq, by simp⟩
              · intro st' h
                cases h
              · intro _
                simp
            · rw [if_neg hSEE]
              dsimp only
              rw [if_pos (by rw [h3.1]; decide : lookup (String.mk (listUpper w)) = false)]
              refine ⟨?_, ?_, ?_⟩
              · intro t' st' h
                cases h
              · intro st' h
                cases h
              · intro _
                simp
        · rw [if_neg h3]
          dsimp only
          by_cases hlook : lookup (String.mk (listUpper w)) = false
          · rw [if_pos hlook]
            refine ⟨?_, ?_, ?_⟩
            · intro t' st' h
              cases h
            · intro st' h
              cases h
            · intro _
              simp
          · rw [if_neg hlook]
            by_cases hobtw : String.mk (listUpper w) = "OBTW"
            · rw [if_pos hobtw]
              refine ⟨?_, ?_, ?_⟩
              · intro t' st' h
                cases hsk : skipMultilineComment fuel
                    ⟨r2, (bump st).line, (bump st).col + w.length⟩ with
                | ok st6 => rw [hsk] at h; cases h
                | err e => rw [hsk] at h; cases h
                | out => rw [hsk] at h; cases h
              · intro st' h
                cases hsk : skipMultilineComment fuel
                    ⟨r2, (bump st).line, (bump st).col + w.length⟩ with
                | ok st6 =>
                  rw [hsk] at h
                  cases h
                  have hcon := (skipMultilineComment_consumes fuel _ _ hsk).1
                  dsimp only at hcon
                  exact suffixOf_trans hcon hr2
                | err e => rw [hsk] at h; cases h
                | out => rw [hsk] at h; cases h
              · intro hfuel
                have hlen : (⟨r2, (bump st).line, (bump st).col + w.length⟩ :
                    LexSt).input.length < fuel := by
                  dsimp only
                  have := suffixOf_length hr2
                  omega
                cases hsk : skipMultilineComment fuel
                    ⟨r2, (bump st).line, (bump st).col + w.length⟩ with
                | ok st6 => simp [hsk]
                | err e => simp [hsk]
                | out => exact absurd hsk (skipMultilineComment_suff fuel _ hlen)
            · rw [if_neg hobtw]
              refine ⟨?_, ?_, ?_⟩
              · intro t' st' h
                cases h
                exact ⟨hr2, by simp⟩
              · intro st' h
                cases h
              · intro _
                simp


/-- Suffix fact for `skipSpaces`. -/
theorem skipSpaces_suffix (st : LexSt) : SuffixOf (skipSpaces st).input st.input :=
  (skipSpacesGo_split st.input st.line st.col).1

/-- The input left by `read_word`, and the fact that it never yields
`Eof`. -/
theorem readWord_shape (st : LexSt) (sl sc : Nat) :
    (readWord st sl sc).2.input = (readAlnumChars st.input).2 ∧
    (readWord st sl sc).1.kind ≠ .eof := by
  simp only [readWord]
  by_cases hlk : lookup (String.mk (listUpper (readAlnumChars st.input).1)) = true
  · rw [if_pos hlk]
    exact ⟨rfl, by simp⟩
  · rw [if_neg hlk]
    exact ⟨rfl, by simp⟩

/-- An alphanumeric-headed word run strictly consumes input. -/
theorem readAlnumChars_pos (ch : Char) (tail : List Char) (h : ch.isAlphanum = true) :
    (readAlnumChars (ch :: tail)).2.length < (ch :: tail).length := by
  have hsplit := readAlnumChars_split tail
  have hx : readAlnumChars (ch :: tail) =
      (ch :: (readAlnumChars tail).1, (readAlnumChars tail).2) := by
    simp [readAlnumChars, h]
  rw [hx]
  simp only [List.length_cons]
  omega

/-- A text run not stopped immediately strictly consumes input. -/
theorem readTextChars_pos (ch : Char) (tail : List Char) (h : ¬(ch = '\n' ∨ ch = '#')) :
    (readTextChars (ch :: tail)).2.length < (ch :: tail).length := by
  have hsplit := readTextChars_split tail
  have hx : readTextChars (ch :: tail) =
      (ch :: (readTextChars tail).1, (readTextChars tail).2) := by
    simp [readTextChars, h]
  rw [hx]
  simp only [List.length_cons]
  omega

/-- Progress: a successful `get_next_token` returns a suffix of the input,
strictly shorter unless the token is `Eof`. -/
theorem getNextToken_progress (fuel : Nat) : ∀ st t st',
    getNextToken fuel st = .ok (t, st') →
    SuffixOf st'.input st.input ∧ (t.kind ≠ .eof → st'.input.length < st.input.length) := by
  induction fuel with
  | zero => intro st t st' h; simp [getNextToken] at h
  | succ fuel ih =>
    intro st t st' h
    rw [getNextToken] at h
    have hsuf0 : SuffixOf (skipSpaces st).input st.input := skipSpaces_suffix st
    generalize hsp : skipSpaces st = stx at h hsuf0
    obtain ⟨li, l, c⟩ := stx
    dsimp only at h hsuf0
    cases li with
    | nil =>
      simp only [LexRes.ok.injEq, Prod.mk.injEq] at h
      obtain ⟨ht, hst'⟩ := h
      subst hst'
      refine ⟨hsuf0, ?_⟩
      intro hne
      exact absurd (by rw [← ht]) hne
    | cons ch tail =>
      simp only [] at h
      have hlen0 := suffixOf_length hsuf0
      simp only [List.length_cons] at hlen0
      by_cases hnl : ch = '\n'
      · rw [if_pos hnl] at h
        simp only [LexRes.ok.injEq, Prod.mk.injEq] at h
        obtain ⟨ht, hst'⟩ := h
        subst hst'
        have hbt : (bump ⟨ch :: tail, l, c⟩).input = tail := bump_input _ ch tail rfl
        rw [hbt]
        exact ⟨suffixOf_trans ⟨[ch], rfl⟩ hsuf0, fun _ => by omega⟩
      · rw [if_neg hnl] at h
        by_cases hhash : ch = '#'
        · rw [if_pos hhash] at h
          have hcases := readHashWord_cases (fuel + 1) ⟨ch :: tail, l, c⟩ l c tail
            (by rw [hhash])
          cases hrh : readHashWord (fuel + 1) ⟨ch :: tail, l, c⟩ l c with
          | tok t1 st1 =>
            rw [hrh] at h
            simp only [LexRes.ok.injEq, Prod.mk.injEq] at h
            obtain ⟨ht, hst'⟩ := h
            subst hst'
            have hsuf1 := (hcases.1 t1 st1 hrh).1
            have hlen := suffixOf_length hsuf1
            exact ⟨suffixOf_trans (suffixOf_trans hsuf1 ⟨[ch], rfl⟩) hsuf0,
              fun _ => by omega⟩
          | comment st1 =>
            rw [hrh] at h
            have hsuf1 := hcases.2.1 st1 hrh
            have hrec := ih st1 t st' h
            have hlen1 := suffixOf_length hsuf1
            have hlen2 := suffixOf_length hrec.1
            exact ⟨suffixOf_trans hrec.1
                (suffixOf_trans (suffixOf_trans hsuf1 ⟨[ch], rfl⟩) hsuf0),
              fun _ => by omega⟩
          | err e => rw [hrh] at h; cases h
          | out => rw [hrh] at h; cases h
        · rw [if_neg hhash] at h
          by_cases halpha : ch.isAlpha = true
          · rw [if_pos halpha] at h
            simp only [LexRes.ok.injEq] at h
            have hw := readWord_shape ⟨ch :: tail, l, c⟩ l c
            have hst' : st' = (readWord ⟨ch :: tail, l, c⟩ l c).2 := by rw [h]
            have hti : t = (readWord ⟨ch :: tail, l, c⟩ l c).1 := by rw [h]
            have hin2 : st'.input = (readAlnumChars (ch :: tail)).2 := by
              rw [hst']
              exact hw.1
            have hq := readAlnumChars_split (ch :: tail)
            have hpos : (readAlnumChars (ch :: tail)).2.length < (ch :: tail).length :=
              readAlnumChars_pos ch tail (by simp [Char.isAlphanum, halpha])
            simp only [List.length_cons] at hpos
            constructor
            · rw [hin2]
              exact suffixOf_trans hq.1 hsuf0
            · intro _
              rw [hin2]
              omega
          · rw [if_neg halpha] at h
            simp only [readTextLine] at h
            have hq := readTextChars_split (ch :: tail)
            have hpos : (readTextChars (ch :: tail)).2.length < (ch :: tail).length :=
              readTextChars_pos ch tail (by push_neg; exact ⟨hnl, hhash⟩)
            simp only [List.length_cons] at hpos
            by_cases htr : trimChars (readTextChars (ch :: tail)).1 = []
            · rw [if_pos htr] at h
              have hrec := ih _ t st' h
              dsimp only at hrec
              have hlen1 := suffixOf_length hrec.1
              have hlen2 := suffixOf_length hq.1
              exact ⟨suffixOf_trans hrec.1 (suffixOf_trans hq.1 hsuf0),
                fun _ => by omega⟩
            · rw [if_neg htr] at h
              simp only [LexRes.ok.injEq, Prod.mk.injEq] at h
              obtain ⟨ht, hst'⟩ := h
              subst hst'
              dsimp only
              exact ⟨suffixOf_trans hq.1 hsuf0, fun _ => by omega⟩


/-- Sufficiency: with fuel exceeding the input length, `get_next_token`
never runs out of fuel. -/
theorem getNextToken_suff (fuel : Nat) : ∀ st : LexSt,
    st.input.length < fuel → getNextToken fuel st ≠ .out := by
  induction fuel with
  | zero => intro st h; omega
  | succ fuel ih =>
    intro st h
    rw [getNextToken]
    have hsuf0 : SuffixOf (skipSpaces st).input st.input := skipSpaces_suffix st
    generalize hsp : skipSpaces st = stx at hsuf0 ⊢
    obtain ⟨li, l, c⟩ := stx
    dsimp only at hsuf0 ⊢
    cases li with
    | nil => simp
    | cons ch tail =>
      simp only []
      have hlen0 := suffixOf_length hsuf0
      simp only [List.length_cons] at hlen0
      by_cases hnl : ch = '\n'
      · rw [if_pos hnl]
        simp
      · rw [if_neg hnl]
        by_cases hhash : ch = '#'
        · rw [if_pos hhash]
          have hcases := readHashWord_cases (fuel + 1) ⟨ch :: tail, l, c⟩ l c tail
            (by rw [hhash])
          cases hrh : readHashWord (fuel + 1) ⟨ch :: tail, l, c⟩ l c with
          | tok t1 st1 => simp
          | comment st1 =>
            have hsuf1 := hcases.2.1 st1 hrh
            have hlen1 := suffixOf_length hsuf1
            exact ih st1 (by omega)
          | err e => simp
          | out =>
            exact absurd hrh (hcases.2.2 (by omega))
        · rw [if_neg hhash]
          by_cases halpha : ch.isAlpha = true
          · rw [if_pos halpha]
            simp
          · rw [if_neg halpha]
            simp only [readTextLine]
            have hpos : (readTextChars (ch :: tail)).2.length < (ch :: tail).length :=
              readTextChars_pos ch tail (by push_neg; exact ⟨hnl, hhash⟩)
            simp only [List.length_cons] at hpos
            by_cases htr : trimChars (readTextChars (ch :: tail)).1 = []
            · rw [if_pos htr]
              exact ih _ (by dsimp only; omega)
            · rw [if_neg htr]
              simp

/-- Once `Eof` is produced, the remaining input is empty (so every further
call yields `Eof` again). -/
theorem getNextToken_eof_input (fuel : Nat) : ∀ st t st',
    getNextToken fuel st = .ok (t, st') → t.kind = .eof → st'.input = [] := by
  induction fuel with
  | zero => intro st t st' h; simp [getNextToken] at h
  | succ fuel ih =>
    intro st t st' h heof
    rw [getNextToken] at h
    generalize hsp : skipSpaces st = stx at h
    obtain ⟨li, l, c⟩ := stx
    dsimp only at h
    cases li with
    | nil =>
      simp only [LexRes.ok.injEq, Prod.mk.injEq] at h
      obtain ⟨ht, hst'⟩ := h
      subst hst'
      rfl
    | cons ch tail =>
      simp only [] at h
      by_cases hnl : ch = '\n'
      · rw [if_pos hnl] at h
        simp only [LexRes.ok.injEq, Prod.mk.injEq] at h
        obtain ⟨ht, hst'⟩ := h
        rw [← ht] at heof
        simp at heof
      · rw [if_neg hnl] at h
        by_cases hhash : ch = '#'
        · rw [if_pos hhash] at h
          have hcases := readHashWord_cases (fuel + 1) ⟨ch :: tail, l, c⟩ l c tail
            (by rw [hhash])
          cases hrh : readHashWord (fuel + 1) ⟨ch :: tail, l, c⟩ l c with
          | tok t1 st1 =>
            rw [hrh] at h
            simp only [LexRes.ok.injEq, Prod.mk.injEq] at h
            obtain ⟨ht, hst'⟩ := h
            rw [← ht] at heof
            exact absurd heof (hcases.1 t1 st1 hrh).2
          | comment st1 =>
            rw [hrh] at h
            exact ih st1 t st' h heof
          | err e => rw [hrh] at h; cases h
          | out => rw [hrh] at h; cases h
        · rw [if_neg hhash] at h
          by_cases halpha : ch.isAlpha = true
          · rw [if_pos halpha] at h
            simp only [LexRes.ok.injEq] at h
            have hw := readWord_shape ⟨ch :: tail, l, c⟩ l c
            have hti : t = (readWord ⟨ch :: tail, l, c⟩ l c).1 := by rw [h]
            rw [hti] at heof
            exact absurd heof hw.2
          · rw [if_neg halpha] at h
            simp only [readTextLine] at h
            by_cases htr : trimChars (readTextChars (ch :: tail)).1 = []
            · rw [if_pos htr] at h
              exact ih _ t st' h heof
            · rw [if_neg htr] at h
              simp only [LexRes.ok.injEq, Prod.mk.injEq] at h
              obtain ⟨ht, hst'⟩ := h
              rw [← ht] at heof
              simp at heof

/-- Sufficiency for the token-collection loop. -/
theorem lexTokens_suff (fuel : Nat) : ∀ st : LexSt,
    st.input.length < fuel → lexTokens fuel st ≠ .out := by
  induction fuel with
  | zero => intro st h; omega
  | succ fuel ih =>
    intro st h
    rw [lexTokens]
    have hnt : nextTok st ≠ .out :=
      getNextToken_suff (st.input.length + 1) st (by omega)
    cases hn : nextTok st with
    | ok p =>
      obtain ⟨t, st'⟩ := p
      simp only []
      by_cases he : t.kind = .eof
      · rw [if_pos he]
        simp
      · rw [if_neg he]
        have hprog := getNextToken_progress (st.input.length + 1) st t st' hn
        have hlt := hprog.2 he
        have hrec := ih st' (by omega)
        cases hl : lexTokens fuel st' with
        | ok ts => simp
        | err e => simp
        | out => exact absurd hl hrec
    | err e => simp
    | out => exact absurd hn hnt

/-- Every successful full tokenization ends with (exactly one, final)
`Eof` token. -/
theorem lexTokens_last_eof (fuel : Nat) : ∀ st ts,
    lexTokens fuel st = .ok ts → ∃ t, ts.getLast? = some t ∧ t.kind = .eof := by
  induction fuel with
  | zero => intro st ts h; simp [lexTokens] at h
  | succ fuel ih =>
    intro st ts h
    rw [lexTokens] at h
    cases hn : nextTok st with
    | ok p =>
      obtain ⟨t, st'⟩ := p
      rw [hn] at h
      simp only [] at h
      by_cases he : t.kind = .eof
      · rw [if_pos he] at h
        simp only [LexRes.ok.injEq] at h
        subst h
        exact ⟨t, rfl, he⟩
      · rw [if_neg he] at h
        cases hl : lexTokens fuel st' with
        | ok ts2 =>
          rw [hl] at h
          simp only [LexRes.ok.injEq] at h
          subst h
          obtain ⟨t2, hlast, heof⟩ := ih st' ts2 hl
          refine ⟨t2, ?_, heof⟩
          cases ts2 with
          | nil => simp at hlast
          | cons a b => simpa [List.getLast?_cons_cons] using hlast
        | err e => rw [hl] at h; cases h
        | out => rw [hl] at h; cases h
    | err e => rw [hn] at h; cases h
    | out => rw [hn] at h; cases h

/-! ## Claim C9 -/

/-- Claim C9: repeated calls of `get_next_token` terminate.  With any fuel
exceeding the remaining input length neither a single call nor the full
collection loop exhausts its fuel (each recursive call — after a comment
or an empty text run — strictly consumes input); on empty input the call
returns an `Eof` token and the unchanged state, so every subsequent call
returns `Eof` again; any `Eof` result leaves empty input; and every
successfully lexed program's token list ends with `Eof` (no error was
raised along the way). -/
theorem c9_lexer_termination :
    (∀ (st : LexSt) (fuel : Nat), st.input.length < fuel →
      getNextToken fuel st ≠ .out) ∧
    (∀ (st : LexSt) (fuel : Nat), st.input.length < fuel →
      lexTokens fuel st ≠ .out) ∧
    (∀ (fuel l c : Nat),
      getNextToken (fuel + 1) ⟨[], l, c⟩ = .ok (⟨.eof, l, c⟩, ⟨[], l, c⟩)) ∧
    (∀ (fuel : Nat) (st : LexSt) (t : Token) (st' : LexSt),
      getNextToken fuel st = .ok (t, st') → t.kind = .eof → st'.input = []) ∧
    (∀ (src : String) (ts : List Token), lexAll src = .ok ts →
      ∃ t, ts.getLast? = some t ∧ t.kind = .eof) := by
  refine ⟨fun st fuel h => getNextToken_suff fuel st h,
    fun st fuel h => lexTokens_suff fuel st h,
    fun fuel l c => ?_,
    fun fuel st t st' h he => getNextToken_eof_input fuel st t st' h he,
    fun src ts h => lexTokens_last_eof _ _ ts h⟩
  rw [getNextToken]
  rfl

/-- Witness for C9: a concrete call, loop, and Eof persistence. -/
theorem c9_lexer_termination_witness :
    getNextToken 2 ⟨['x'], 1, 1⟩ ≠ .out ∧
    lexTokens 2 ⟨['x'], 1, 1⟩ ≠ .out ∧
    getNextToken 3 ⟨[], 7, 9⟩ = .ok (⟨.eof, 7, 9⟩, ⟨[], 7, 9⟩) :=
  ⟨c9_lexer_termination.1 ⟨['x'], 1, 1⟩ 2 (by decide),
   c9_lexer_termination.2.1 ⟨['x'], 1, 1⟩ 2 (by decide),
   c9_lexer_termination.2.2.1 2 7 9⟩


/-! ## Comment transparency (claim C6): characterizing the reading loops

Each greedy reading loop of the lexer, run on an input `u ++ P`, either
stops strictly inside `u` — uniformly in `P` — or consumes all of `u` and
continues into `P`.  These total characterizations drive both the
position-irrelevance lemmas and the frame lemmas below. -/

/-- `bump` on a non-empty input, with explicit position arithmetic. -/
theorem bump_cons (ch : Char) (xs : List Char) (l c : Nat) :
    bump ⟨ch :: xs, l, c⟩ =
      ⟨xs, if ch = '\n' then l + 1 else l, if ch = '\n' then 1 else c + 1⟩ := by
  by_cases h : ch = '\n' <;> simp [bump, h]

/-- Cancel a common tail of two list appends. -/
theorem append_cancel {a b p : List Char} (h : a ++ p = b ++ p) : a = b := by
  have hl : a.length = b.length := by
    have h2 := congrArg List.length h
    simp only [List.length_append] at h2
    omega
  exact (List.append_inj h hl).1

/-- A long enough suffix of `r ++ post` still ends in `post`. -/
theorem suffix_with_tail {x r post : List Char} (h : SuffixOf x (r ++ post))
    (hlen : post.length ≤ x.length) : ∃ q, x = q ++ post := by
  obtain ⟨p, hp⟩ := h
  have hpl : p.length ≤ r.length := by
    have h2 := congrArg List.length hp
    simp only [List.length_append] at h2
    omega
  refine ⟨r.drop p.length, ?_⟩
  have hx : r.drop p.length ++ post = x := by
    rw [← List.drop_append_of_le_length hpl, hp, List.drop_left]
  exact hx.symm

/-- An alphabetic read stops immediately on a non-alphabetic head. -/
theorem readAlphaChars_stop (li : List Char)
    (h : ∀ ch, li.head? = some ch → ch.isAlpha = false) :
    readAlphaChars li = ([], li) := by
  cases li with
  | nil => rfl
  | cons ch rest =>
    have hc := h ch rfl
    simp [readAlphaChars, hc]

/-- An alphanumeric read stops immediately on a non-alphanumeric head. -/
theorem readAlnumChars_stop (li : List Char)
    (h : ∀ ch, li.head? = some ch → ch.isAlphanum = false) :
    readAlnumChars li = ([], li) := by
  cases li with
  | nil => rfl
  | cons ch rest =>
    have hc := h ch rfl
    simp [readAlnumChars, hc]

/-- A text read stops immediately on a newline or `#` head. -/
theorem readTextChars_stop (li : List Char)
    (h : ∀ ch, li.head? = some ch → ch = '\n' ∨ ch = '#') :
    readTextChars li = ([], li) := by
  cases li with
  | nil => rfl
  | cons ch rest =>
    simp only [readTextChars]
    rw [if_pos (h ch rfl)]

/-- Space-skipping stops immediately on a non-space head. -/
theorem skipSpacesGo_stop (li : List Char) (l c : Nat)
    (h : ∀ ch, li.head? = some ch → ¬(ch = ' ' ∨ ch = '\t')) :
    skipSpacesGo li l c = ⟨li, l, c⟩ := by
  cases li with
  | nil => rfl
  | cons ch rest =>
    simp only [skipSpacesGo]
    rw [if_neg (h ch rfl)]

/-- An alphanumeric read either stops immediately or strictly consumes. -/
theorem readAlnumChars_cases (li : List Char) :
    readAlnumChars li = ([], li) ∨ (readAlnumChars li).2.length < li.length := by
  cases li with
  | nil => left; rfl
  | cons ch rest =>
    by_cases h : ch.isAlphanum = true
    · right; exact readAlnumChars_pos ch rest h
    · left; simp [readAlnumChars, h]

/-- A text read either stops immediately or strictly consumes. -/
theorem readTextChars_cases (li : List Char) :
    readTextChars li = ([], li) ∨ (readTextChars li).2.length < li.length := by
  cases li with
  | nil => left; rfl
  | cons ch rest =>
    by_cases h : ch = '\n' ∨ ch = '#'
    · left
      simp only [readTextChars]
      rw [if_pos h]
    · right; exact readTextChars_pos ch rest h

/-- Total characterization of space-skipping on an appended input. -/
theorem skipSpacesGo_total (u : List Char) :
    (∃ sp u2, u = sp ++ u2 ∧ u2 ≠ [] ∧
      (∀ ch, u2.head? = some ch → ¬(ch = ' ' ∨ ch = '\t')) ∧
      ∀ (P : List Char) (l c : Nat),
        skipSpacesGo (u ++ P) l c = ⟨u2 ++ P, l, c + sp.length⟩) ∨
    ((∀ ch ∈ u, ch = ' ' ∨ ch = '\t') ∧
      ∀ (P : List Char) (l c : Nat),
        skipSpacesGo (u ++ P) l c = skipSpacesGo P l (c + u.length)) := by
  induction u with
  | nil =>
    right
    refine ⟨by simp, ?_⟩
    intro P l c
    simp
  | cons ch u' ih =>
    by_cases hch : ch = ' ' ∨ ch = '\t'
    · rcases ih with ⟨sp, u2, hsplit, hne, hstop, heq⟩ | ⟨hall, heq⟩
      · left
        refine ⟨ch :: sp, u2, by rw [hsplit]; rfl, hne, hstop, ?_⟩
        intro P l c
        have hx : skipSpacesGo ((ch :: u') ++ P) l c = skipSpacesGo (u' ++ P) l (c + 1) := by
          simp only [List.cons_append, skipSpacesGo]
          rw [if_pos hch]
          rfl
        rw [hx, heq P l (c + 1)]
        have harith : c + 1 + sp.length = c + (ch :: sp).length := by
          simp only [List.length_cons]
          omega
        rw [harith]
      · right
        refine ⟨?_, ?_⟩
        · intro x hx
          rcases List.mem_cons.mp hx with h | h
          · rw [h]; exact hch
          · exact hall x h
        · intro P l c
          have hx : skipSpacesGo ((ch :: u') ++ P) l c = skipSpacesGo (u' ++ P) l (c + 1) := by
            simp only [List.cons_append, skipSpacesGo]
            rw [if_pos hch]
            rfl
          rw [hx, heq P l (c + 1)]
          have harith : c + 1 + u'.length = c + (ch :: u').length := by
            simp only [List.length_cons]
            omega
          rw [harith]
    · left
      refine ⟨[], ch :: u', rfl, by simp, ?_, ?_⟩
      · intro x hx
        simp only [List.head?] at hx
        cases hx
        exact hch
      · intro P l c
        simp only [List.cons_append, skipSpacesGo]
        rw [if_neg hch]
        simp

/-- Total characterization of the alphabetic read on an appended input. -/
theorem readAlphaChars_total (u : List Char) :
    (∃ w u2, u = w ++ u2 ∧ u2 ≠ [] ∧
      (∀ ch, u2.head? = some ch → ch.isAlpha = false) ∧
      ∀ P : List Char, readAlphaChars (u ++ P) = (w, u2 ++ P)) ∨
    ((∀ ch ∈ u, ch.isAlpha = true) ∧
      ∀ P : List Char,
        readAlphaChars (u ++ P) = (u ++ (readAlphaChars P).1, (readAlphaChars P).2)) := by
  induction u with
  | nil =>
    right
    refine ⟨by simp, ?_⟩
    intro P
    simp
  | cons ch u' ih =>
    by_cases hch : ch.isAlpha = true
    · rcases ih with ⟨w, u2, hsplit, hne, hstop, heq⟩ | ⟨hall, heq⟩
      · left
        refine ⟨ch :: w, u2, by rw [hsplit]; rfl, hne, hstop, ?_⟩
        intro P
        have hx : readAlphaChars ((ch :: u') ++ P) =
            (ch :: (readAlphaChars (u' ++ P)).1, (readAlphaChars (u' ++ P)).2) := by
          simp [readAlphaChars, hch]
        rw [hx, heq P]
      · right
        refine ⟨?_, ?_⟩
        · intro x hx
          rcases List.mem_cons.mp hx with h | h
          · rw [h]; exact hch
          · exact hall x h
        · intro P
          have hx : readAlphaChars ((ch :: u') ++ P) =
              (ch :: (readAlphaChars (u' ++ P)).1, (readAlphaChars (u' ++ P)).2) := by
            simp [readAlphaChars, hch]
          rw [hx, heq P]
          simp
    · left
      refine ⟨[], ch :: u', rfl, by simp, ?_, ?_⟩
      · intro x hx
        simp only [List.head?] at hx
        cases hx
        simpa using hch
      · intro P
        simp only [List.cons_append, readAlphaChars]
        rw [if_neg hch]
        rfl

/-- Total characterization of the alphanumeric read on an appended input. -/
theorem readAlnumChars_total (u : List Char) :
    (∃ w u2, u = w ++ u2 ∧ u2 ≠ [] ∧
      (∀ ch, u2.head? = some ch → ch.isAlphanum = false) ∧
      ∀ P : List Char, readAlnumChars (u ++ P) = (w, u2 ++ P)) ∨
    ((∀ ch ∈ u, ch.isAlphanum = true) ∧
      ∀ P : List Char,
        readAlnumChars (u ++ P) = (u ++ (readAlnumChars P).1, (readAlnumChars P).2)) := by
  induction u with
  | nil =>
    right
    refine ⟨by simp, ?_⟩
    intro P
    simp
  | cons ch u' ih =>
    by_cases hch : ch.isAlphanum = true
    · rcases ih with ⟨w, u2, hsplit, hne, hstop, heq⟩ | ⟨hall, heq⟩
      · left
        refine ⟨ch :: w, u2, by rw [hsplit]; rfl, hne, hstop, ?_⟩
        intro P
        have hx : readAlnumChars ((ch :: u') ++ P) =
            (ch :: (readAlnumChars (u' ++ P)).1, (readAlnumChars (u' ++ P)).2) := by
          simp [readAlnumChars, hch]
        rw [hx, heq P]
      · right
        refine ⟨?_, ?_⟩
        · intro x hx
          rcases List.mem_cons.mp hx with h | h
          · rw [h]; exact hch
          · exact hall x h
        · intro P
          have hx : readAlnumChars ((ch :: u') ++ P) =
              (ch :: (readAlnumChars (u' ++ P)).1, (readAlnumChars (u' ++ P)).2) := by
            simp [readAlnumChars, hch]
          rw [hx, heq P]
          simp
    · left
      refine ⟨[], ch :: u', rfl, by simp, ?_, ?_⟩
      · intro x hx
        simp only [List.head?] at hx
        cases hx
        simpa using hch
      · intro P
        simp only [List.cons_append, readAlnumChars]
        rw [if_neg hch]
        rfl

/-- Total characterization of the text read on an appended input. -/
theorem readTextChars_total (u : List Char) :
    (∃ w u2, u = w ++ u2 ∧ u2 ≠ [] ∧
      (∀ ch, u2.head? = some ch → ch = '\n' ∨ ch = '#') ∧
      ∀ P : List Char, readTextChars (u ++ P) = (w, u2 ++ P)) ∨
    ((∀ ch ∈ u, ¬(ch = '\n' ∨ ch = '#')) ∧
      ∀ P : List Char,
        readTextChars (u ++ P) = (u ++ (readTextChars P).1, (readTextChars P).2)) := by
  induction u with
  | nil =>
    right
    refine ⟨by simp, ?_⟩
    intro P
    simp
  | cons ch u' ih =>
    by_cases hch : ch = '\n' ∨ ch = '#'
    · left
      refine ⟨[], ch :: u', rfl, by simp, ?_, ?_⟩
      · intro x hx
        simp only [List.head?] at hx
        cases hx
        exact hch
      · intro P
        simp only [List.cons_append, readTextChars]
        rw [if_pos hch]
        rfl
    · rcases ih with ⟨w, u2, hsplit, hne, hstop, heq⟩ | ⟨hall, heq⟩
      · left
        refine ⟨ch :: w, u2, by rw [hsplit]; rfl, hne, hstop, ?_⟩
        intro P
        have hx : readTextChars ((ch :: u') ++ P) =
            (ch :: (readTextChars (u' ++ P)).1, (readTextChars (u' ++ P)).2) := by
          simp only [List.cons_append, readTextChars]
          rw [if_neg hch]
          rfl
        rw [hx, heq P]
      · right
        refine ⟨?_, ?_⟩
        · intro x hx
          rcases List.mem_cons.mp hx with h | h
          · rw [h]; exact hch
          · exact hall x h
        · intro P
          have hx : readTextChars ((ch :: u') ++ P) =
              (ch :: (readTextChars (u' ++ P)).1, (readTextChars (u' ++ P)).2) := by
            simp only [List.cons_append, readTextChars]
            rw [if_neg hch]
            rfl
          rw [hx, heq P]
          simp

/-- Skipping an all-space prefix reduces to skipping from past it. -/
theorem skipSpacesGo_allspace (ws : List Char) (hws : ∀ ch ∈ ws, ch = ' ' ∨ ch = '\t') :
    ∀ (P : List Char) (l c : Nat),
      skipSpacesGo (ws ++ P) l c = skipSpacesGo P l (c + ws.length) := by
  induction ws with
  | nil => intro P l c; simp
  | cons ch w' ih =>
    intro P l c
    have hch : ch = ' ' ∨ ch = '\t' := hws ch (List.mem_cons_self ch w')
    have hx : skipSpacesGo ((ch :: w') ++ P) l c = skipSpacesGo (w' ++ P) l (c + 1) := by
      simp only [List.cons_append, skipSpacesGo]
      rw [if_pos hch]
      rfl
    rw [hx, ih (fun x hx2 => hws x (List.mem_cons_of_mem ch hx2)) P l (c + 1)]
    have harith : c + 1 + w'.length = c + (ch :: w').length := by
      simp only [List.length_cons]
      omega
    rw [harith]

/-- Space-skipping is idempotent. -/
theorem skipSpacesGo_idem (li : List Char) : ∀ l c li2 l2 c2,
    skipSpacesGo li l c = ⟨li2, l2, c2⟩ → skipSpacesGo li2 l2 c2 = ⟨li2, l2, c2⟩ := by
  induction li with
  | nil =>
    intro l c li2 l2 c2 h
    simp only [skipSpacesGo] at h
    cases h
    rfl
  | cons ch rest ih =>
    intro l c li2 l2 c2 h
    simp only [skipSpacesGo] at h
    by_cases hch : ch = ' ' ∨ ch = '\t'
    · rw [if_pos hch] at h
      exact ih _ _ _ _ _ h
    · rw [if_neg hch] at h
      cases h
      simp only [skipSpacesGo]
      rw [if_neg hch]

/-- `get_next_token` is insensitive to skipping leading spaces first. -/
theorem getNextToken_skipInv (fuel : Nat) (st : LexSt) :
    getNextToken (fuel + 1) st = getNextToken (fuel + 1) (skipSpaces st) := by
  have hsk : skipSpaces (skipSpaces st) = skipSpaces st := by
    obtain ⟨li, l, c⟩ := st
    show skipSpaces (skipSpacesGo li l c) = skipSpacesGo li l c
    cases hS : skipSpacesGo li l c with
    | mk a b d =>
      show skipSpacesGo a b d = ⟨a, b, d⟩
      exact skipSpacesGo_idem li l c a b d hS
  conv_lhs => rw [getNextToken]
  conv_rhs => rw [getNextToken]
  rw [hsk]



/-! ## Fuel insensitivity: above the input length, fuel does not matter -/

/-- Comment skipping is insensitive to extra fuel. -/
theorem skipMultilineComment_mono (fuel : Nat) : ∀ st : LexSt,
    st.input.length < fuel →
    skipMultilineComment (fuel + 1) st = skipMultilineComment fuel st := by
  induction fuel with
  | zero => intro st h; omega
  | succ fuel ih =>
    intro st h
    conv_lhs => rw [skipMultilineComment]
    conv_rhs => rw [skipMultilineComment]
    cases hin : st.input with
    | nil => rfl
    | cons ch rest =>
      have hb : (bump st).input = rest := bump_input st ch rest hin
      have hsplit := readAlphaChars_split (bump st).input
      simp only []
      by_cases hch : ch = '#'
      · rw [if_pos hch, if_pos hch]
        by_cases htl : String.mk (listUpper (readAlphaChars (bump st).input).1) = "TLDR"
        · rw [if_pos htl, if_pos htl]
        · rw [if_neg htl, if_neg htl]
          apply ih
          have h2 := suffixOf_length hsplit.1
          have h3 : (bump st).input.length = rest.length := by rw [hb]
          rw [hin] at h
          simp only [List.length_cons] at h
          simp only
          omega
      · rw [if_neg hch, if_neg hch]
        apply ih
        rw [hb]
        rw [hin] at h
        simp only [List.length_cons] at h
        omega

/-- `read_hash_word` is insensitive to extra fuel (the fuel only feeds the
comment skipper, whose input is past the consumed `#`). -/
theorem readHashWord_mono (fuel : Nat) (st : LexSt) (sl sc : Nat) (rest : List Char)
    (hin : st.input = '#' :: rest) (h : rest.length < fuel) :
    readHashWord (fuel + 1) st sl sc = readHashWord fuel st sl sc := by
  have hb : (bump st).input = rest := bump_input st '#' rest hin
  have hp := readAlphaChars_split (bump st).input
  rw [hb] at hp
  simp only [readHashWord, hb]
  cases hP : readAlphaChars rest with
  | mk w r2 =>
    rw [hP] at hp
    dsimp only at hp ⊢
    have hr2 : SuffixOf r2 rest := hp.1
    by_cases h1 : String.mk (listUpper w) = "I" ∧ r2.head? = some ' '
    · rw [if_pos h1]
      by_cases hHAZ : String.mk (listUpper (readAlphaChars (bump
          ⟨r2, (bump st).line, (bump st).col + w.length⟩).input).1) = "HAZ"
      · rw [if_pos hHAZ]
        dsimp only
        rw [if_neg (by decide : ¬(lookup "I HAZ" = false)),
          if_neg (by decide : ¬(lookup "I HAZ" = false)),
          if_neg (by decide : ¬("I HAZ" = "OBTW")),
          if_neg (by decide : ¬("I HAZ" = "OBTW"))]
      · rw [if_neg hHAZ]
        dsimp only
        rw [if_pos (by rw [h1.1]; decide : lookup (String.mk (listUpper w)) = false),
          if_pos (by rw [h1.1]; decide : lookup (String.mk (listUpper w)) = false)]
    · rw [if_neg h1]
      by_cases h2 : String.mk (listUpper w) = "IT" ∧ r2.head? = some ' '
      · rw [if_pos h2]
        by_cases hIZ : String.mk (listUpper (readAlphaChars (bump
            ⟨r2, (bump st).line, (bump st).col + w.length⟩).input).1) = "IZ"
        · rw [if_pos hIZ]
          dsimp only
          rw [if_neg (by decide : ¬(lookup "IT IZ" = false)),
            if_neg (by decide : ¬(lookup "IT IZ" = false)),
            if_neg (by decide : ¬("IT IZ" = "OBTW")),
            if_neg (by decide : ¬("IT IZ" = "OBTW"))]
        · rw [if_neg hIZ]
          dsimp only
          rw [if_pos (by rw [h2.1]; decide : lookup (String.mk (listUpper w)) = false),
            if_pos (by rw [h2.1]; decide : lookup (String.mk (listUpper w)) = false)]
      · rw [if_neg h2]
        by_cases h3 : String.mk (listUpper w) = "LEMME" ∧ r2.head? = some ' '
        · rw [if_pos h3]
          by_cases hSEE : String.mk (listUpper (readAlphaChars (bump
              ⟨r2, (bump st).line, (bump st).col + w.length⟩).input).1) = "SEE"
          · rw [if_pos hSEE]
            dsimp only
            rw [if_neg (by decide : ¬(lookup "LEMME SEE" = false)),
              if_neg (by decide : ¬(lookup "LEMME SEE" = false)),
              if_neg (by decide : ¬("LEMME SEE" = "OBTW")),
              if_neg (by decide : ¬("LEMME SEE" = "OBTW"))]
          · rw [if_neg hSEE]
            dsimp only
            rw [if_pos (by rw [h3.1]; decide : lookup (String.mk (listUpper w)) = false),
              if_pos (by rw [h3.1]; decide : lookup (String.mk (listUpper w)) = false)]
        · rw [if_neg h3]
          dsimp only
          by_cases hlook : lookup (String.mk (listUpper w)) = false
          · rw [if_pos hlook, if_pos hlook]
          · rw [if_neg hlook, if_neg hlook]
            by_cases hobtw : String.mk (listUpper w) = "OBTW"
            · rw [if_pos hobtw, if_pos hobtw]
              have hlen : (⟨r2, (bump st).line, (bump st).col + w.length⟩ :
                  LexSt).input.length < fuel := by
                dsimp only
                have := suffixOf_length hr2
                omega
              rw [skipMultilineComment_mono fuel _ hlen]
            · rw [if_neg hobtw, if_neg hobtw]

/-- A single `get_next_token` call is insensitive to extra fuel. -/
theorem getNextToken_mono (fuel : Nat) : ∀ st : LexSt,
    st.input.length < fuel →
    getNextToken (fuel + 1) st = getNextToken fuel st := by
  induction fuel with
  | zero => intro st h; omega
  | succ fuel ih =>
    intro st h
    conv_lhs => rw [getNextToken]
    conv_rhs => rw [getNextToken]
    have hsuf0 : SuffixOf (skipSpaces st).input st.input := skipSpaces_suffix st
    generalize hsp : skipSpaces st = stx at hsuf0 ⊢
    obtain ⟨li, l, c⟩ := stx
    dsimp only at hsuf0 ⊢
    cases li with
    | nil => rfl
    | cons ch tail =>
      have hlen0 := suffixOf_length hsuf0
      simp only [List.length_cons] at hlen0
      simp only []
      by_cases hnl : ch = '\n'
      · rw [if_pos hnl, if_pos hnl]
      · rw [if_neg hnl, if_neg hnl]
        by_cases hhash : ch = '#'
        · rw [if_pos hhash, if_pos hhash]
          have hrw : readHashWord (fuel + 1 + 1) ⟨ch :: tail, l, c⟩ l c =
              readHashWord (fuel + 1) ⟨ch :: tail, l, c⟩ l c :=
            readHashWord_mono (fuel + 1) ⟨ch :: tail, l, c⟩ l c tail
              (by rw [hhash]) (by omega)
          rw [hrw]
          have hcases := readHashWord_cases (fuel + 1) ⟨ch :: tail, l, c⟩ l c tail
            (by rw [hhash])
          cases hrh : readHashWord (fuel + 1) ⟨ch :: tail, l, c⟩ l c with
          | tok t1 st1 => rfl
          | comment st1 =>
            have hsuf1 := hcases.2.1 st1 hrh
            have hlen1 := suffixOf_length hsuf1
            exact ih st1 (by omega)
          | err e => rfl
          | out => rfl
        · rw [if_neg hhash, if_neg hhash]
          by_cases halpha : ch.isAlpha = true
          · rw [if_pos halpha, if_pos halpha]
          · rw [if_neg halpha, if_neg halpha]
            simp only [readTextLine]
            have hpos : (readTextChars (ch :: tail)).2.length < (ch :: tail).length :=
              readTextChars_pos ch tail (by push_neg; exact ⟨hnl, hhash⟩)
            simp only [List.length_cons] at hpos
            by_cases htr : trimChars (readTextChars (ch :: tail)).1 = []
            · rw [if_pos htr]
              exact ih _ (by dsimp only; omega)
            · rw [if_neg htr]

/-- Any sufficient fuel computes the canonical single-token result. -/
theorem getNextToken_ge (fuel : Nat) : ∀ st : LexSt, st.input.length < fuel →
    getNextToken fuel st = nextTok st := by
  induction fuel with
  | zero => intro st h; omega
  | succ fuel ih =>
    intro st h
    rcases Nat.lt_or_ge st.input.length fuel with hf | hf
    · rw [getNextToken_mono fuel st hf, ih st hf]
    · have hfe : fuel = st.input.length := by omega
      subst hfe
      rfl

/-- The collection loop is insensitive to extra fuel. -/
theorem lexTokens_mono (fuel : Nat) : ∀ st : LexSt, st.input.length < fuel →
    lexTokens (fuel + 1) st = lexTokens fuel st := by
  induction fuel with
  | zero => intro st h; omega
  | succ fuel ih =>
    intro st h
    conv_lhs => rw [lexTokens]
    conv_rhs => rw [lexTokens]
    cases hn : nextTok st with
    | ok p =>
      obtain ⟨t, st'⟩ := p
      simp only []
      by_cases he : t.kind = .eof
      · rw [if_pos he, if_pos he]
      · rw [if_neg he, if_neg he]
        have hprog := getNextToken_progress (st.input.length + 1) st t st' hn
        have hlt := hprog.2 he
        rw [ih st' (by omega)]
    | err e => rfl
    | out => rfl

/-- Any sufficient fuel computes the canonical token-collection result. -/
theorem lexTokens_ge (fuel : Nat) : ∀ st : LexSt, st.input.length < fuel →
    lexTokens fuel st = lexTokens (st.input.length + 1) st := by
  induction fuel with
  | zero => intro st h; omega
  | succ fuel ih =>
    intro st h
    rcases Nat.lt_or_ge st.input.length fuel with hf | hf
    · rw [lexTokens_mono fuel st hf, ih st hf]
    · have hfe : fuel = st.input.length := by omega
      subst hfe
      rfl


/-! ## Position irrelevance: token kinds depend only on the input

The line/column carried by a lexer state only flows into the recorded
token positions and error positions, never into control flow; the token
kinds, error messages, and remaining inputs are functions of the input
characters alone. -/

/-- The input left by `bump`, independently of positions. -/
theorem bump_inp (li : List Char) (l c : Nat) : (bump ⟨li, l, c⟩).input = li.tail := by
  cases li with
  | nil => rfl
  | cons ch rest => by_cases hnl : ch = '\n' <;> simp [bump, hnl]

/-- Space skipping leaves the same input from any start position. -/
theorem skipSpacesGo_posIrrel (li : List Char) : ∀ l1 c1 l2 c2 : Nat,
    (skipSpacesGo li l1 c1).input = (skipSpacesGo li l2 c2).input := by
  induction li with
  | nil => intro l1 c1 l2 c2; rfl
  | cons ch rest ih =>
    intro l1 c1 l2 c2
    simp only [skipSpacesGo]
    by_cases hch : ch = ' ' ∨ ch = '\t'
    · rw [if_pos hch, if_pos hch]
      exact ih _ _ _ _
    · rw [if_neg hch, if_neg hch]

/-- `read_word` produces the same token kind and remaining input from any
start position. -/
theorem readWord_posIrrel (li : List Char) (l1 c1 sl1 sc1 l2 c2 sl2 sc2 : Nat) :
    (readWord ⟨li, l1, c1⟩ sl1 sc1).1.kind = (readWord ⟨li, l2, c2⟩ sl2 sc2).1.kind ∧
    (readWord ⟨li, l1, c1⟩ sl1 sc1).2.input = (readWord ⟨li, l2, c2⟩ sl2 sc2).2.input := by
  simp only [readWord]
  by_cases hlk : lookup (String.mk (listUpper (readAlnumChars li).1)) = true
  · rw [if_pos hlk, if_pos hlk]
    exact ⟨rfl, rfl⟩
  · rw [if_neg hlk, if_neg hlk]
    exact ⟨rfl, rfl⟩

/-- Comment skipping from the same input is position-independent up to
positions. -/
theorem skipComment_posIrrel (fuel : Nat) : ∀ (li : List Char) (l1 c1 l2 c2 : Nat),
    skipSim (skipMultilineComment fuel ⟨li, l1, c1⟩)
      (skipMultilineComment fuel ⟨li, l2, c2⟩) := by
  induction fuel with
  | zero => intro li l1 c1 l2 c2; exact trivial
  | succ fuel ih =>
    intro li l1 c1 l2 c2
    simp only [skipMultilineComment]
    cases li with
    | nil => exact rfl
    | cons ch rest =>
      simp only []
      by_cases hch : ch = '#'
      · rw [if_pos hch, if_pos hch]
        rw [bump_inp (ch :: rest) l1 c1, bump_inp (ch :: rest) l2 c2]
        by_cases htl : String.mk (listUpper (readAlphaChars (ch :: rest).tail).1) = "TLDR"
        · rw [if_pos htl, if_pos htl]
          exact rfl
        · rw [if_neg htl, if_neg htl]
          exact ih _ _ _ _ _
      · rw [if_neg hch, if_neg hch]
        rw [bump_cons ch rest l1 c1, bump_cons ch rest l2 c2]
        exact ih _ _ _ _ _

/-- `read_hash_word` from the same input is position-independent up to
positions: same token kind or error message, same remaining input. -/
theorem readHashWord_posIrrel (fuel : Nat) (li : List Char)
    (l1 c1 sl1 sc1 l2 c2 sl2 sc2 : Nat) :
    hashSim (readHashWord fuel ⟨li, l1, c1⟩ sl1 sc1)
      (readHashWord fuel ⟨li, l2, c2⟩ sl2 sc2) := by
  simp only [readHashWord]
  rw [bump_inp li l1 c1, bump_inp li l2 c2]
  generalize (bump (⟨li, l1, c1⟩ : LexSt)).line = A1
  generalize (bump (⟨li, l1, c1⟩ : LexSt)).col = B1
  generalize (bump (⟨li, l2, c2⟩ : LexSt)).line = A2
  generalize (bump (⟨li, l2, c2⟩ : LexSt)).col = B2
  cases hP : readAlphaChars li.tail with
  | mk w r2 =>
    dsimp only
    by_cases h1 : String.mk (listUpper w) = "I" ∧ r2.head? = some ' '
    · rw [if_pos h1, if_pos h1]
      rw [bump_inp r2 A1 (B1 + w.length), bump_inp r2 A2 (B2 + w.length)]
      by_cases hHAZ : String.mk (listUpper (readAlphaChars r2.tail).1) = "HAZ"
      · rw [if_pos hHAZ, if_pos hHAZ]
        dsimp only
        rw [if_neg (by decide : ¬(lookup "I HAZ" = false)),
          if_neg (by decide : ¬(lookup "I HAZ" = false)),
          if_neg (by decide : ¬("I HAZ" = "OBTW")),
          if_neg (by decide : ¬("I HAZ" = "OBTW"))]
        exact ⟨rfl, rfl⟩
      · rw [if_neg hHAZ, if_neg hHAZ]
        dsimp only
        rw [if_pos (by rw [h1.1]; decide : lookup (String.mk (listUpper w)) = false),
          if_pos (by rw [h1.1]; decide : lookup (String.mk (listUpper w)) = false)]
        exact rfl
    · rw [if_neg h1, if_neg h1]
      by_cases h2 : String.mk (listUpper w) = "IT" ∧ r2.head? = some ' '
      · rw [if_pos h2, if_pos h2]
        rw [bump_inp r2 A1 (B1 + w.length), bump_inp r2 A2 (B2 + w.length)]
        by_cases hIZ : String.mk (listUpper (readAlphaChars r2.tail).1) = "IZ"
        · rw [if_pos hIZ, if_pos hIZ]
          dsimp only
          rw [if_neg (by decide : ¬(lookup "IT IZ" = false)),
            if_neg (by decide : ¬(lookup "IT IZ" = false)),
            if_neg (by decide : ¬("IT IZ" = "OBTW")),
            if_neg (by decide : ¬("IT IZ" = "OBTW"))]
          exact ⟨rfl, rfl⟩
        · rw [if_neg hIZ, if_neg hIZ]
          dsimp only
          rw [if_pos (by rw [h2.1]; decide : lookup (String.mk (listUpper w)) = false),
            if_pos (by rw [h2.1]; decide : lookup (String.mk (listUpper w)) = false)]
          exact rfl
      · rw [if_neg h2, if_neg h2]
        by_cases h3 : String.mk (listUpper w) = "LEMME" ∧ r2.head? = some ' '
        · rw [if_pos h3, if_pos h3]
          rw [bump_inp r2 A1 (B1 + w.length), bump_inp r2 A2 (B2 + w.length)]
          by_cases hSEE : String.mk (listUpper (readAlphaChars r2.tail).1) = "SEE"
          · rw [if_pos hSEE, if_pos hSEE]
            dsimp only
            rw [if_neg (by decide : ¬(lookup "LEMME SEE" = false)),
              if_neg (by decide : ¬(lookup "LEMME SEE" = false)),
              if_neg (by decide : ¬("LEMME SEE" = "OBTW")),
              if_neg (by decide : ¬("LEMME SEE" = "OBTW"))]
            exact ⟨rfl, rfl⟩
          · rw [if_neg hSEE, if_neg hSEE]
            dsimp only
            rw [if_pos (by rw [h3.1]; decide : lookup (String.mk (listUpper w)) = false),
              if_pos (by rw [h3.1]; decide : lookup (String.mk (listUpper w)) = false)]
            exact rfl
        · rw [if_neg h3, if_neg h3]
          dsimp only
          by_cases hlook : lookup (String.mk (listUpper w)) = false
          · rw [if_pos hlook, if_pos hlook]
            exact rfl
          · rw [if_neg hlook, if_neg hlook]
            by_cases hobtw : String.mk (listUpper w) = "OBTW"
            · rw [if_pos hobtw, if_pos hobtw]
              have hsk := skipComment_posIrrel fuel r2 A1 (B1 + w.length) A2 (B2 + w.length)
              cases hk1 : skipMultilineComment fuel ⟨r2, A1, B1 + w.length⟩ with
              | ok s1 =>
                cases hk2 : skipMultilineComment fuel ⟨r2, A2, B2 + w.length⟩ with
                | ok s2 => rw [hk1, hk2] at hsk; exact hsk
                | err e2 => rw [hk1, hk2] at hsk; exact hsk.elim
                | out => rw [hk1, hk2] at hsk; exact hsk.elim
              | err e1 =>
                cases hk2 : skipMultilineComment fuel ⟨r2, A2, B2 + w.length⟩ with
                | ok s2 => rw [hk1, hk2] at hsk; exact hsk.elim
                | err e2 => rw [hk1, hk2] at hsk; exact hsk
                | out => rw [hk1, hk2] at hsk; exact hsk.elim
              | out =>
                cases hk2 : skipMultilineComment fuel ⟨r2, A2, B2 + w.length⟩ with
                | ok s2 => rw [hk1, hk2] at hsk; exact hsk.elim
                | err e2 => rw [hk1, hk2] at hsk; exact hsk.elim
                | out => exact trivial
            · rw [if_neg hobtw, if_neg hobtw]
              exact ⟨rfl, rfl⟩

/-- A single `get_next_token` call from the same input is
position-independent up to positions. -/
theorem getNextToken_posIrrel (fuel : Nat) : ∀ (li : List Char) (l1 c1 l2 c2 : Nat),
    nextSim (getNextToken fuel ⟨li, l1, c1⟩) (getNextToken fuel ⟨li, l2, c2⟩) := by
  induction fuel with
  | zero => intro li l1 c1 l2 c2; exact trivial
  | succ fuel ih =>
    intro li l1 c1 l2 c2
    simp only [getNextToken, skipSpaces]
    have hinp : (skipSpacesGo li l1 c1).input = (skipSpacesGo li l2 c2).input :=
      skipSpacesGo_posIrrel li l1 c1 l2 c2
    cases hS1 : skipSpacesGo li l1 c1 with
    | mk a1 b1 d1 =>
      cases hS2 : skipSpacesGo li l2 c2 with
      | mk a2 b2 d2 =>
        rw [hS1, hS2] at hinp
        dsimp only at hinp
        subst hinp
        dsimp only
        cases a1 with
        | nil => exact ⟨rfl, rfl⟩
        | cons ch tail =>
          simp only []
          by_cases hnl : ch = '\n'
          · rw [if_pos hnl, if_pos hnl]
            refine ⟨rfl, ?_⟩
            rw [bump_inp (ch :: tail) b1 d1, bump_inp (ch :: tail) b2 d2]
          · rw [if_neg hnl, if_neg hnl]
            by_cases hhash : ch = '#'
            · rw [if_pos hhash, if_pos hhash]
              have hsim := readHashWord_posIrrel (fuel + 1) (ch :: tail) b1 d1 b1 d1 b2 d2 b2 d2
              cases hH1 : readHashWord (fuel + 1) ⟨ch :: tail, b1, d1⟩ b1 d1 with
              | tok t1 s1 =>
                cases hH2 : readHashWord (fuel + 1) ⟨ch :: tail, b2, d2⟩ b2 d2 with
                | tok t2 s2 => rw [hH1, hH2] at hsim; exact hsim
                | comment s2 => rw [hH1, hH2] at hsim; exact hsim.elim
                | err e2 => rw [hH1, hH2] at hsim; exact hsim.elim
                | out => rw [hH1, hH2] at hsim; exact hsim.elim
              | comment s1 =>
                cases hH2 : readHashWord (fuel + 1) ⟨ch :: tail, b2, d2⟩ b2 d2 with
                | tok t2 s2 => rw [hH1, hH2] at hsim; exact hsim.elim
                | comment s2 =>
                  rw [hH1, hH2] at hsim
                  obtain ⟨x1, y1, z1⟩ := s1
                  obtain ⟨x2, y2, z2⟩ := s2
                  have hx : x1 = x2 := hsim
                  subst hx
                  exact ih x1 y1 z1 y2 z2
                | err e2 => rw [hH1, hH2] at hsim; exact hsim.elim
                | out => rw [hH1, hH2] at hsim; exact hsim.elim
              | err e1 =>
                cases hH2 : readHashWord (fuel + 1) ⟨ch :: tail, b2, d2⟩ b2 d2 with
                | tok t2 s2 => rw [hH1, hH2] at hsim; exact hsim.elim
                | comment s2 => rw [hH1, hH2] at hsim; exact hsim.elim
                | err e2 => rw [hH1, hH2] at hsim; exact hsim
                | out => rw [hH1, hH2] at hsim; exact hsim.elim
              | out =>
                cases hH2 : readHashWord (fuel + 1) ⟨ch :: tail, b2, d2⟩ b2 d2 with
                | tok t2 s2 => rw [hH1, hH2] at hsim; exact hsim.elim
                | comment s2 => rw [hH1, hH2] at hsim; exact hsim.elim
                | err e2 => rw [hH1, hH2] at hsim; exact hsim.elim
                | out => exact trivial
            · rw [if_neg hhash, if_neg hhash]
              by_cases halpha : ch.isAlpha = true
              · rw [if_pos halpha, if_pos halpha]
                have hrw := readWord_posIrrel (ch :: tail) b1 d1 b1 d1 b2 d2 b2 d2
                exact ⟨hrw.1, hrw.2⟩
              · rw [if_neg halpha, if_neg halpha]
                simp only [readTextLine]
                by_cases htr : trimChars (readTextChars (ch :: tail)).1 = []
                · rw [if_pos htr, if_pos htr]
                  exact ih _ _ _ _ _
                · rw [if_neg htr, if_neg htr]
                  exact ⟨rfl, rfl⟩

/-- One canonical-fuel token step from the same input is
position-independent up to positions. -/
theorem nextTok_posIrrel (li : List Char) (l1 c1 l2 c2 : Nat) :
    nextSim (nextTok ⟨li, l1, c1⟩) (nextTok ⟨li, l2, c2⟩) :=
  getNextToken_posIrrel (li.length + 1) li l1 c1 l2 c2

/-- The canonical token step never exhausts its fuel. -/
theorem nextTok_not_out (st : LexSt) : nextTok st ≠ .out :=
  getNextToken_suff (st.input.length + 1) st (by omega)


/-! ## The position-erased token stream, step by step -/

/-- `lexKinds` on a fatal first token. -/
theorem lexKinds_err (st : LexSt) (e : LexError) (h : nextTok st = .err e) :
    lexKinds st = .err e.msg := by
  unfold lexKinds
  conv_lhs => rw [lexTokens]
  rw [h]
  rfl

/-- `lexKinds` on an immediate `Eof`. -/
theorem lexKinds_eof (st : LexSt) (t : Token) (st' : LexSt)
    (h : nextTok st = .ok (t, st')) (he : t.kind = .eof) :
    lexKinds st = .ok [.eof] := by
  unfold lexKinds
  conv_lhs => rw [lexTokens]
  rw [h]
  simp only []
  rw [if_pos he]
  simp [kindsOf, he]

/-- `lexKinds` on a successful non-`Eof` first token: the head kind is
prepended to the stream from the successor state. -/
theorem lexKinds_cons (st : LexSt) (t : Token) (st' : LexSt)
    (h : nextTok st = .ok (t, st')) (he : t.kind ≠ .eof) :
    lexKinds st = consK t.kind (lexKinds st') := by
  unfold lexKinds
  conv_lhs => rw [lexTokens]
  rw [h]
  simp only []
  rw [if_neg he]
  have hlt : st'.input.length < st.input.length :=
    (getNextToken_progress (st.input.length + 1) st t st' h).2 he
  rw [lexTokens_ge st.input.length st' hlt]
  cases hl : lexTokens (st'.input.length + 1) st' with
  | ok ts => rfl
  | err e => rfl
  | out => rfl

/-- The position-erased token stream depends only on the input characters,
not on the start position. -/
theorem lexKinds_posIrrel (n : Nat) : ∀ (li : List Char) (l1 c1 l2 c2 : Nat),
    li.length ≤ n → lexKinds ⟨li, l1, c1⟩ = lexKinds ⟨li, l2, c2⟩ := by
  induction n with
  | zero =>
    intro li l1 c1 l2 c2 h
    have hnil : li = [] := List.length_eq_zero.mp (Nat.le_zero.mp h)
    subst hnil
    rfl
  | succ n ihn =>
    intro li l1 c1 l2 c2 h
    have hsim := nextTok_posIrrel li l1 c1 l2 c2
    cases h1 : nextTok ⟨li, l1, c1⟩ with
    | ok p1 =>
      obtain ⟨t1, s1⟩ := p1
      cases h2 : nextTok ⟨li, l2, c2⟩ with
      | ok p2 =>
        obtain ⟨t2, s2⟩ := p2
        rw [h1, h2] at hsim
        obtain ⟨hk, hi⟩ := hsim
        by_cases he : t1.kind = .eof
        · rw [lexKinds_eof _ _ _ h1 he, lexKinds_eof _ _ _ h2 (by rw [← hk]; exact he)]
        · have he2 : t2.kind ≠ .eof := by rw [← hk]; exact he
          rw [lexKinds_cons _ _ _ h1 he, lexKinds_cons _ _ _ h2 he2, hk]
          have hprog := (getNextToken_progress (li.length + 1) ⟨li, l1, c1⟩ t1 s1 h1).2 he
          obtain ⟨x1, y1, z1⟩ := s1
          obtain ⟨x2, y2, z2⟩ := s2
          have hx : x1 = x2 := hi
          subst hx
          have hlen : x1.length ≤ n := by
            dsimp only at hprog
            omega
          rw [ihn x1 y1 z1 y2 z2 hlen]
      | err e2 => rw [h1, h2] at hsim; exact hsim.elim
      | out => exact absurd h2 (nextTok_not_out _)
    | err e1 =>
      cases h2 : nextTok ⟨li, l2, c2⟩ with
      | ok p2 =>
        obtain ⟨t2, s2⟩ := p2
        rw [h1, h2] at hsim
        exact hsim.elim
      | err e2 =>
        rw [h1, h2] at hsim
        rw [lexKinds_err _ _ h1, lexKinds_err _ _ h2, hsim]
      | out => exact absurd h2 (nextTok_not_out _)
    | out => exact absurd h1 (nextTok_not_out _)


/-! ## A well-formed comment block is skipped in one hash-word step -/

/-- `skip_multiline_comment` scans through a `#`-free body `mid` and stops
at the closing `#TLDR` when the following character is not alphabetic,
leaving exactly `post`. -/
theorem skipComment_through (mid : List Char) : ∀ (post : List Char) (l c fuel : Nat),
    (∀ ch ∈ mid, ch ≠ '#') →
    (∀ ch, post.head? = some ch → ch.isAlpha = false) →
    (mid ++ '#' :: 'T' :: 'L' :: 'D' :: 'R' :: post).length < fuel →
    ∃ l2 c2,
      skipMultilineComment fuel ⟨mid ++ '#' :: 'T' :: 'L' :: 'D' :: 'R' :: post, l, c⟩ =
        .ok ⟨post, l2, c2⟩ := by
  induction mid with
  | nil =>
    intro post l c fuel hmid hpost hfuel
    cases fuel with
    | zero => omega
    | succ fuel =>
      have hra : readAlphaChars ('T' :: 'L' :: 'D' :: 'R' :: post) =
          (['T', 'L', 'D', 'R'], post) := by
        have hx := readAlphaChars_exact ['T', 'L', 'D', 'R'] post (by decide) hpost
        simpa using hx
      refine ⟨l, c + 1 + (['T', 'L', 'D', 'R'] : List Char).length, ?_⟩
      rw [skipMultilineComment]
      simp only [List.nil_append, if_true]
      have hb : bump ⟨'#' :: 'T' :: 'L' :: 'D' :: 'R' :: post, l, c⟩ =
          ⟨'T' :: 'L' :: 'D' :: 'R' :: post, l, c + 1⟩ := by
        rw [bump_cons]
        rw [if_neg (by decide : ¬('#' : Char) = '\n'),
          if_neg (by decide : ¬('#' : Char) = '\n')]
      rw [hb]
      dsimp only
      rw [hra]
      dsimp only
      rw [if_pos (by decide : String.mk (listUpper ['T', 'L', 'D', 'R']) = "TLDR")]
  | cons m ms ih =>
    intro post l c fuel hmid hpost hfuel
    cases fuel with
    | zero => omega
    | succ fuel =>
      have hm : m ≠ '#' := hmid m (List.mem_cons_self m ms)
      rw [skipMultilineComment]
      simp only [List.cons_append]
      rw [if_neg hm]
      rw [bump_cons]
      exact ih post _ _ fuel (fun x hx => hmid x (List.mem_cons_of_mem m hx)) hpost
        (by simp only [List.length_cons, List.length_append] at hfuel ⊢; omega)

/-- From a boundary state whose remaining input begins with spaces, a
well-formed comment block and a non-alphabetically-starting tail, one
canonical token step equals a token step from past the comment. -/
theorem nextTok_comment (ws mid post : List Char) (l c : Nat)
    (hws : ∀ ch ∈ ws, ch = ' ' ∨ ch = '\t')
    (hmid1 : ∀ ch ∈ mid, ch ≠ '#')
    (hmid2 : ∀ ch, mid.head? = some ch → ch.isAlpha = false)
    (hpost : ∀ ch, post.head? = some ch → ch.isAlpha = false) :
    ∃ l2 c2, nextTok ⟨ws ++ commentChars mid ++ post, l, c⟩ = nextTok ⟨post, l2, c2⟩ := by
  have hshape : commentChars mid ++ post =
      '#' :: 'O' :: 'B' :: 'T' :: 'W' :: (mid ++ '#' :: 'T' :: 'L' :: 'D' :: 'R' :: post) := by
    simp [commentChars]
  have hhr : ∀ ch, (mid ++ '#' :: 'T' :: 'L' :: 'D' :: 'R' :: post).head? = some ch →
      ch.isAlpha = false := by
    cases mid with
    | nil =>
      intro ch hch
      have h2 : ch = '#' := by simpa [eq_comm] using hch
      rw [h2]
      decide
    | cons m ms =>
      intro ch hch
      have h2 : (m :: ms).head? = some ch := by simpa using hch
      exact hmid2 ch h2
  have hra : readAlphaChars ('O' :: 'B' :: 'T' :: 'W' ::
      (mid ++ '#' :: 'T' :: 'L' :: 'D' :: 'R' :: post)) =
      (['O', 'B', 'T', 'W'], mid ++ '#' :: 'T' :: 'L' :: 'D' :: 'R' :: post) := by
    have hx := readAlphaChars_exact ['O', 'B', 'T', 'W']
      (mid ++ '#' :: 'T' :: 'L' :: 'D' :: 'R' :: post) (by decide) hhr
    simpa using hx
  obtain ⟨l2, c2, hsc⟩ := skipComment_through mid post l
    (c + ws.length + 1 + (['O', 'B', 'T', 'W'] : List Char).length)
    ((ws ++ commentChars mid ++ post).length + 1) hmid1 hpost
    (by
      have hl : (commentChars mid).length = mid.length + 10 := by
        simp only [commentChars, List.length_cons, List.length_append, List.length_nil]
      simp only [List.length_append, List.length_cons, hl]
      omega)
  have hrh : readHashWord ((ws ++ commentChars mid ++ post).length + 1)
      ⟨'#' :: 'O' :: 'B' :: 'T' :: 'W' :: (mid ++ '#' :: 'T' :: 'L' :: 'D' :: 'R' :: post),
        l, c + ws.length⟩ l (c + ws.length) = .comment ⟨post, l2, c2⟩ := by
    have hb : bump ⟨'#' :: 'O' :: 'B' :: 'T' :: 'W' ::
        (mid ++ '#' :: 'T' :: 'L' :: 'D' :: 'R' :: post), l, c + ws.length⟩ =
        ⟨'O' :: 'B' :: 'T' :: 'W' :: (mid ++ '#' :: 'T' :: 'L' :: 'D' :: 'R' :: post),
          l, c + ws.length + 1⟩ := by
      rw [bump_cons]
      rw [if_neg (by decide : ¬('#' : Char) = '\n'),
        if_neg (by decide : ¬('#' : Char) = '\n')]
    simp only [readHashWord, hb]
    rw [hra]
    have hI : ¬(String.mk (listUpper ['O', 'B', 'T', 'W']) = "I" ∧
        (mid ++ '#' :: 'T' :: 'L' :: 'D' :: 'R' :: post).head? = some ' ') :=
      fun hx => absurd hx.1 (by decide)
    have hIT : ¬(String.mk (listUpper ['O', 'B', 'T', 'W']) = "IT" ∧
        (mid ++ '#' :: 'T' :: 'L' :: 'D' :: 'R' :: post).head? = some ' ') :=
      fun hx => absurd hx.1 (by decide)
    have hLE : ¬(String.mk (listUpper ['O', 'B', 'T', 'W']) = "LEMME" ∧
        (mid ++ '#' :: 'T' :: 'L' :: 'D' :: 'R' :: post).head? = some ' ') :=
      fun hx => absurd hx.1 (by decide)
    rw [if_neg hI, if_neg hIT, if_neg hLE]
    rw [if_neg (by decide : ¬(lookup (String.mk (listUpper ['O', 'B', 'T', 'W'])) = false))]
    rw [if_pos (by decide : String.mk (listUpper ['O', 'B', 'T', 'W']) = "OBTW")]
    rw [hsc]
  have hskip : skipSpaces ⟨ws ++ commentChars mid ++ post, l, c⟩ =
      ⟨'#' :: 'O' :: 'B' :: 'T' :: 'W' :: (mid ++ '#' :: 'T' :: 'L' :: 'D' :: 'R' :: post),
        l, c + ws.length⟩ := by
    simp only [skipSpaces]
    rw [List.append_assoc]
    rw [skipSpacesGo_allspace ws hws (commentChars mid ++ post) l c]
    rw [skipSpacesGo_stop (commentChars mid ++ post) l (c + ws.length)
      (by
        intro ch hch
        rw [hshape] at hch
        have h2 : ch = '#' := by simpa [eq_comm] using hch
        rw [h2]
        decide)]
    rw [hshape]
  have hmain : getNextToken ((ws ++ commentChars mid ++ post).length + 1)
      ⟨ws ++ commentChars mid ++ post, l, c⟩ =
      getNextToken ((ws ++ commentChars mid ++ post).length) ⟨post, l2, c2⟩ := by
    rw [getNextToken]
    rw [hskip]
    dsimp only
    rw [if_neg (by decide : ¬('#' : Char) = '\n')]
    rw [if_pos (rfl : ('#' : Char) = '#')]
    rw [hrh]
  refine ⟨l2, c2, ?_⟩
  have hnt : nextTok ⟨ws ++ commentChars mid ++ post, l, c⟩ =
      getNextToken ((ws ++ commentChars mid ++ post).length + 1)
        ⟨ws ++ commentChars mid ++ post, l, c⟩ := rfl
  rw [hnt, hmain]
  apply getNextToken_ge
  have hl : (commentChars mid).length = mid.length + 10 := by
    simp only [commentChars, List.length_cons, List.length_append, List.length_nil]
  simp only [List.length_append, hl]
  omega

/-- A canonical token step ignores leading spaces, shifting the column. -/
theorem nextTok_skipws (ws post : List Char) (l c : Nat)
    (hws : ∀ ch ∈ ws, ch = ' ' ∨ ch = '\t') :
    nextTok ⟨ws ++ post, l, c⟩ = nextTok ⟨post, l, c + ws.length⟩ := by
  have h1 : nextTok ⟨ws ++ post, l, c⟩ =
      getNextToken ((ws ++ post).length + 1) ⟨ws ++ post, l, c⟩ := rfl
  have hskipeq : skipSpaces ⟨ws ++ post, l, c⟩ = skipSpaces ⟨post, l, c + ws.length⟩ := by
    simp only [skipSpaces]
    exact skipSpacesGo_allspace ws hws post l c
  rw [h1, getNextToken_skipInv, hskipeq, ← getNextToken_skipInv]
  apply getNextToken_ge
  simp only [List.length_append]
  omega


/-! ## Frame lemmas: tokens read before an insertion point ignore what
lies past it

Throughout, `post` is the text just past the insertion point (its head is
not alphabetic) and `Q` is the inserted comment followed by `post` (its
head is the comment's `#`).  A computation that consumes only characters
of the prefix `r` behaves identically whether the remaining input is
`post` or `Q`. -/

/-- Frame lemma for `skip_multiline_comment`: a comment of the original
program that terminates while leaving `post` (or more) intact scans the
same characters when `post` is replaced by `Q`. -/
theorem skipComment_frame (fuel : Nat) : ∀ (r post Q : List Char) (l c : Nat)
    (st' : LexSt) (r' : List Char),
    (∀ ch, post.head? = some ch → ch.isAlpha = false) →
    Q.head? = some '#' →
    skipMultilineComment fuel ⟨r ++ post, l, c⟩ = .ok st' →
    st'.input = r' ++ post →
    skipMultilineComment fuel ⟨r ++ Q, l, c⟩ = .ok ⟨r' ++ Q, st'.line, st'.col⟩ := by
  induction fuel with
  | zero =>
    intro r post Q l c st' r' hpost hQ h hsplit
    simp [skipMultilineComment] at h
  | succ fuel ih =>
    intro r post Q l c st' r' hpost hQ h hsplit
    cases r with
    | nil =>
      exfalso
      have hcon := (skipMultilineComment_consumes (fuel + 1) _ _ h).2
      have hlen : st'.input.length = r'.length + post.length := by
        rw [hsplit]
        simp [List.length_append]
      simp only [List.nil_append] at hcon
      omega
    | cons ch r2 =>
      rw [skipMultilineComment] at h
      rw [skipMultilineComment]
      simp only [List.cons_append] at h ⊢
      by_cases hch : ch = '#'
      · rw [if_pos hch] at h
        rw [if_pos hch]
        rw [bump_cons] at h
        rw [bump_cons]
        dsimp only at h ⊢
        rcases readAlphaChars_total r2 with ⟨w, u2, hs2, hne2, hstop2, heq2⟩ | ⟨hall2, heq2⟩
        · rw [heq2 post] at h
          rw [heq2 Q]
          dsimp only at h ⊢
          by_cases htl : String.mk (listUpper w) = "TLDR"
          · rw [if_pos htl] at h
            rw [if_pos htl]
            simp only [LexRes.ok.injEq] at h
            subst h
            dsimp only at hsplit
            have hru : u2 = r' := append_cancel hsplit
            subst hru
            rfl
          · rw [if_neg htl] at h
            rw [if_neg htl]
            exact ih u2 post Q _ _ st' r' hpost hQ h hsplit
        · have hstopP : readAlphaChars post = ([], post) := readAlphaChars_stop post hpost
          have hstopQ : readAlphaChars Q = ([], Q) := by
            apply readAlphaChars_stop
            intro ch2 hch2
            rw [hQ] at hch2
            have hc2 : ch2 = '#' := by simpa [eq_comm] using hch2
            rw [hc2]
            decide
          rw [heq2 post, hstopP] at h
          rw [heq2 Q, hstopQ]
          simp only [List.append_nil] at h ⊢
          by_cases htl : String.mk (listUpper r2) = "TLDR"
          · rw [if_pos htl] at h
            rw [if_pos htl]
            simp only [LexRes.ok.injEq] at h
            subst h
            dsimp only at hsplit
            have h0 : ([] : List Char) ++ post = r' ++ post := by simpa using hsplit
            have hru : ([] : List Char) = r' := append_cancel h0
            subst hru
            rfl
          · rw [if_neg htl] at h
            rw [if_neg htl]
            exact ih [] post Q _ _ st' r' hpost hQ h hsplit
      · rw [if_neg hch] at h
        rw [if_neg hch]
        rw [bump_cons] at h
        rw [bump_cons]
        exact ih r2 post Q _ _ st' r' hpost hQ h hsplit


/-- Frame lemma for `read_hash_word`: a hashtag word (with its optional
two-word merge and comment skipping) that results in a token or skipped
comment leaving `post` (or more) intact behaves identically when `post`
is replaced by `Q`. -/
theorem readHashWord_frame (fuel : Nat) (r2 post Q : List Char) (l c sl sc : Nat)
    (hpost : ∀ ch, post.head? = some ch → ch.isAlpha = false)
    (hQ : Q.head? = some '#') :
    (∀ t st', readHashWord fuel ⟨'#' :: (r2 ++ post), l, c⟩ sl sc = .tok t st' →
      ∀ r', st'.input = r' ++ post →
        readHashWord fuel ⟨'#' :: (r2 ++ Q), l, c⟩ sl sc = .tok t ⟨r' ++ Q, st'.line, st'.col⟩) ∧
    (∀ st', readHashWord fuel ⟨'#' :: (r2 ++ post), l, c⟩ sl sc = .comment st' →
      ∀ r', st'.input = r' ++ post →
        readHashWord fuel ⟨'#' :: (r2 ++ Q), l, c⟩ sl sc =
          .comment ⟨r' ++ Q, st'.line, st'.col⟩) := by
  have hQalpha : ∀ ch, Q.head? = some ch → ch.isAlpha = false := by
    intro ch hch
    rw [hQ] at hch
    have h2 : ch = '#' := by simpa [eq_comm] using hch
    rw [h2]
    decide
  have hb1 : bump ⟨'#' :: (r2 ++ post), l, c⟩ = ⟨r2 ++ post, l, c + 1⟩ := by
    rw [bump_cons]
    rw [if_neg (by decide : ¬('#' : Char) = '\n'), if_neg (by decide : ¬('#' : Char) = '\n')]
  have hb2 : bump ⟨'#' :: (r2 ++ Q), l, c⟩ = ⟨r2 ++ Q, l, c + 1⟩ := by
    rw [bump_cons]
    rw [if_neg (by decide : ¬('#' : Char) = '\n'), if_neg (by decide : ¬('#' : Char) = '\n')]
  simp only [readHashWord, hb1, hb2]
  rcases readAlphaChars_total r2 with ⟨w, u2, hs2, hne2, hstop2, heq2⟩ | ⟨hall2, heq2⟩
  · -- the first word stops strictly inside the prefix
    rw [heq2 post, heq2 Q]
    dsimp only
    obtain ⟨x, u3, hu⟩ : ∃ x u3, u2 = x :: u3 := by
      cases u2 with
      | nil => exact absurd rfl hne2
      | cons a b => exact ⟨a, b, rfl⟩
    subst hu
    simp only [List.cons_append, List.head?_cons]
    by_cases hc1 : String.mk (listUpper w) = "I" ∧ some x = some ' '
    · rw [if_pos hc1, if_pos hc1]
      have hxsp : x = ' ' := by simpa using hc1.2
      subst hxsp
      rw [bump_cons, bump_cons]
      dsimp only
      rcases readAlphaChars_total u3 with ⟨qw, v, hsq, hneq, hstopq, heqq⟩ | ⟨hallq, heqq⟩
      · rw [heqq post, heqq Q]
        dsimp only
        by_cases hHAZ : String.mk (listUpper qw) = "HAZ"
        · rw [if_pos hHAZ, if_pos hHAZ]
          dsimp only
          rw [if_neg (by decide : ¬(lookup "I HAZ" = false)),
            if_neg (by decide : ¬(lookup "I HAZ" = false)),
            if_neg (by decide : ¬("I HAZ" = "OBTW")),
            if_neg (by decide : ¬("I HAZ" = "OBTW"))]
          constructor
          · intro t st' ht r' hr'
            simp only [HashRes.tok.injEq] at ht
            obtain ⟨ht1, ht2⟩ := ht
            subst ht1
            subst ht2
            dsimp only at hr'
            have hru : v = r' := append_cancel hr'
            subst hru
            rfl
          · intro st' hcm r' hr'
            cases hcm
        · rw [if_neg hHAZ, if_neg hHAZ]
          dsimp only
          rw [if_pos (by rw [hc1.1]; decide : lookup (String.mk (listUpper w)) = false),
            if_pos (by rw [hc1.1]; decide : lookup (String.mk (listUpper w)) = false)]
          constructor
          · intro t st' ht r' hr'
            cases ht
          · intro st' hcm r' hr'
            cases hcm
      · have hP : readAlphaChars post = ([], post) := readAlphaChars_stop post hpost
        have hQ2 : readAlphaChars Q = ([], Q) := readAlphaChars_stop Q hQalpha
        rw [heqq post, heqq Q, hP, hQ2]
        simp only [List.append_nil]
        by_cases hHAZ : String.mk (listUpper u3) = "HAZ"
        · rw [if_pos hHAZ, if_pos hHAZ]
          dsimp only
          rw [if_neg (by decide : ¬(lookup "I HAZ" = false)),
            if_neg (by decide : ¬(lookup "I HAZ" = false)),
            if_neg (by decide : ¬("I HAZ" = "OBTW")),
            if_neg (by decide : ¬("I HAZ" = "OBTW"))]
          constructor
          · intro t st' ht r' hr'
            simp only [HashRes.tok.injEq] at ht
            obtain ⟨ht1, ht2⟩ := ht
            subst ht1
            subst ht2
            dsimp only at hr'
            have h0 : ([] : List Char) ++ post = r' ++ post := by simpa using hr'
            have hru : ([] : List Char) = r' := append_cancel h0
            subst hru
            rfl
          · intro st' hcm r' hr'
            cases hcm
        · rw [if_neg hHAZ, if_neg hHAZ]
          dsimp only
          rw [if_pos (by rw [hc1.1]; decide : lookup (String.mk (listUpper w)) = false),
            if_pos (by rw [hc1.1]; decide : lookup (String.mk (listUpper w)) = false)]
          constructor
          · intro t st' ht r' hr'
            cases ht
          · intro st' hcm r' hr'
            cases hcm
    · rw [if_neg hc1, if_neg hc1]
      by_cases hc2 : String.mk (listUpper w) = "IT" ∧ some x = some ' '
      · rw [if_pos hc2, if_pos hc2]
        have hxsp : x = ' ' := by simpa using hc2.2
        subst hxsp
        rw [bump_cons, bump_cons]
        dsimp only
        rcases readAlphaChars_total u3 with ⟨qw, v, hsq, hneq, hstopq, heqq⟩ | ⟨hallq, heqq⟩
        · rw [heqq post, heqq Q]
          dsimp only
          by_cases hIZ : String.mk (listUpper qw) = "IZ"
          · rw [if_pos hIZ, if_pos hIZ]
            dsimp only
            rw [if_neg (by decide : ¬(lookup "IT IZ" = false)),
              if_neg (by decide : ¬(lookup "IT IZ" = false)),
              if_neg (by decide : ¬("IT IZ" = "OBTW")),
              if_neg (by decide : ¬("IT IZ" = "OBTW"))]
            constructor
            · intro t st' ht r' hr'
              simp only [HashRes.tok.injEq] at ht
              obtain ⟨ht1, ht2⟩ := ht
              subst ht1
              subst ht2
              dsimp only at hr'
              have hru : v = r' := append_cancel hr'
              subst hru
              rfl
            · intro st' hcm r' hr'
              cases hcm
          · rw [if_neg hIZ, if_neg hIZ]
            dsimp only
            rw [if_pos (by rw [hc2.1]; decide : lookup (String.mk (listUpper w)) = false),
              if_pos (by rw [hc2.1]; decide : lookup (String.mk (listUpper w)) = false)]
            constructor
            · intro t st' ht r' hr'
              cases ht
            · intro st' hcm r' hr'
              cases hcm
        · have hP : readAlphaChars post = ([], post) := readAlphaChars_stop post hpost
          have hQ2 : readAlphaChars Q = ([], Q) := readAlphaChars_stop Q hQalpha
          rw [heqq post, heqq Q, hP, hQ2]
          simp only [List.append_nil]
          by_cases hIZ : String.mk (listUpper u3) = "IZ"
          · rw [if_pos hIZ, if_pos hIZ]
            dsimp only
            rw [if_neg (by decide : ¬(lookup "IT IZ" = false)),
              if_neg (by decide : ¬(lookup "IT IZ" = false)),
              if_neg (by decide : ¬("IT IZ" = "OBTW")),
              if_neg (by decide : ¬("IT IZ" = "OBTW"))]
            constructor
            · intro t st' ht r' hr'
              simp only [HashRes.tok.injEq] at ht
              obtain ⟨ht1, ht2⟩ := ht
              subst ht1
              subst ht2
              dsimp only at hr'
              have h0 : ([] : List Char) ++ post = r' ++ post := by simpa using hr'
              have hru : ([] : List Char) = r' := append_cancel h0
              subst hru
              rfl
            · intro st' hcm r' hr'
              cases hcm
          · rw [if_neg hIZ, if_neg hIZ]
            dsimp only
            rw [if_pos (by rw [hc2.1]; decide : lookup (String.mk (listUpper w)) = false),
              if_pos (by rw [hc2.1]; decide : lookup (String.mk (listUpper w)) = false)]
            constructor
            · intro t st' ht r' hr'
              cases ht
            · intro st' hcm r' hr'
              cases hcm
      · rw [if_neg hc2, if_neg hc2]
        by_cases hc3 : String.mk (listUpper w) = "LEMME" ∧ some x = some ' '
        · rw [if_pos hc3, if_pos hc3]
          have hxsp : x = ' ' := by simpa using hc3.2
          subst hxsp
          rw [bump_cons, bump_cons]
          dsimp only
          rcases readAlphaChars_total u3 with ⟨qw, v, hsq, hneq, hstopq, heqq⟩ | ⟨hallq, heqq⟩
          · rw [heqq post, heqq Q]
            dsimp only
            by_cases hSEE : String.mk (listUpper qw) = "SEE"
            · rw [if_pos hSEE, if_pos hSEE]
              dsimp only
              rw [if_neg (by decide : ¬(lookup "LEMME SEE" = false)),
                if_neg (by decide : ¬(lookup "LEMME SEE" = false)),
                if_neg (by decide : ¬("LEMME SEE" = "OBTW")),
                if_neg (by decide : ¬("LEMME SEE" = "OBTW"))]
              constructor
              · intro t st' ht r' hr'
                simp only [HashRes.tok.injEq] at ht
                obtain ⟨ht1, ht2⟩ := ht
                subst ht1
                subst ht2
                dsimp only at hr'
                have hru : v = r' := append_cancel hr'
                subst hru
                rfl
              · intro st' hcm r' hr'
                cases hcm
            · rw [if_neg hSEE, if_neg hSEE]
              dsimp only
              rw [if_pos (by rw [hc3.1]; decide : lookup (String.mk (listUpper w)) = false),
                if_pos (by rw [hc3.1]; decide : lookup (String.mk (listUpper w)) = false)]
              constructor
              · intro t st' ht r' hr'
                cases ht
              · intro st' hcm r' hr'
                cases hcm
          · have hP : readAlphaChars post = ([], post) := readAlphaChars_stop post hpost
            have hQ2 : readAlphaChars Q = ([], Q) := readAlphaChars_stop Q hQalpha
            rw [heqq post, heqq Q, hP, hQ2]
            simp only [List.append_nil]
            by_cases hSEE : String.mk (listUpper u3) = "SEE"
            · rw [if_pos hSEE, if_pos hSEE]
              dsimp only
              rw [if_neg (by decide : ¬(lookup "LEMME SEE" = false)),
                if_neg (by decide : ¬(lookup "LEMME SEE" = false)),
                if_neg (by decide : ¬("LEMME SEE" = "OBTW")),
                if_neg (by decide : ¬("LEMME SEE" = "OBTW"))]
              constructor
              · intro t st' ht r' hr'
                simp only [HashRes.tok.injEq] at ht
                obtain ⟨ht1, ht2⟩ := ht
                subst ht1
                subst ht2
                dsimp only at hr'
                have h0 : ([] : List Char) ++ post = r' ++ post := by simpa using hr'
                have hru : ([] : List Char) = r' := append_cancel h0
                subst hru
                rfl
              · intro st' hcm r' hr'
                cases hcm
            · rw [if_neg hSEE, if_neg hSEE]
              dsimp only
              rw [if_pos (by rw [hc3.1]; decide : lookup (String.mk (listUpper w)) = false),
                if_pos (by rw [hc3.1]; decide : lookup (String.mk (listUpper w)) = false)]
              constructor
              · intro t st' ht r' hr'
                cases ht
              · intro st' hcm r' hr'
                cases hcm
        · rw [if_neg hc3, if_neg hc3]
          dsimp only
          by_cases hlook : lookup (String.mk (listUpper w)) = false
          · rw [if_pos hlook, if_pos hlook]
            constructor
            · intro t st' ht r' hr'
              cases ht
            · intro st' hcm r' hr'
              cases hcm
          · rw [if_neg hlook, if_neg hlook]
            by_cases hobtw : String.mk (listUpper w) = "OBTW"
            · rw [if_pos hobtw, if_pos hobtw]
              constructor
              · intro t st' ht r' hr'
                cases hk : skipMultilineComment fuel ⟨x :: (u3 ++ post), l, c + 1 + w.length⟩ with
                | ok s6 => rw [hk] at ht; cases ht
                | err e => rw [hk] at ht; cases ht
                | out => rw [hk] at ht; cases ht
              · intro st' hcm r' hr'
                cases hk : skipMultilineComment fuel ⟨x :: (u3 ++ post), l, c + 1 + w.length⟩ with
                | ok s6 =>
                  rw [hk] at hcm
                  simp only [HashRes.comment.injEq] at hcm
                  subst hcm
                  have hfr := skipComment_frame fuel (x :: u3) post Q l (c + 1 + w.length)
                    s6 r' hpost hQ hk hr'
                  simp only [List.cons_append] at hfr
                  rw [hfr]
                | err e => rw [hk] at hcm; cases hcm
                | out => rw [hk] at hcm; cases hcm
            · rw [if_neg hobtw, if_neg hobtw]
              constructor
              · intro t st' ht r' hr'
                simp only [HashRes.tok.injEq] at ht
                obtain ⟨ht1, ht2⟩ := ht
                subst ht1
                subst ht2
                dsimp only at hr'
                have h0 : (x :: u3) ++ post = r' ++ post := by simpa using hr'
                have hru : x :: u3 = r' := append_cancel h0
                subst hru
                rfl
              · intro st' hcm r' hr'
                cases hcm
  · -- the first word reaches the boundary exactly
    have hP : readAlphaChars post = ([], post) := readAlphaChars_stop post hpost
    have hQ2 : readAlphaChars Q = ([], Q) := readAlphaChars_stop Q hQalpha
    rw [heq2 post, heq2 Q, hP, hQ2]
    simp only [List.append_nil]
    have hQsp : ¬(Q.head? = some ' ') := by
      rw [hQ]
      intro hx
      simp at hx
    have hnc1 : ¬(String.mk (listUpper r2) = "I" ∧ Q.head? = some ' ') := fun hx => hQsp hx.2
    have hnc2 : ¬(String.mk (listUpper r2) = "IT" ∧ Q.head? = some ' ') := fun hx => hQsp hx.2
    have hnc3 : ¬(String.mk (listUpper r2) = "LEMME" ∧ Q.head? = some ' ') :=
      fun hx => hQsp hx.2
    rw [if_neg hnc1, if_neg hnc2, if_neg hnc3]
    by_cases hc1 : String.mk (listUpper r2) = "I" ∧ post.head? = some ' '
    · rw [if_pos hc1]
      obtain ⟨pt, hpt⟩ : ∃ pt, post = ' ' :: pt := by
        cases hps : post with
        | nil => rw [hps] at hc1; simp at hc1
        | cons a b =>
          have ha : a = ' ' := by
            have := hc1.2
            rw [hps] at this
            simpa using this
          exact ⟨b, by rw [ha]⟩
      have hbp : bump ⟨post, l, c + 1 + r2.length⟩ = ⟨pt, l, c + 1 + r2.length + 1⟩ := by
        rw [hpt, bump_cons]
        rw [if_neg (by decide : ¬(' ' : Char) = '\n'),
          if_neg (by decide : ¬(' ' : Char) = '\n')]
      rw [hbp]
      dsimp only
      by_cases hHAZ : String.mk (listUpper (readAlphaChars pt).1) = "HAZ"
      · rw [if_pos hHAZ]
        dsimp only
        rw [if_neg (by decide : ¬(lookup "I HAZ" = false)),
          if_neg (by decide : ¬("I HAZ" = "OBTW"))]
        constructor
        · intro t st' ht r' hr'
          exfalso
          simp only [HashRes.tok.injEq] at ht
          obtain ⟨ht1, ht2⟩ := ht
          subst ht2
          dsimp only at hr'
          have hsuf := (readAlphaChars_split pt).1
          have hlen := suffixOf_length hsuf
          rw [hr'] at hlen
          simp only [List.length_append] at hlen
          have hplen : post.length = pt.length + 1 := by rw [hpt]; simp
          omega
        · intro st' hcm r' hr'
          cases hcm
      · rw [if_neg hHAZ]
        dsimp only
        rw [if_pos (by rw [hc1.1]; decide : lookup (String.mk (listUpper r2)) = false)]
        constructor
        · intro t st' ht r' hr'
          cases ht
        · intro st' hcm r' hr'
          cases hcm
    · rw [if_neg hc1]
      by_cases hc2 : String.mk (listUpper r2) = "IT" ∧ post.head? = some ' '
      · rw [if_pos hc2]
        obtain ⟨pt, hpt⟩ : ∃ pt, post = ' ' :: pt := by
          cases hps : post with
          | nil => rw [hps] at hc2; simp at hc2
          | cons a b =>
            have ha : a = ' ' := by
              have := hc2.2
              rw [hps] at this
              simpa using this
            exact ⟨b, by rw [ha]⟩
        have hbp : bump ⟨post, l, c + 1 + r2.length⟩ = ⟨pt, l, c + 1 + r2.length + 1⟩ := by
          rw [hpt, bump_cons]
          rw [if_neg (by decide : ¬(' ' : Char) = '\n'),
            if_neg (by decide : ¬(' ' : Char) = '\n')]
        rw [hbp]
        dsimp only
        by_cases hIZ : String.mk (listUpper (readAlphaChars pt).1) = "IZ"
        · rw [if_pos hIZ]
          dsimp only
          rw [if_neg (by decide : ¬(lookup "IT IZ" = false)),
            if_neg (by decide : ¬("IT IZ" = "OBTW"))]
          constructor
          · intro t st' ht r' hr'
            exfalso
            simp only [HashRes.tok.injEq] at ht
            obtain ⟨ht1, ht2⟩ := ht
            subst ht2
            dsimp only at hr'
            have hsuf := (readAlphaChars_split pt).1
            have hlen := suffixOf_length hsuf
            rw [hr'] at hlen
            simp only [List.length_append] at hlen
            have hplen : post.length = pt.length + 1 := by rw [hpt]; simp
            omega
          · intro st' hcm r' hr'
            cases hcm
        · rw [if_neg hIZ]
          dsimp only
          rw [if_pos (by rw [hc2.1]; decide : lookup (String.mk (listUpper r2)) = false)]
          constructor
          · intro t st' ht r' hr'
            cases ht
          · intro st' hcm r' hr'
            cases hcm
      · rw [if_neg hc2]
        by_cases hc3 : String.mk (listUpper r2) = "LEMME" ∧ post.head? = some ' '
        · rw [if_pos hc3]
          obtain ⟨pt, hpt⟩ : ∃ pt, post = ' ' :: pt := by
            cases hps : post with
            | nil => rw [hps] at hc3; simp at hc3
            | cons a b =>
              have ha : a = ' ' := by
                have := hc3.2
                rw [hps] at this
                simpa using this
              exact ⟨b, by rw [ha]⟩
          have hbp : bump ⟨post, l, c + 1 + r2.length⟩ = ⟨pt, l, c + 1 + r2.length + 1⟩ := by
            rw [hpt, bump_cons]
            rw [if_neg (by decide : ¬(' ' : Char) = '\n'),
              if_neg (by decide : ¬(' ' : Char) = '\n')]
          rw [hbp]
          dsimp only
          by_cases hSEE : String.mk (listUpper (readAlphaChars pt).1) = "SEE"
          · rw [if_pos hSEE]
            dsimp only
            rw [if_neg (by decide : ¬(lookup "LEMME SEE" = false)),
              if_neg (by decide : ¬("LEMME SEE" = "OBTW"))]
            constructor
            · intro t st' ht r' hr'
              exfalso
              simp only [HashRes.tok.injEq] at ht
              obtain ⟨ht1, ht2⟩ := ht
              subst ht2
              dsimp only at hr'
              have hsuf := (readAlphaChars_split pt).1
              have hlen := suffixOf_length hsuf
              rw [hr'] at hlen
              simp only [List.length_append] at hlen
              have hplen : post.length = pt.length + 1 := by rw [hpt]; simp
              omega
            · intro st' hcm r' hr'
              cases hcm
          · rw [if_neg hSEE]
            dsimp only
            rw [if_pos (by rw [hc3.1]; decide : lookup (String.mk (listUpper r2)) = false)]
            constructor
            · intro t st' ht r' hr'
              cases ht
            · intro st' hcm r' hr'
              cases hcm
        · rw [if_neg hc3]
          dsimp only
          by_cases hlook : lookup (String.mk (listUpper r2)) = false
          · rw [if_pos hlook, if_pos hlook]
            constructor
            · intro t st' ht r' hr'
              cases ht
            · intro st' hcm r' hr'
              cases hcm
          · rw [if_neg hlook, if_neg hlook]
            by_cases hobtw : String.mk (listUpper r2) = "OBTW"
            · rw [if_pos hobtw, if_pos hobtw]
              constructor
              · intro t st' ht r' hr'
                cases hk : skipMultilineComment fuel ⟨post, l, c + 1 + r2.length⟩ with
                | ok s6 => rw [hk] at ht; cases ht
                | err e => rw [hk] at ht; cases ht
                | out => rw [hk] at ht; cases ht
              · intro st' hcm r' hr'
                cases hk : skipMultilineComment fuel ⟨post, l, c + 1 + r2.length⟩ with
                | ok s6 =>
                  rw [hk] at hcm
                  simp only [HashRes.comment.injEq] at hcm
                  subst hcm
                  have hfr := skipComment_frame fuel [] post Q l (c + 1 + r2.length)
                    s6 r' hpost hQ hk hr'
                  simp only [List.nil_append] at hfr
                  rw [hfr]
                | err e => rw [hk] at hcm; cases hcm
                | out => rw [hk] at hcm; cases hcm
            · rw [if_neg hobtw, if_neg hobtw]
              constructor
              · intro t st' ht r' hr'
                simp only [HashRes.tok.injEq] at ht
                obtain ⟨ht1, ht2⟩ := ht
                subst ht1
                subst ht2
                dsimp only at hr'
                have h0 : ([] : List Char) ++ post = r' ++ post := by simpa using hr'
                have hru : ([] : List Char) = r' := append_cancel h0
                subst hru
                rfl
              · intro st' hcm r' hr'
                cases hcm


/-- Frame lemma for `get_next_token`: a successful non-`Eof` token step
that consumes only prefix characters (its result state still ends in
`post`) produces the very same token, and the correspondingly-aligned
state, when `post` is replaced by `Q`. -/
theorem getNextToken_frame (fuel : Nat) : ∀ (r post Q : List Char) (l c : Nat)
    (t : Token) (st' : LexSt) (r' : List Char),
    (∀ ch, post.head? = some ch → ch.isAlpha = false) →
    Q.head? = some '#' →
    getNextToken fuel ⟨r ++ post, l, c⟩ = .ok (t, st') →
    st'.input = r' ++ post →
    t.kind ≠ .eof →
    getNextToken fuel ⟨r ++ Q, l, c⟩ = .ok (t, ⟨r' ++ Q, st'.line, st'.col⟩) := by
  induction fuel with
  | zero =>
    intro r post Q l c t st' r' hpost hQ h hsplit hne
    simp [getNextToken] at h
  | succ fuel ih =>
    intro r post Q l c t st' r' hpost hQ h hsplit hne
    have hlen' : st'.input.length = r'.length + post.length := by
      rw [hsplit]
      simp [List.length_append]
    rcases skipSpacesGo_total r with ⟨sp, u2, hsp2, hne2, hstop2, heq⟩ | ⟨hall, heq⟩
    · obtain ⟨x, u3, hu⟩ : ∃ x u3, u2 = x :: u3 := by
        cases u2 with
        | nil => exact absurd rfl hne2
        | cons a b => exact ⟨a, b, rfl⟩
      subst hu
      have h1 : skipSpaces ⟨r ++ post, l, c⟩ = ⟨x :: (u3 ++ post), l, c + sp.length⟩ := by
        simp only [skipSpaces]
        rw [heq post l c]
        simp only [List.cons_append]
      have h2 : skipSpaces ⟨r ++ Q, l, c⟩ = ⟨x :: (u3 ++ Q), l, c + sp.length⟩ := by
        simp only [skipSpaces]
        rw [heq Q l c]
        simp only [List.cons_append]
      rw [getNextToken] at h
      rw [getNextToken]
      rw [h1] at h
      rw [h2]
      dsimp only at h ⊢
      by_cases hnl : x = '\n'
      · rw [if_pos hnl] at h
        rw [if_pos hnl]
        rw [bump_cons] at h
        rw [bump_cons]
        simp only [LexRes.ok.injEq, Prod.mk.injEq] at h
        obtain ⟨ht, hst⟩ := h
        subst hst
        subst ht
        dsimp only at hsplit
        have hru : u3 = r' := append_cancel hsplit
        subst hru
        rfl
      · rw [if_neg hnl] at h
        rw [if_neg hnl]
        by_cases hhash : x = '#'
        · rw [if_pos hhash] at h
          rw [if_pos hhash]
          subst hhash
          have hfr := readHashWord_frame (fuel + 1) u3 post Q l (c + sp.length)
            l (c + sp.length) hpost hQ
          cases hrh : readHashWord (fuel + 1) ⟨'#' :: (u3 ++ post), l, c + sp.length⟩
              l (c + sp.length) with
          | tok t1 st1 =>
            rw [hrh] at h
            simp only [LexRes.ok.injEq, Prod.mk.injEq] at h
            obtain ⟨ht, hst⟩ := h
            subst hst
            subst ht
            have hcall := hfr.1 t1 st1 hrh r' hsplit
            rw [hcall]
          | comment st1 =>
            rw [hrh] at h
            have hcases := readHashWord_cases (fuel + 1)
              ⟨'#' :: (u3 ++ post), l, c + sp.length⟩ l (c + sp.length) (u3 ++ post) rfl
            have hsuf1 : SuffixOf st1.input (u3 ++ post) := hcases.2.1 st1 hrh
            have hprog1 := (getNextToken_progress fuel st1 t st' h).1
            have hlen1 : post.length ≤ st1.input.length := by
              have hx := suffixOf_length hprog1
              omega
            obtain ⟨rc, hrc⟩ := suffix_with_tail hsuf1 hlen1
            have hcf := hfr.2 st1 hrh rc hrc
            rw [hcf]
            obtain ⟨si, sl1, sc1⟩ := st1
            dsimp only at hrc
            subst hrc
            exact ih rc post Q sl1 sc1 t st' r' hpost hQ h hsplit hne
          | err e => rw [hrh] at h; cases h
          | out => rw [hrh] at h; cases h
        · rw [if_neg hhash] at h
          rw [if_neg hhash]
          by_cases halpha : x.isAlpha = true
          · rw [if_pos halpha] at h
            rw [if_pos halpha]
            simp only [readWord] at h ⊢
            rcases readAlnumChars_total (x :: u3) with ⟨w, v, hsv, hnev, hstopv, heqv⟩ |
              ⟨hallv, heqv⟩
            · have e1 : readAlnumChars (x :: (u3 ++ post)) = (w, v ++ post) := by
                rw [← List.cons_append]
                exact heqv post
              have e2 : readAlnumChars (x :: (u3 ++ Q)) = (w, v ++ Q) := by
                rw [← List.cons_append]
                exact heqv Q
              rw [e1] at h
              rw [e2]
              dsimp only at h ⊢
              by_cases hlk : lookup (String.mk (listUpper w)) = true
              · rw [if_pos hlk] at h
                rw [if_pos hlk]
                simp only [LexRes.ok.injEq, Prod.mk.injEq] at h
                obtain ⟨ht, hst⟩ := h
                subst hst
                subst ht
                dsimp only at hsplit
                have hru : v = r' := append_cancel hsplit
                subst hru
                rfl
              · rw [if_neg hlk] at h
                rw [if_neg hlk]
                simp only [LexRes.ok.injEq, Prod.mk.injEq] at h
                obtain ⟨ht, hst⟩ := h
                subst hst
                subst ht
                dsimp only at hsplit
                have hru : v = r' := append_cancel hsplit
                subst hru
                rfl
            · rcases readAlnumChars_cases post with hstopP | hltP
              · have e1 : readAlnumChars (x :: (u3 ++ post)) = ((x :: u3) ++ [], post) := by
                  rw [← List.cons_append, heqv post, hstopP]
                have hQal : readAlnumChars Q = ([], Q) := by
                  apply readAlnumChars_stop
                  intro ch2 hch2
                  rw [hQ] at hch2
                  have hc2 : ch2 = '#' := by simpa [eq_comm] using hch2
                  rw [hc2]
                  decide
                have e2 : readAlnumChars (x :: (u3 ++ Q)) = ((x :: u3) ++ [], Q) := by
                  rw [← List.cons_append, heqv Q, hQal]
                rw [e1] at h
                rw [e2]
                dsimp only at h ⊢
                by_cases hlk : lookup (String.mk (listUpper ((x :: u3) ++ []))) = true
                · rw [if_pos hlk] at h
                  rw [if_pos hlk]
                  simp only [LexRes.ok.injEq, Prod.mk.injEq] at h
                  obtain ⟨ht, hst⟩ := h
                  subst hst
                  subst ht
                  dsimp only at hsplit
                  have h0 : ([] : List Char) ++ post = r' ++ post := by simpa using hsplit
                  have hru : ([] : List Char) = r' := append_cancel h0
                  subst hru
                  rfl
                · rw [if_neg hlk] at h
                  rw [if_neg hlk]
                  simp only [LexRes.ok.injEq, Prod.mk.injEq] at h
                  obtain ⟨ht, hst⟩ := h
                  subst hst
                  subst ht
                  dsimp only at hsplit
                  have h0 : ([] : List Char) ++ post = r' ++ post := by simpa using hsplit
                  have hru : ([] : List Char) = r' := append_cancel h0
                  subst hru
                  rfl
              · exfalso
                have e1 : readAlnumChars (x :: (u3 ++ post)) =
                    ((x :: u3) ++ (readAlnumChars post).1, (readAlnumChars post).2) := by
                  rw [← List.cons_append]
                  exact heqv post
                rw [e1] at h
                dsimp only at h
                by_cases hlk : lookup (String.mk (listUpper
                    ((x :: u3) ++ (readAlnumChars post).1))) = true
                · rw [if_pos hlk] at h
                  simp only [LexRes.ok.injEq, Prod.mk.injEq] at h
                  obtain ⟨ht, hst⟩ := h
                  subst hst
                  dsimp only at hsplit
                  rw [hsplit] at hltP
                  simp only [List.length_append] at hltP
                  omega
                · rw [if_neg hlk] at h
                  simp only [LexRes.ok.injEq, Prod.mk.injEq] at h
                  obtain ⟨ht, hst⟩ := h
                  subst hst
                  dsimp only at hsplit
                  rw [hsplit] at hltP
                  simp only [List.length_append] at hltP
                  omega
          · rw [if_neg halpha] at h
            rw [if_neg halpha]
            simp only [readTextLine] at h ⊢
            rcases readTextChars_total (x :: u3) with ⟨w, v, hsv, hnev, hstopv, heqv⟩ |
              ⟨hallv, heqv⟩
            · have e1 : readTextChars (x :: (u3 ++ post)) = (w, v ++ post) := by
                rw [← List.cons_append]
                exact heqv post
              have e2 : readTextChars (x :: (u3 ++ Q)) = (w, v ++ Q) := by
                rw [← List.cons_append]
                exact heqv Q
              rw [e1] at h
              rw [e2]
              dsimp only at h ⊢
              by_cases htr : trimChars w = []
              · rw [if_pos htr] at h
                rw [if_pos htr]
                exact ih v post Q l (c + sp.length + w.length) t st' r' hpost hQ h hsplit hne
              · rw [if_neg htr] at h
                rw [if_neg htr]
                simp only [LexRes.ok.injEq, Prod.mk.injEq] at h
                obtain ⟨ht, hst⟩ := h
                subst hst
                subst ht
                dsimp only at hsplit
                have hru : v = r' := append_cancel hsplit
                subst hru
                rfl
            · rcases readTextChars_cases post with hstopP | hltP
              · have e1 : readTextChars (x :: (u3 ++ post)) = ((x :: u3) ++ [], post) := by
                  rw [← List.cons_append, heqv post, hstopP]
                have hQtx : readTextChars Q = ([], Q) := by
                  apply readTextChars_stop
                  intro ch2 hch2
                  rw [hQ] at hch2
                  have hc2 : ch2 = '#' := by simpa [eq_comm] using hch2
                  rw [hc2]
                  exact Or.inr rfl
                have e2 : readTextChars (x :: (u3 ++ Q)) = ((x :: u3) ++ [], Q) := by
                  rw [← List.cons_append, heqv Q, hQtx]
                rw [e1] at h
                rw [e2]
                dsimp only at h ⊢
                by_cases htr : trimChars ((x :: u3) ++ []) = []
                · rw [if_pos htr] at h
                  rw [if_pos htr]
                  have hred : getNextToken fuel ⟨[] ++ post, l,
                      c + sp.length + (x :: u3 ++ []).length⟩ = .ok (t, st') := h
                  exact ih [] post Q l (c + sp.length + (x :: u3 ++ []).length)
                    t st' r' hpost hQ hred hsplit hne
                · rw [if_neg htr] at h
                  rw [if_neg htr]
                  simp only [LexRes.ok.injEq, Prod.mk.injEq] at h
                  obtain ⟨ht, hst⟩ := h
                  subst hst
                  subst ht
                  dsimp only at hsplit
                  have h0 : ([] : List Char) ++ post = r' ++ post := by simpa using hsplit
                  have hru : ([] : List Char) = r' := append_cancel h0
                  subst hru
                  rfl
              · exfalso
                have e1 : readTextChars (x :: (u3 ++ post)) =
                    ((x :: u3) ++ (readTextChars post).1, (readTextChars post).2) := by
                  rw [← List.cons_append]
                  exact heqv post
                rw [e1] at h
                dsimp only at h
                by_cases htr : trimChars ((x :: u3) ++ (readTextChars post).1) = []
                · rw [if_pos htr] at h
                  have hprog1 := (getNextToken_progress fuel _ t st' h).1
                  have hx := suffixOf_length hprog1
                  dsimp only at hx
                  omega
                · rw [if_neg htr] at h
                  simp only [LexRes.ok.injEq, Prod.mk.injEq] at h
                  obtain ⟨ht, hst⟩ := h
                  subst hst
                  dsimp only at hsplit
                  rw [hsplit] at hltP
                  simp only [List.length_append] at hltP
                  omega
    · exfalso
      have hx : skipSpaces ⟨r ++ post, l, c⟩ = skipSpacesGo post l (c + r.length) := by
        simp only [skipSpaces]
        exact heq post l c
      have hrw := getNextToken_skipInv fuel ⟨r ++ post, l, c⟩
      rw [hrw, hx] at h
      have hsfx := (skipSpacesGo_split post l (c + r.length)).1
      have hlen0 := suffixOf_length hsfx
      have hprog := (getNextToken_progress (fuel + 1) _ t st' h).2 hne
      omega


/-! ## Claim C6: comment transparency -/

/-- The state reached after stepping over tokens is a suffix state. -/
theorem iterTok_suffix (k : Nat) : ∀ st s, iterTok k st = some s →
    SuffixOf s.input st.input := by
  induction k with
  | zero =>
    intro st s h
    simp only [iterTok] at h
    cases h
    exact suffixOf_refl _
  | succ k ih =>
    intro st s h
    rw [iterTok] at h
    cases hn : nextTok st with
    | ok p =>
      obtain ⟨t, st1⟩ := p
      rw [hn] at h
      simp only [] at h
      by_cases he : t.kind = .eof
      · rw [if_pos he] at h
        cases h
      · rw [if_neg he] at h
        have hsx := (getNextToken_progress (st.input.length + 1) st t st1 hn).1
        exact suffixOf_trans (ih st1 s h) hsx
    | err e => rw [hn] at h; cases h
    | out => rw [hn] at h; cases h

/-- Main induction for comment transparency: if after `k` tokens the
remaining input is `ws ++ post` (`ws` spaces/tabs, `post` not starting
alphabetically), inserting a well-formed comment block `#OBTW mid #TLDR`
between `ws` and `post` leaves the position-erased token stream
unchanged. -/
theorem c6_aux (k : Nat) : ∀ (r ws post mid : List Char) (l c : Nat) (s : LexSt),
    (∀ ch ∈ ws, ch = ' ' ∨ ch = '\t') →
    (∀ ch ∈ mid, ch ≠ '#') →
    (∀ ch, mid.head? = some ch → ch.isAlpha = false) →
    (∀ ch, post.head? = some ch → ch.isAlpha = false) →
    iterTok k ⟨r ++ post, l, c⟩ = some s →
    s.input = ws ++ post →
    lexKinds ⟨r ++ (commentChars mid ++ post), l, c⟩ = lexKinds ⟨r ++ post, l, c⟩ := by
  induction k with
  | zero =>
    intro r ws post mid l c s hws hmid1 hmid2 hpost hiter hbound
    simp only [iterTok] at hiter
    have hs : (⟨r ++ post, l, c⟩ : LexSt) = s := by simpa using hiter
    rw [← hs] at hbound
    dsimp only at hbound
    have hrws : r = ws := append_cancel hbound
    subst hrws
    have hassoc : r ++ (commentChars mid ++ post) = r ++ commentChars mid ++ post :=
      (List.append_assoc r (commentChars mid) post).symm
    rw [hassoc]
    obtain ⟨l2, c2, hcstep⟩ := nextTok_comment r mid post l c hws hmid1 hmid2 hpost
    have hR : nextTok ⟨r ++ post, l, c⟩ = nextTok ⟨post, l, c + r.length⟩ :=
      nextTok_skipws r post l c hws
    have hsim := nextTok_posIrrel post l2 c2 l (c + r.length)
    cases h1 : nextTok ⟨post, l2, c2⟩ with
    | ok p1 =>
      obtain ⟨t1, s1⟩ := p1
      cases h2 : nextTok ⟨post, l, c + r.length⟩ with
      | ok p2 =>
        obtain ⟨t2, s2⟩ := p2
        rw [h1, h2] at hsim
        obtain ⟨hk, hi⟩ := hsim
        have hLn : nextTok ⟨r ++ commentChars mid ++ post, l, c⟩ = .ok (t1, s1) := by
          rw [hcstep, h1]
        have hRn : nextTok ⟨r ++ post, l, c⟩ = .ok (t2, s2) := by
          rw [hR, h2]
        by_cases he : t1.kind = .eof
        · rw [lexKinds_eof _ _ _ hLn he, lexKinds_eof _ _ _ hRn (by rw [← hk]; exact he)]
        · have he2 : t2.kind ≠ .eof := by rw [← hk]; exact he
          rw [lexKinds_cons _ _ _ hLn he, lexKinds_cons _ _ _ hRn he2, hk]
          obtain ⟨x1, y1, z1⟩ := s1
          obtain ⟨x2, y2, z2⟩ := s2
          have hx : x1 = x2 := hi
          subst hx
          rw [lexKinds_posIrrel x1.length x1 y1 z1 y2 z2 (le_refl _)]
      | err e2 => rw [h1, h2] at hsim; exact hsim.elim
      | out => exact absurd h2 (nextTok_not_out _)
    | err e1 =>
      cases h2 : nextTok ⟨post, l, c + r.length⟩ with
      | ok p2 =>
        obtain ⟨t2, s2⟩ := p2
        rw [h1, h2] at hsim
        exact hsim.elim
      | err e2 =>
        rw [h1, h2] at hsim
        have hLn : nextTok ⟨r ++ commentChars mid ++ post, l, c⟩ = .err e1 := by
          rw [hcstep, h1]
        have hRn : nextTok ⟨r ++ post, l, c⟩ = .err e2 := by
          rw [hR, h2]
        rw [lexKinds_err _ _ hLn, lexKinds_err _ _ hRn, hsim]
      | out => exact absurd h2 (nextTok_not_out _)
    | out => exact absurd h1 (nextTok_not_out _)
  | succ k ih =>
    intro r ws post mid l c s hws hmid1 hmid2 hpost hiter hbound
    rw [iterTok] at hiter
    cases hn : nextTok ⟨r ++ post, l, c⟩ with
    | ok p =>
      obtain ⟨t, st1⟩ := p
      rw [hn] at hiter
      simp only [] at hiter
      by_cases he : t.kind = .eof
      · rw [if_pos he] at hiter
        cases hiter
      · rw [if_neg he] at hiter
        have hsfx1 : SuffixOf s.input st1.input := iterTok_suffix k st1 s hiter
        have hsfx0 := (getNextToken_progress ((r ++ post).length + 1)
          ⟨r ++ post, l, c⟩ t st1 hn).1
        have hlen1 : post.length ≤ st1.input.length := by
          have ha := suffixOf_length hsfx1
          rw [hbound] at ha
          simp only [List.length_append] at ha
          omega
        obtain ⟨r1, hr1⟩ := suffix_with_tail hsfx0 hlen1
        have hQhead : (commentChars mid ++ post).head? = some '#' := by
          simp [commentChars]
        have hrun : getNextToken ((r ++ (commentChars mid ++ post)).length + 1)
            ⟨r ++ post, l, c⟩ = .ok (t, st1) := by
          rw [getNextToken_ge ((r ++ (commentChars mid ++ post)).length + 1)
            ⟨r ++ post, l, c⟩
            (by
              dsimp only
              simp only [List.length_append]
              omega)]
          exact hn
        have hfr := getNextToken_frame ((r ++ (commentChars mid ++ post)).length + 1)
          r post (commentChars mid ++ post) l c t st1 r1 hpost hQhead hrun hr1 he
        have hLn : nextTok ⟨r ++ (commentChars mid ++ post), l, c⟩ =
            .ok (t, ⟨r1 ++ (commentChars mid ++ post), st1.line, st1.col⟩) := hfr
        rw [lexKinds_cons _ _ _ hLn he, lexKinds_cons _ _ _ hn he]
        obtain ⟨si, sl1, sc1⟩ := st1
        dsimp only at hr1
        subst hr1
        rw [ih r1 ws post mid sl1 sc1 s hws hmid1 hmid2 hpost hiter hbound]
    | err e => rw [hn] at hiter; cases hiter
    | out => rw [hn] at hiter; cases hiter

/-- Claim C6 as stated is false.  The source `a b` lexes to the kinds
`VarDef "a"`, `VarDef "b"`, `Eof`, and the position after its first two
characters lies between the two adjacent tokens (after one token the
remaining input is `" b"`, and the insertion point splits it as
`" " ++ "b"`).  Inserting the well-formed comment block `#OBTW x #TLDR`
there yields `a #OBTW x #TLDRb`, whose lexing aborts with the fatal
"Unclosed comment block" error instead of producing the same token
sequence: the closing word is read greedily as `TLDRb`, which does not
uppercase to `TLDR`. -/
theorem c6_counterexample :
    "a b".data = "a ".data ++ ['b'] ∧
    "a #OBTW x #TLDRb".data = "a ".data ++ commentChars " x ".data ++ ['b'] ∧
    iterTok 1 ⟨"a b".data, 1, 1⟩ = some ⟨[' ', 'b'], 1, 2⟩ ∧
    kindsOf (lexAll "a b") = .ok [.varDef "a", .varDef "b", .eof] ∧
    kindsOf (lexAll "a #OBTW x #TLDRb") =
      .err "Unclosed comment block - missing #TLDR" := by
  decide

/-- Claim C6 amended: inserting a well-formed comment block
`#OBTW<mid>#TLDR` at a position lying between two adjacent tokens —
after `k` tokens the remaining input is `ws ++ post` with `ws` the
spaces/tabs left of the insertion point — preserves the position-erased
token stream, PROVIDED the comment body contains no `#` and neither the
body nor the text after the insertion point starts with an alphabetic
character (otherwise the greedy word reads `OBTW`/`TLDR` merge with the
following letters, as in the counterexample).  Token positions after the
insertion shift by the comment's length, so the streams are compared
after erasing positions. -/
theorem c6_comment_transparency (r ws post mid : List Char) (l c k : Nat) (s : LexSt)
    (hws : ∀ ch ∈ ws, ch = ' ' ∨ ch = '\t')
    (hmid1 : ∀ ch ∈ mid, ch ≠ '#')
    (hmid2 : ∀ ch ∈ mid.take 1, ch.isAlpha = false)
    (hpost : ∀ ch ∈ post.take 1, ch.isAlpha = false)
    (hiter : iterTok k ⟨r ++ post, l, c⟩ = some s)
    (hbound : s.input = ws ++ post) :
    lexKinds ⟨r ++ (commentChars mid ++ post), l, c⟩ = lexKinds ⟨r ++ post, l, c⟩ := by
  have hmid2' : ∀ ch, mid.head? = some ch → ch.isAlpha = false := by
    intro ch hch
    apply hmid2
    cases mid with
    | nil => cases hch
    | cons a b =>
      have ha : a = ch := by simpa using hch
      subst ha
      simp [List.take]
  have hpost' : ∀ ch, post.head? = some ch → ch.isAlpha = false := by
    intro ch hch
    apply hpost
    cases post with
    | nil => cases hch
    | cons a b =>
      have ha : a = ch := by simpa using hch
      subst ha
      simp [List.take]
  exact c6_aux k r ws post mid l c s hws hmid1 hmid2' hpost' hiter hbound

/-- Witness for the amended C6: inserting `#OBTW x #TLDR` into `a b`
directly after the first token (before the separating space) turns the
source into `a#OBTW x #TLDR b` and leaves the token-kind stream
unchanged. -/
theorem c6_comment_transparency_witness :
    lexKinds ⟨['a'] ++ (commentChars [' ', 'x', ' '] ++ [' ', 'b']), 1, 1⟩ =
      lexKinds ⟨['a'] ++ [' ', 'b'], 1, 1⟩ :=
  c6_comment_transparency ['a'] [] [' ', 'b'] [' ', 'x', ' '] 1 1 1 ⟨[' ', 'b'], 1, 2⟩
    (by decide) (by decide) (by decide) (by decide) (by decide) (by decide)

end Lolcode
